import Mathlib

/-!
# Image-effects pipeline of swaylock-effects (`effects.c`)

A shallow embedding of the transform kernels, the screen-position resolver, the
custom-effect classifier and the pipeline runner, followed by theorems about them.

Modelling conventions

* A pixel buffer is a `List Nat` of packed 32-bit pixels, addressed row-major.  A read or
  write outside the list is undefined behaviour in C; every function that touches memory
  returns `Option`, and `none` stands for undefined behaviour.
* C `int` values are `Int`.  In the screen-position resolver a conversion from floating
  point and a signed sum or difference whose value is outside the range of `int` is undefined
  (`none`); elsewhere integer overflow is not modelled.
* C `float` and `double` values are finite binary floating-point numbers `Flt` of precision
  24 and 53 with round-to-nearest-even and an unbounded exponent (no overflow to infinity, no
  gradual underflow, no signed zero).  A division by zero has no finite result and is `none`.
  Expressions are evaluated operation by operation, without fused multiply-add.
* `#pragma omp parallel for` loops are modelled by their sequential order; their iterations
  write disjoint locations.
-/

namespace Effects

/-! ## Binary floating point -/

/-- A finite binary floating-point value, denoting `m * 2 ^ e`. -/
structure Flt where
  m : Int
  e : Int
deriving DecidableEq

namespace Flt

/-- Worker for `ilog2`, with fuel. -/
def log2Aux : Nat → Nat → Nat
  | 0, _ => 0
  | fuel + 1, n => if n < 2 then 0 else log2Aux fuel (n / 2) + 1

/-- Position of the leading binary digit: `2 ^ ilog2 n ≤ n < 2 ^ (ilog2 n + 1)` for `n ≥ 1`. -/
def ilog2 (n : Nat) : Nat := log2Aux n n

/-- Binary exponent of the positive rational `N / D`: the `k` with
`2 ^ k ≤ N / D < 2 ^ (k + 1)`. -/
def floorLog2 (N D : Nat) : Int :=
  let e0 : Int := (ilog2 N : Int) - (ilog2 D : Int)
  if D * 2 ^ e0.toNat ≤ N * 2 ^ (-e0).toNat then e0 else e0 - 1

/-- Nearest integer to `N / D`, ties to even. -/
def roundHalfEven (N D : Nat) : Nat :=
  let Q : Nat := N / D
  let R : Nat := N % D
  if 2 * R < D then Q else if D < 2 * R then Q + 1 else Q + Q % 2

/-- Round the positive rational `N / D` to `p` significant bits, ties to even.
The result `(m, s)` denotes `m * 2 ^ s` with `2 ^ (p - 1) ≤ m < 2 ^ p`. -/
def roundPos (p N D : Nat) : Nat × Int :=
  let s : Int := floorLog2 N D - ((p : Int) - 1)
  let m : Nat := roundHalfEven (N * 2 ^ (-s).toNat) (D * 2 ^ s.toNat)
  if m = 2 ^ p then (2 ^ (p - 1), s + 1) else (m, s)

/-- Round the rational `(n / d) * 2 ^ e` (with `d > 0`) to precision `p`. -/
def round (p : Nat) (n : Int) (d : Nat) (e : Int) : Flt :=
  if n = 0 then ⟨0, 0⟩
  else
    let r := roundPos p n.natAbs d
    ⟨Int.sign n * (r.1 : Int), r.2 + e⟩

/-- Precision of C `float`. -/
abbrev single : Nat := 24

/-- Precision of C `double`. -/
abbrev double : Nat := 53

/-- Conversion of an integer to a floating-point value of precision `p`. -/
def ofInt (p : Nat) (n : Int) : Flt := round p n 1 0

/-- Conversion between floating-point types (`float` to `double` and back). -/
def cvt (p : Nat) (a : Flt) : Flt := round p a.m 1 a.e

/-- Decimal constant `n / d` of precision `p`, such as `0.2989`. -/
def lit (p : Nat) (n : Int) (d : Nat) : Flt := round p n d 0

/-- Floating-point product. -/
def mul (p : Nat) (a b : Flt) : Flt := round p (a.m * b.m) 1 (a.e + b.e)

/-- Floating-point sum. -/
def add (p : Nat) (a b : Flt) : Flt :=
  let e := min a.e b.e
  round p (a.m * 2 ^ (a.e - e).toNat + b.m * 2 ^ (b.e - e).toNat) 1 e

/-- Floating-point difference. -/
def sub (p : Nat) (a b : Flt) : Flt :=
  let e := min a.e b.e
  round p (a.m * 2 ^ (a.e - e).toNat - b.m * 2 ^ (b.e - e).toNat) 1 e

/-- Floating-point quotient; a zero divisor has no finite quotient. -/
def div (p : Nat) (a b : Flt) : Option Flt :=
  if b.m = 0 then none
  else some (round p (a.m * Int.sign b.m) b.m.natAbs (a.e - b.e))

/-- Strict order of the denoted values. -/
def lt (a b : Flt) : Bool :=
  let e := min a.e b.e
  decide (a.m * 2 ^ (a.e - e).toNat < b.m * 2 ^ (b.e - e).toNat)

/-- C `fmin`. -/
def fmin (a b : Flt) : Flt := if lt b a then b else a

/-- C `fmax`. -/
def fmax (a b : Flt) : Flt := if lt a b then b else a

/-- Conversion to `int`: truncation toward zero. -/
def toInt (a : Flt) : Int :=
  if 0 ≤ a.e then a.m * 2 ^ a.e.toNat else Int.tdiv a.m (2 ^ (-a.e).toNat)

/-- The rational number a floating-point value denotes. -/
def val (a : Flt) : ℚ := (a.m : ℚ) * (2 : ℚ) ^ a.e

/-- The value is in the canonical form produced by rounding to precision `p`. -/
def IsFlt (p : Nat) (a : Flt) : Prop :=
  a = ⟨0, 0⟩ ∨ (2 ^ (p - 1) ≤ a.m.natAbs ∧ a.m.natAbs < 2 ^ p)

instance (p : Nat) (a : Flt) : Decidable (IsFlt p a) := by
  unfold IsFlt; infer_instance

end Flt

/-! ## Pixels, memory and loops -/

/-- Red channel: `(p & 0xff0000) >> 16`. -/
def red (p : Nat) : Nat := (p &&& 0xff0000) >>> 16

/-- Green channel: `(p & 0x00ff00) >> 8`. -/
def green (p : Nat) : Nat := (p &&& 0x00ff00) >>> 8

/-- Blue channel: `p & 0x0000ff`. -/
def blue (p : Nat) : Nat := p &&& 0x0000ff

/-- Alpha channel: `(p & 0xff000000) >> 24`. -/
def alphaOf (p : Nat) : Nat := (p &&& 0xff000000) >>> 24

/-- Pixel `r << 16 | g << 8 | b` for non-negative channel values. -/
def pack (r g b : Int) : Nat := r.toNat <<< 16 ||| g.toNat <<< 8 ||| b.toNat

/-- Memory read `buf[i]`. -/
def rd (buf : List Nat) (i : Int) : Option Nat :=
  if i < 0 then none else buf[i.toNat]?

/-- Memory write `buf[i] = v`. -/
def wr (buf : List Nat) (i : Int) (v : Nat) : Option (List Nat) :=
  if 0 ≤ i ∧ i.toNat < buf.length then some (buf.set i.toNat v) else none

/-- State after the first `n` iterations of `for (i = 0; i < ...; ++i) body`. -/
def forUpTo {σ : Type} (body : Int → σ → Option σ) : Nat → σ → Option σ
  | 0, s => some s
  | k + 1, s => (forUpTo body k s).bind (body (k : Int))

/-- The loop `for (int i = lo; i < hi; ++i) body`. -/
def forRange {σ : Type} (lo hi : Int) (body : Int → σ → Option σ) (s : σ) : Option σ :=
  forUpTo (fun i => body (lo + i)) (hi - lo).toNat s

/-! ## Greyscale -/

/-- The expression `0.2989 * r + 0.5870 * g + 0.1140 * b` converted to `int`. -/
def luma (r g b : Int) : Int :=
  Flt.toInt
    (Flt.add Flt.double
      (Flt.add Flt.double
        (Flt.mul Flt.double (Flt.lit Flt.double 2989 10000) (Flt.ofInt Flt.double r))
        (Flt.mul Flt.double (Flt.lit Flt.double 5870 10000) (Flt.ofInt Flt.double g)))
      (Flt.mul Flt.double (Flt.lit Flt.double 1140 10000) (Flt.ofInt Flt.double b)))

/-- Body of the pixel loop of `effect_greyscale`. -/
def greyscale_pixel (p : Nat) : Nat :=
  let r : Int := red p
  let g : Int := green p
  let b : Int := blue p
  let luma0 := luma r g b
  let luma1 := if luma0 < 0 then 0 else luma0
  let luma2 := if luma1 > 255 then 255 else luma1
  let luma3 := luma2 % 256
  pack luma3 luma3 luma3

/-- The function `effect_greyscale`. -/
def effect_greyscale (data : List Nat) (width height : Int) : Option (List Nat) :=
  forRange 0 height (fun y d =>
    forRange 0 width (fun x d => do
      let index := y * width + x
      let p ← rd d index
      wr d index (greyscale_pixel p)) d) data

/-! ## Box blur -/

/-- Accumulators of one row or column of a blur pass: `r_acc`, `g_acc`, `b_acc`, `range`. -/
structure BlurAcc where
  r_acc : Int
  g_acc : Int
  b_acc : Int
  range : Flt
deriving DecidableEq

/-- The statements `r_acc += ...; g_acc += ...; b_acc += ...` for the pixel `p`. -/
def BlurAcc.plus (a : BlurAcc) (p : Nat) : BlurAcc :=
  { a with r_acc := a.r_acc + red p, g_acc := a.g_acc + green p, b_acc := a.b_acc + blue p }

/-- The statements `r_acc -= ...; g_acc -= ...; b_acc -= ...` for the pixel `p`. -/
def BlurAcc.minus (a : BlurAcc) (p : Nat) : BlurAcc :=
  { a with r_acc := a.r_acc - red p, g_acc := a.g_acc - green p, b_acc := a.b_acc - blue p }

/-- The expression `(int)(acc / range)` with `range` a `float`. -/
def blur_quot (acc : Int) (range : Flt) : Option Int :=
  (Flt.div Flt.single (Flt.ofInt Flt.single acc) range).map Flt.toInt

/-- The pixel `0 | (int)(r_acc / range) << 16 | (int)(g_acc / range) << 8 | (int)(b_acc / range)`. -/
def blur_pixel (a : BlurAcc) : Option Nat := do
  let r ← blur_quot a.r_acc a.range
  let g ← blur_quot a.g_acc a.range
  let b ← blur_quot a.b_acc a.range
  pure (pack r g b)

/-- One line of a blur pass.  The pixel number `i` of the line is at index `pos i` in both
buffers; `len` is the length of the line (`width` for `blur_h`, `height` for `blur_v`). -/
def blur_line (pos : Int → Int) (dest src : List Nat) (len radius : Int) :
    Option (List Nat) := do
  let minradius : Int := if radius < len then radius else len
  let acc0 : BlurAcc := ⟨0, 0, 0, Flt.ofInt Flt.single minradius⟩
  -- Accumulate the range (0..radius)
  let acc1 ← forRange 0 minradius (fun x a => do
    let p ← rd src (pos x)
    pure (a.plus p)) acc0
  -- Deal with the main body
  let st ← forRange 0 len (fun x (st : BlurAcc × List Nat) => do
    let a := st.1
    let a ← if x ≥ minradius then do
        let p ← rd src (pos (x - radius))
        pure { a.minus p with range := Flt.sub Flt.single a.range (Flt.ofInt Flt.single 1) }
      else pure a
    let a ← if x < len - minradius then do
        let p ← rd src (pos (x + radius))
        pure { a.plus p with range := Flt.add Flt.single a.range (Flt.ofInt Flt.single 1) }
      else pure a
    let v ← blur_pixel a
    let d ← wr st.2 (pos x) v
    pure (a, d)) (acc1, dest)
  pure st.2

/-- The function `blur_h`: the line `y` is the row `srow = src + y * width`. -/
def blur_h (dest src : List Nat) (width height radius : Int) : Option (List Nat) :=
  forRange 0 height (fun y d => blur_line (fun x => y * width + x) d src width radius) dest

/-- The function `blur_v`: the line `x` is the column `scol = src + x`. -/
def blur_v (dest src : List Nat) (width height radius : Int) : Option (List Nat) :=
  forRange 0 width (fun x d => blur_line (fun y => x + y * width) d src height radius) dest

/-- The function `blur_once`; the result is the new contents of `dest` and of `scratch`. -/
def blur_once (dest src scratch : List Nat) (width height radius : Int) :
    Option (List Nat × List Nat) := do
  let scratch ← blur_h scratch src width height radius
  let dest ← blur_v dest scratch width height radius
  pure (dest, scratch)

/-- Memory of `effect_blur`: the contents of the two buffers the caller passed, the scratch
buffer, and whether the local pointers `dest` and `src` are currently exchanged. -/
structure BlurMem where
  origdest : List Nat
  origsrc : List Nat
  scratch : List Nat
  swapped : Bool
deriving DecidableEq

/-- The call `blur_once(dest, src, scratch, ...)` through the current pointers. -/
def BlurMem.once (mem : BlurMem) (width height radius : Int) : Option BlurMem :=
  if mem.swapped then do
    let r ← blur_once mem.origsrc mem.origdest mem.scratch width height radius
    pure { mem with origsrc := r.1, scratch := r.2 }
  else do
    let r ← blur_once mem.origdest mem.origsrc mem.scratch width height radius
    pure { mem with origdest := r.1, scratch := r.2 }

/-- The call `memcpy(dst, src, n * sizeof(uint32_t))`. -/
def memcpy (dst src : List Nat) (n : Int) : Option (List Nat) :=
  if n.toNat ≤ dst.length ∧ n.toNat ≤ src.length then
    some (src.take n.toNat ++ dst.drop n.toNat)
  else none

/-- The function `effect_blur`.  The result is the final contents of the caller's two buffers
`(dest, src)`; the scratch buffer is allocated with `width * height` pixels. -/
def effect_blur (dest src : List Nat) (width height scale radius times : Int) :
    Option (List Nat × List Nat) := do
  let mem0 : BlurMem := ⟨dest, src, List.replicate (width * height).toNat 0, false⟩
  let mem1 ← mem0.once width height (radius * scale)
  let mem2 ← forRange 0 (times - 1) (fun _ mem =>
    BlurMem.once { mem with swapped := !mem.swapped } width height (radius * scale)) mem1
  if mem2.swapped then do
    let d ← memcpy mem2.origdest mem2.origsrc (width * height)
    pure (d, mem2.origsrc)
  else pure (mem2.origdest, mem2.origsrc)

/-! ## Pixelate -/

/-- Sums `total_r`, `total_g`, `total_b` of a block. -/
structure Totals where
  total_r : Int
  total_g : Int
  total_b : Int
deriving DecidableEq

/-- One block of `effect_pixelate`: average, then fill. -/
def pixelate_block (width height factor x y : Int) (data : List Nat) : Option (List Nat) := do
  let xstart := x * factor
  let ystart := y * factor
  let xlim := min (xstart + factor) width
  let ylim := min (ystart + factor) height
  -- Average
  let t ← forRange ystart ylim (fun ry t =>
    forRange xstart xlim (fun rx (t : Totals) => do
      let index := ry * width + rx
      let p ← rd data index
      pure ⟨t.total_r + red p, t.total_g + green p, t.total_b + blue p⟩) t) ⟨0, 0, 0⟩
  let r := Int.tdiv t.total_r (factor * factor)
  let g := Int.tdiv t.total_g (factor * factor)
  let b := Int.tdiv t.total_b (factor * factor)
  -- Fill pixels
  forRange ystart ylim (fun ry d =>
    forRange xstart xlim (fun rx d => wr d (ry * width + rx) (pack r g b)) d) data

/-- The function `effect_pixelate`.  The divisions `height / factor` and `width / factor` are
undefined for a zero block side. -/
def effect_pixelate (data : List Nat) (width height scale factor : Int) : Option (List Nat) :=
  let factor := factor * scale
  if factor = 0 then none
  else
    forRange 0 (Int.tdiv height factor + 1) (fun y d =>
      forRange 0 (Int.tdiv width factor + 1) (fun x d =>
        pixelate_block width height factor x y d) d) data

/-! ## Scale -/

/-- The function `effect_scale`.  `fact = 1.0 / scale` has no finite value for a zero
`scale`; it is only needed when a loop body runs. -/
def effect_scale (dest src : List Nat) (swidth sheight : Int) (scale : Flt) :
    Option (List Nat) :=
  let dwidth : Int := Flt.toInt (Flt.mul Flt.double (Flt.ofInt Flt.double swidth) scale)
  let dheight : Int := Flt.toInt (Flt.mul Flt.double (Flt.ofInt Flt.double sheight) scale)
  let fact : Option Flt := Flt.div Flt.double (Flt.ofInt Flt.double 1) scale
  forRange 0 dheight (fun dy d => do
    let f ← fact
    let sy : Int := Flt.toInt (Flt.mul Flt.double (Flt.ofInt Flt.double dy) f)
    if sy ≥ sheight then pure d
    else
      forRange 0 dwidth (fun dx d => do
        let sx : Int := Flt.toInt (Flt.mul Flt.double (Flt.ofInt Flt.double dx) f)
        if sx ≥ swidth then pure d
        else do
          let v ← rd src (sy * swidth + sx)
          wr d (dy * dwidth + dx) v) d) dest

/-! ## Vignette -/

/-- The parameter `base` after `base = fmin(1, fmax(0, base))`. -/
def vignette_base (base : Flt) : Flt :=
  Flt.fmin (Flt.ofInt Flt.double 1) (Flt.fmax (Flt.ofInt Flt.double 0) base)

/-- The parameter `factor` after `factor = fmin(1 - base, fmax(0, factor))`, where `base` is
the clamped base. -/
def vignette_strength (base factor : Flt) : Flt :=
  Flt.fmin (Flt.sub Flt.double (Flt.ofInt Flt.double 1) base)
    (Flt.fmax (Flt.ofInt Flt.double 0) factor)

/-- The expression `base + factor * 16 * xf * yf * (1.0 - xf) * (1.0 - yf)`. -/
def vignette_mult (base factor xf yf : Flt) : Flt :=
  let one := Flt.ofInt Flt.double 1
  Flt.add Flt.double base
    (Flt.mul Flt.double
      (Flt.mul Flt.double
        (Flt.mul Flt.double
          (Flt.mul Flt.double
            (Flt.mul Flt.double factor (Flt.ofInt Flt.double 16)) xf) yf)
        (Flt.sub Flt.double one xf))
      (Flt.sub Flt.double one yf))

/-- The expression `(x * 1.0) / width`. -/
def vignette_coord (x width : Int) : Option Flt :=
  Flt.div Flt.double
    (Flt.mul Flt.double (Flt.ofInt Flt.double x) (Flt.ofInt Flt.double 1))
    (Flt.ofInt Flt.double width)

/-- The expression `(int)(c * vignette_factor) & 0xFF` for a channel value `c`. -/
def vignette_chan (c : Nat) (vf : Flt) : Int :=
  Flt.toInt (Flt.mul Flt.double (Flt.ofInt Flt.double c) vf) % 256

/-- The factor `vignette_factor` at the pixel `(x, y)`, from the clamped parameters. -/
def vignette_factor (base factor : Flt) (width height x y : Int) : Option Flt := do
  let xf ← vignette_coord x width
  let yf ← vignette_coord y height
  pure (vignette_mult base factor xf yf)

/-- The function `effect_vignette`. -/
def effect_vignette (data : List Nat) (width height : Int) (base factor : Flt) :
    Option (List Nat) :=
  let base := vignette_base base
  let factor := vignette_strength base factor
  forRange 0 height (fun y d =>
    forRange 0 width (fun x d => do
      let vf ← vignette_factor base factor width height x y
      let index := y * width + x
      let p ← rd d index
      let r := vignette_chan (red p) vf
      let g := vignette_chan (green p) vf
      let b := vignette_chan (blue p) vf
      wr d index (pack r g b)) d) data

/-! ## Screen positions -/

/-- Modelled from the spec: the type `struct swaylock_effect_screen_pos` is declared in
`effects.h`, which is not among the sources.  A screen position is a signed numeric value
(a C `float`) and a flag telling whether the value is a percentage of the screen dimension. -/
structure ScreenPos where
  pos : Flt
  is_percent : Bool
deriving DecidableEq

/-- Modelled from the spec: the gravity constants `EFFECT_COMPOSE_GRAV_*` are declared in
`effects.h`, which is not among the sources.  Gravity is one of 9 anchor points. -/
inductive Gravity where
  | CENTER | NW | NE | SW | SE | N | S | E | W
deriving DecidableEq

/-- The least value of a C `int`. -/
def INT_MIN : Int := -2147483648

/-- The greatest value of a C `int`. -/
def INT_MAX : Int := 2147483647

/-- An `int` result of the position resolver: the value when it lies in the range of `int`.
Outside that range the conversion or the signed arithmetic that produced it is undefined. -/
def to_c_int (z : Int) : Option Int :=
  if INT_MIN ≤ z ∧ z ≤ INT_MAX then some z else none

/-- Conversion of a floating-point value to `int`: truncation toward zero, undefined when the
truncated value is outside the range of `int`. -/
def Flt.toCInt (a : Flt) : Option Int := to_c_int (Flt.toInt a)

/-- The expression `(pos.pos / 100.0) * screensize` converted to `int`. -/
def percent_to_pix (pos : Flt) (screensize : Int) : Option Int := do
  let q ← Flt.div Flt.double (Flt.cvt Flt.double pos) (Flt.ofInt Flt.double 100)
  Flt.toCInt (Flt.mul Flt.double q (Flt.ofInt Flt.double screensize))

/-- The expression `pos.pos * scale` converted to `int`. -/
def scaled_to_pix (pos : Flt) (scale : Int) : Option Int :=
  Flt.toCInt (Flt.mul Flt.single pos (Flt.ofInt Flt.single scale))

/-- The function `screen_size_to_pix`. -/
def screen_size_to_pix (size : ScreenPos) (screensize scale : Int) : Option Int :=
  if size.is_percent then percent_to_pix size.pos screensize
  else if Flt.lt (Flt.ofInt Flt.single 0) size.pos then scaled_to_pix size.pos scale
  else Flt.toCInt size.pos

/-- The function `screen_pos_to_pix`. -/
def screen_pos_to_pix (pos : ScreenPos) (screensize scale : Int) : Option Int := do
  let actual ← if pos.is_percent then percent_to_pix pos.pos screensize
    else scaled_to_pix pos.pos scale
  if actual < 0 then to_c_int (screensize + actual) else pure actual

/-- The function `screen_pos_pair_to_pix`; the result is `(*outx, *outy)`. -/
def screen_pos_pair_to_pix (posx posy : ScreenPos) (objwidth objheight : Int)
    (screenwidth screenheight scale : Int) (gravity : Gravity) : Option (Int × Int) := do
  let x ← screen_pos_to_pix posx screenwidth scale
  let y ← screen_pos_to_pix posy screenheight scale
  -- Adjust X
  let x ← match gravity with
    | .CENTER | .N | .S => to_c_int (x - Int.tdiv objwidth 2)
    | .NW | .SW | .W => pure x
    | .NE | .SE | .E => to_c_int (x - objwidth)
  -- Adjust Y
  let y ← match gravity with
    | .CENTER | .W | .E => to_c_int (y - Int.tdiv objheight 2)
    | .NW | .NE | .N => pure y
    | .SW | .SE | .S => to_c_int (y - objheight)
  pure (x, y)

/-! ## Compose -/

/-- One channel of `blend_pixels`: `(uint32_t)(src + dest * (1 - alpha))`.  The conversion of
a negative value to `uint32_t` is undefined. -/
def blend_chan (alpha : Flt) (src dest : Nat) : Option Nat :=
  let v := Flt.toInt
    (Flt.add Flt.single (Flt.ofInt Flt.single src)
      (Flt.mul Flt.single (Flt.ofInt Flt.single dest)
        (Flt.sub Flt.single (Flt.ofInt Flt.single 1) alpha)))
  if v < 0 then none else some (v.toNat % 2 ^ 32)

/-- The function `blend_pixels`, on `uint32_t` values. -/
def blend_pixels (alpha : Flt) (srcpix destpix : Nat) : Option Nat := do
  let r ← blend_chan alpha (red srcpix) (red destpix)
  let g ← blend_chan alpha (green srcpix) (green destpix)
  let b ← blend_chan alpha (blue srcpix) (blue destpix)
  pure (0 ||| 255 <<< 24 ||| (r <<< 16) % 2 ^ 32 ||| (g <<< 8) % 2 ^ 32 ||| b)

/-- The image surface made from the loaded picture: `bufw`, `bufh`, `bufdata`, `bufstride`
(in pixels) and `bufalpha` of `effect_compose`. -/
structure Image where
  bufw : Int
  bufh : Int
  bufdata : List Nat
  bufstride : Int
  bufalpha : Bool
deriving DecidableEq

/-- The argument `alpha / 255.0` as received by the `float` parameter of `blend_pixels`. -/
def compose_alpha (alpha : Nat) : Option Flt :=
  (Flt.div Flt.double (Flt.ofInt Flt.double alpha) (Flt.ofInt Flt.double 255)).map
    (Flt.cvt Flt.single)

/-- Body of the inner loop of `effect_compose`, after the two range tests. -/
def compose_pixel (data : List Nat) (width : Int) (img : Image) (imgx imgy offx offy : Int) :
    Option (List Nat) := do
  let idx := (offy + imgy) * width + (offx + imgx)
  let bufidx := offy * img.bufstride + offx
  let v ← rd img.bufdata bufidx
  if !img.bufalpha then wr data idx v
  else
    let alpha := alphaOf v
    if alpha = 255 then wr data idx v
    else if alpha ≠ 0 then do
      let a ← compose_alpha alpha
      let dp ← rd data idx
      let b ← blend_pixels a v dp
      wr data idx b
    else pure data

/-- The compose loop of `effect_compose`. -/
def compose_loop (data : List Nat) (width height : Int) (img : Image) (imgx imgy : Int) :
    Option (List Nat) :=
  forRange 0 img.bufh (fun offy d =>
    if offy + imgy < 0 ∨ offy + imgy > height then pure d
    else
      forRange 0 img.bufw (fun offx d =>
        if offx + imgx < 0 ∨ offx + imgx > width then pure d
        else compose_pixel d width img imgx imgy offx offy) d) data

/-- The function `effect_compose`, built with picture support.  `load imgw imgh preserve_aspect`
is the outcome of loading the picture at the requested size and turning it into an image
surface; `none` is a failed load. -/
def effect_compose (data : List Nat) (width height scale : Int)
    (posx posy posw posh : ScreenPos) (gravity : Gravity)
    (load : Int → Int → Bool → Option Image) : Option (List Nat) := do
  let imgw ← screen_size_to_pix posw width scale
  let imgh ← screen_size_to_pix posh height scale
  let preserve_aspect : Bool := decide (imgw < 0) || decide (imgh < 0)
  match load imgw imgh preserve_aspect with
  | none => pure data
  | some img => do
    let xy ← screen_pos_pair_to_pix posx posy img.bufw img.bufh width height scale gravity
    compose_loop data width height img xy.1 xy.2

/-! ## Custom effects -/

/-- A C string: its chars, without the terminating NUL. -/
abbrev CStr := List Char

/-- A loaded shared object: the symbols `swaylock_effect` and `swaylock_pixel`, when present. -/
structure Plugin where
  effect_func : Option (List Nat → Int → Int → Int → List Nat)
  pixel_func : Option (Nat → Int → Int → Int → Int → Nat)

/-- The environment of the process: everything `effects.c` asks of the operating system and
of the picture and surface libraries. -/
structure World where
  getenv : CStr → Option CStr
  mkdir_ok : CStr → Bool
  realpath : CStr → Option CStr
  mtime : CStr → Option (Int × Int)
  system : CStr → Int
  dlopen : CStr → Option Plugin
  surface_ok : Int → Int → Bool
  load_image : CStr → Int → Int → Bool → Option Image

/-- What a custom effect did besides changing the buffer: an error was logged, `dlopen` was
called on a path (whether or not it succeeded), or `system` was called on a compiler
command. -/
inductive Event where
  | logged
  | loaded (path : CStr)
  | compiled (cmd : CStr)
deriving DecidableEq

/-- The function `effect_custom_run`. -/
def effect_custom_run (W : World) (data : List Nat) (width height scale : Int) (path : CStr) :
    Option (List Nat × List Event) :=
  match W.dlopen path with
  | none => some (data, [Event.loaded path, Event.logged])
  | some dl =>
    match dl.effect_func with
    | some effect_func => some (effect_func data width height scale, [Event.loaded path])
    | none =>
      match dl.pixel_func with
      | some pixel_func =>
        (forRange 0 height (fun y d =>
          forRange 0 width (fun x d => do
            let p ← rd d (y * width + x)
            wr d (y * width + x) (pixel_func p x y width height)) d) data).map
          (fun d => (d, [Event.loaded path]))
      | none => some (data, [Event.loaded path, Event.logged])

/-- The function `file_is_outdated`: `stat` of both files, then the comparison of the
modification times `(tv_sec, tv_nsec)`. -/
def file_is_outdated (W : World) (input output : CStr) : Bool :=
  match W.mtime input with
  | none => true
  | some instat =>
    match W.mtime output with
    | none => true
    | some outstat =>
      if instat.1 > outstat.1 then true
      else if instat.1 = outstat.1 ∧ instat.2 ≥ outstat.2 then true
      else false

/-- The directory `cachepath` of `effect_custom_compile`, from `XDG_DATA_HOME` or `HOME`;
`none` when neither is set.  The function keeps it in a static variable; under a fixed
environment that is the value computed here. -/
def cache_dir (W : World) : Option CStr :=
  match W.getenv "XDG_DATA_HOME".data with
  | some xdgdir => some (xdgdir ++ "/swaylock".data)
  | none =>
    match W.getenv "HOME".data with
    | none => none
    | some homedir => some (homedir ++ "/.cache/swaylock".data)

/-- The test of the sanitizing loop: the char is kept. -/
def sanitize_keep (ch : Char) : Bool :=
  (decide ('a' ≤ ch) && decide (ch ≤ 'z')) ||
  (decide ('A' ≤ ch) && decide (ch ≤ 'Z')) ||
  (decide ('0' ≤ ch) && decide (ch ≤ '9')) ||
  decide (ch = '.')

/-- The sanitizing loop over `outpath + cachelen + 1 .. outpath + cachelen + 1 + abspathlen`. -/
def sanitize (outpath : CStr) (cachelen abspathlen : Nat) : CStr :=
  outpath.enum.map (fun ic =>
    if cachelen + 1 ≤ ic.1 ∧ ic.1 < cachelen + 1 + abspathlen then
      (if sanitize_keep ic.2 then ic.2 else '_')
    else ic.2)

/-- The artifact path `outpath` of `effect_custom_compile`, after sanitizing. -/
def artifact_path (cachepath abspath : CStr) : CStr :=
  sanitize (cachepath ++ "/".data ++ abspath ++ ".so".data) cachepath.length abspath.length

/-- The command line given to `system`. -/
def compile_cmd (outpath abspath : CStr) : CStr :=
  "cc -shared -g -O2 -march=native -fopenmp -o '".data ++ outpath ++ "' '".data ++ abspath ++
    "' -lm".data

/-- The function `effect_custom_compile`.  The result is the returned path (`none` for `NULL`)
and what was done; `strlen` of a failed `realpath` is undefined. -/
def effect_custom_compile (W : World) (path : CStr) : Option (Option CStr × List Event) :=
  match cache_dir W with
  | none => some (none, [Event.logged])
  | some cachepath =>
    if !W.mkdir_ok cachepath then some (none, [Event.logged])
    else
      match W.realpath path with
      | none => none
      | some abspath =>
        let outpath := artifact_path cachepath abspath
        if !file_is_outdated W path outpath then some (some outpath, [])
        else
          let cmd := compile_cmd outpath abspath
          let ret := W.system cmd
          if ret ≠ 0 then some (none, [Event.compiled cmd, Event.logged])
          else some (some outpath, [Event.compiled cmd])

/-- The function `effect_custom`. -/
def effect_custom (W : World) (data : List Nat) (width height scale : Int) (path : CStr) :
    Option (List Nat × List Event) :=
  let pathlen := path.length
  if pathlen > 3 ∧ path.drop (pathlen - 3) = ".so".data then
    effect_custom_run W data width height scale path
  else if pathlen > 2 ∧ path.drop (pathlen - 2) = ".c".data then do
    let c ← effect_custom_compile W path
    match c.1 with
    | some compiled => do
      let r ← effect_custom_run W data width height scale compiled
      pure (r.1, c.2 ++ r.2)
    | none => pure (data, c.2)
  else some (data, [Event.logged])

/-! ## Pipeline runner -/

/-- Pixel formats of an image surface. -/
inductive Format where
  | RGB24
  | ARGB32
deriving DecidableEq

/-- An image surface: format, width, height and pixels; the stride is the width. -/
structure Surface where
  format : Format
  width : Int
  height : Int
  data : List Nat
deriving DecidableEq

/-- An effect descriptor, `struct swaylock_effect`. -/
inductive Effect where
  | BLUR (radius times : Int)
  | PIXELATE (factor : Int)
  | SCALE (scale : Flt)
  | GREYSCALE
  | VIGNETTE (base factor : Flt)
  | COMPOSE (x y w h : ScreenPos) (gravity : Gravity) (imgpath : CStr)
  | CUSTOM (custom : CStr)
deriving DecidableEq

/-- The call `cairo_image_surface_create(CAIRO_FORMAT_RGB24, width, height)`: a cleared
surface, or `none` when its status is not `CAIRO_STATUS_SUCCESS`. -/
def surface_create (W : World) (width height : Int) : Option Surface :=
  if W.surface_ok width height then
    some ⟨Format.RGB24, width, height, List.replicate (width * height).toNat 0⟩
  else none

/-- The function `run_effect`. -/
def run_effect (W : World) (surface : Surface) (scale : Int) (effect : Effect) :
    Option Surface :=
  match effect with
  | .BLUR radius times =>
    match surface_create W surface.width surface.height with
    | none => some surface
    | some surf => do
      let r ← effect_blur surf.data surface.data surface.width surface.height scale radius times
      pure { surf with data := r.1 }
  | .PIXELATE factor => do
    let d ← effect_pixelate surface.data surface.width surface.height scale factor
    pure { surface with data := d }
  | .SCALE k =>
    match surface_create W
        (Flt.toInt (Flt.mul Flt.double (Flt.ofInt Flt.double surface.width) k))
        (Flt.toInt (Flt.mul Flt.double (Flt.ofInt Flt.double surface.height) k)) with
    | none => some surface
    | some surf => do
      let d ← effect_scale surf.data surface.data surface.width surface.height k
      pure { surf with data := d }
  | .GREYSCALE => do
    let d ← effect_greyscale surface.data surface.width surface.height
    pure { surface with data := d }
  | .VIGNETTE base factor => do
    let d ← effect_vignette surface.data surface.width surface.height base factor
    pure { surface with data := d }
  | .COMPOSE x y w h gravity imgpath => do
    let d ← effect_compose surface.data surface.width surface.height scale x y w h gravity
      (W.load_image imgpath)
    pure { surface with data := d }
  | .CUSTOM custom => do
    let r ← effect_custom W surface.data surface.width surface.height scale custom
    pure { surface with data := r.1 }

/-- The function `ensure_format`; the inner `none` is the `NULL` result. -/
def ensure_format (W : World) (surface : Surface) : Option (Option Surface) :=
  if surface.format = Format.RGB24 then some (some surface)
  else
    match surface_create W surface.width surface.height with
    | none => some none
    | some surf => do
      let d ← memcpy surf.data surface.data (surface.width * surface.height)
      pure (some { surf with data := d })

/-- The function `swaylock_effects_run`; the inner `none` is the `NULL` result. -/
def swaylock_effects_run (W : World) (surface : Surface) (scale : Int)
    (effects : List Effect) (count : Int) : Option (Option Surface) := do
  let s ← ensure_format W surface
  match s with
  | none => pure none
  | some surface => do
    let r ← forRange 0 count (fun i surface => do
      let effect ← effects[i.toNat]?
      run_effect W surface scale effect) surface
    pure (some r)

/-! ## Reference values of the specification -/

/-- As the specification states pixelate: the original pixels of the block of side `f` that
contains `(x, y)`, the block being cut at the right and bottom edges of the buffer. -/
def block_pixels (data : List Nat) (width height f x y : Nat) : List Nat :=
  let x0 := x / f * f
  let y0 := y / f * f
  (List.range' y0 (min (y0 + f) height - y0)).flatMap (fun ry =>
    (List.range' x0 (min (x0 + f) width - x0)).map (fun rx => data.getD (ry * width + rx) 0))

/-- As the specification states pixelate: the truncated mean of each channel over the block,
dividing by the number of pixels in the block. -/
def block_mean (data : List Nat) (width height f x y : Nat) : Nat :=
  let px := block_pixels data width height f x y
  pack (((px.map red).sum / px.length : Nat) : Int) (((px.map green).sum / px.length : Nat) : Int)
    (((px.map blue).sum / px.length : Nat) : Int)

/-- A sample environment, for evaluating the model on concrete inputs: `HOME` is `/home/u`,
directories can be made, every path is canonical, no file has a modification time, the
compiler succeeds, every shared object loads and exports a `swaylock_pixel` that paints
black, surfaces can be created and no picture loads. -/
def sampleWorld : World where
  getenv := fun name => if name = "HOME".data then some "/home/u".data else none
  mkdir_ok := fun _ => true
  realpath := fun p => some p
  mtime := fun _ => none
  system := fun _ => 0
  dlopen := fun _ => some ⟨none, some (fun _ _ _ _ _ => 0)⟩
  surface_ok := fun _ _ => true
  load_image := fun _ _ _ _ => none

/-- Truncation of a rational number toward zero, the value of a C conversion to `int`. -/
def truncQ (q : ℚ) : Int := if 0 ≤ q then ⌊q⌋ else ⌈q⌉

/-- As the specification states the horizontal shift of a gravity: 0 for the west-anchored
gravities, half the object width (integer division) for the centred ones, the full object
width for the east-anchored ones. -/
def gravity_dx (gravity : Gravity) (objwidth : Int) : Int :=
  match gravity with
  | .NW | .W | .SW => 0
  | .N | .CENTER | .S => Int.tdiv objwidth 2
  | .NE | .E | .SE => objwidth

/-- As the specification states the vertical shift of a gravity: 0 for the north-anchored
gravities, half the object height (integer division) for the centred ones, the full object
height for the south-anchored ones. -/
def gravity_dy (gravity : Gravity) (objheight : Int) : Int :=
  match gravity with
  | .NW | .N | .NE => 0
  | .W | .CENTER | .E => Int.tdiv objheight 2
  | .SW | .S | .SE => objheight

/-- The sample environment with modification times: `tsrc` for the file `source` and `tart`
for every other file. -/
def timedWorld (source : CStr) (tsrc tart : Int × Int) : World :=
  { sampleWorld with mtime := fun p => if p = source then some tsrc else some tart }

/-- As the specification states one channel of a blurred line: the truncated mean of the
channel over the positions `x - r .. x + r` that lie inside the line, divided by the number
of positions actually in the window. -/
def window_mean (chan : Nat → Nat) (line : List Nat) (x r : Nat) : Nat :=
  let lo := x - r
  let hi := min (line.length - 1) (x + r)
  let w := (List.range (hi + 1 - lo)).map (fun i => chan (line.getD (lo + i) 0))
  w.sum / w.length

/-- As the specification states a blurred pixel: the three window means, packed. -/
def window_pixel (line : List Nat) (x r : Nat) : Nat :=
  pack (window_mean red line x r) (window_mean green line x r) (window_mean blue line x r)

/-- As the specification states the horizontal pass: every pixel is the window mean along
its row. -/
def blur_h_windowed (src : List Nat) (width height r : Nat) : List Nat :=
  (List.range (width * height)).map (fun i =>
    window_pixel ((src.drop (i / width * width)).take width) (i % width) r)

/-- As the specification states the vertical pass: every pixel is the window mean along
its column. -/
def blur_v_windowed (src : List Nat) (width height r : Nat) : List Nat :=
  (List.range (width * height)).map (fun i =>
    window_pixel ((List.range height).map (fun y => src.getD (y * width + i % width) 0))
      (i / width) r)

/-! ## The loop nest of scale -/

/-- The loop nest of `effect_scale`, for given values of `dwidth` and `dheight`; `coord k` is
the value of `(int)(k * fact)`, and has no value when `fact` has none. -/
def scale_loop (dest src : List Nat) (swidth sheight dwidth dheight : Int)
    (coord : Int → Option Int) : Option (List Nat) :=
  forRange 0 dheight (fun dy d => do
    let sy ← coord dy
    if sy ≥ sheight then pure d
    else
      forRange 0 dwidth (fun dx d => do
        let sx ← coord dx
        if sx ≥ swidth then pure d
        else do
          let v ← rd src (sy * swidth + sx)
          wr d (dy * dwidth + dx) v) d) dest

/-! ## Blending -/

/-- As the specification states a blended channel: `src * a + dest * (1 - a)` with
`a = alpha / 255`, truncated. -/
def source_over_chan (alpha src dest : Nat) : Nat :=
  (src * alpha + dest * (255 - alpha)) / 255

/-- The value `src + dest * (1 - alpha)` of one channel of `blend_pixels`, computed in `float`
as the code does, before the conversion to `uint32_t`. -/
def blend_value (alpha : Flt) (src dest : Nat) : ℚ :=
  Flt.val (Flt.add Flt.single (Flt.ofInt Flt.single src)
    (Flt.mul Flt.single (Flt.ofInt Flt.single dest)
      (Flt.sub Flt.single (Flt.ofInt Flt.single 1) alpha)))

/-! ## Relations between two runs -/

/-- Two possibly undefined results: both undefined, or both defined and related by `R`. -/
def optRel {α β : Type} (R : α → β → Prop) : Option α → Option β → Prop
  | some a, some b => R a b
  | none, none => True
  | _, _ => False

/-- As the specification states the class `[A-Za-z0-9.]`: a letter, a digit or the dot. -/
def safe_char (ch : Char) : Bool := ch.isAlphanum || ch == '.'

/-- As the specification states the sanitized token: the path with every char outside
`[A-Za-z0-9.]` replaced by `_` and every other char kept. -/
def sanitized (abspath : CStr) : CStr :=
  abspath.map (fun ch => if safe_char ch then ch else '_')

/-! ## Blur line, step by step -/

namespace Flt

theorem log2Aux_spec : ∀ fuel n : Nat, n ≤ fuel → 0 < n →
    2 ^ log2Aux fuel n ≤ n ∧ n < 2 ^ (log2Aux fuel n + 1) := by
  intro fuel
  induction fuel with
  | zero => intro n h1 h2; omega
  | succ k ih =>
    intro n h1 h2
    unfold log2Aux
    by_cases h : n < 2
    · simp only [h, if_true]
      constructor <;> simp <;> omega
    · simp only [h, if_false]
      have := ih (n / 2) (by omega) (by omega)
      obtain ⟨a, b⟩ := this
      rw [pow_succ, pow_succ]
      rw [pow_succ] at b
      constructor <;> omega

theorem ilog2_spec (n : Nat) (h : 0 < n) : 2 ^ ilog2 n ≤ n ∧ n < 2 ^ (ilog2 n + 1) :=
  log2Aux_spec n n le_rfl h

theorem two_zpow_split (k : Int) :
    (2 : ℚ) ^ k = (2 : ℚ) ^ k.toNat / (2 : ℚ) ^ (-k).toNat := by
  rcases le_total 0 k with h | h
  · obtain ⟨n, rfl⟩ := Int.eq_ofNat_of_zero_le h
    simp
  · obtain ⟨n, hn⟩ := Int.eq_ofNat_of_zero_le (neg_nonneg.mpr h)
    have : k = -(n : Int) := by omega
    subst this
    simp

theorem floorLog2_spec (N D : Nat) (hN : 0 < N) (hD : 0 < D) :
    (2 : ℚ) ^ floorLog2 N D ≤ (N : ℚ) / D ∧ (N : ℚ) / D < (2 : ℚ) ^ (floorLog2 N D + 1) := by
  obtain ⟨n1, n2⟩ := ilog2_spec N hN
  obtain ⟨d1, d2⟩ := ilog2_spec D hD
  have hDq : (0 : ℚ) < D := by exact_mod_cast hD
  have n1q : (2 : ℚ) ^ (ilog2 N : Int) ≤ N := by
    rw [zpow_natCast]; exact_mod_cast n1
  have n2q : (N : ℚ) < (2 : ℚ) ^ ((ilog2 N : Int) + 1) := by
    rw [show ((ilog2 N : Int) + 1) = ((ilog2 N + 1 : Nat) : Int) by simp, zpow_natCast]
    exact_mod_cast n2
  have d1q : (2 : ℚ) ^ (ilog2 D : Int) ≤ D := by
    rw [zpow_natCast]; exact_mod_cast d1
  have d2q : (D : ℚ) < (2 : ℚ) ^ ((ilog2 D : Int) + 1) := by
    rw [show ((ilog2 D : Int) + 1) = ((ilog2 D + 1 : Nat) : Int) by simp, zpow_natCast]
    exact_mod_cast d2
  have two_pos : ∀ k : Int, (0 : ℚ) < (2 : ℚ) ^ k := fun k => zpow_pos (by norm_num) k
  -- the test of `floorLog2`
  have test : ∀ e0 : Int, (D * 2 ^ e0.toNat ≤ N * 2 ^ (-e0).toNat) ↔
      (2 : ℚ) ^ e0 ≤ (N : ℚ) / D := by
    intro e0
    rw [two_zpow_split e0, le_div_iff₀ hDq, div_mul_eq_mul_div, div_le_iff₀ (by positivity)]
    constructor
    · intro h
      have : ((D * 2 ^ e0.toNat : Nat) : ℚ) ≤ ((N * 2 ^ (-e0).toNat : Nat) : ℚ) := by
        exact_mod_cast h
      push_cast at this
      linarith
    · intro h
      have : ((D * 2 ^ e0.toNat : Nat) : ℚ) ≤ ((N * 2 ^ (-e0).toNat : Nat) : ℚ) := by
        push_cast; linarith
      exact_mod_cast this
  unfold floorLog2
  simp only
  split
  · rename_i h
    rw [test] at h
    refine ⟨h, ?_⟩
    rw [div_lt_iff₀ hDq]
    calc (N : ℚ) < (2 : ℚ) ^ ((ilog2 N : Int) + 1) := n2q
      _ = (2 : ℚ) ^ ((ilog2 N : Int) - (ilog2 D : Int) + 1) * (2 : ℚ) ^ (ilog2 D : Int) := by
          rw [← zpow_add₀ (by norm_num)]; congr 1; ring
      _ ≤ (2 : ℚ) ^ ((ilog2 N : Int) - (ilog2 D : Int) + 1) * D :=
          mul_le_mul_of_nonneg_left d1q (le_of_lt (two_pos _))
  · rename_i h
    rw [test] at h
    push_neg at h
    refine ⟨?_, by simpa using h⟩
    rw [le_div_iff₀ hDq]
    calc (2 : ℚ) ^ ((ilog2 N : Int) - (ilog2 D : Int) - 1) * D
        ≤ (2 : ℚ) ^ ((ilog2 N : Int) - (ilog2 D : Int) - 1) * (2 : ℚ) ^ ((ilog2 D : Int) + 1) :=
          mul_le_mul_of_nonneg_left (le_of_lt d2q) (le_of_lt (two_pos _))
      _ = (2 : ℚ) ^ (ilog2 N : Int) := by
          rw [← zpow_add₀ (by norm_num)]; congr 1; ring
      _ ≤ N := n1q

theorem floorLog2_unique (N D : Nat) (hN : 0 < N) (hD : 0 < D) (k : Int)
    (h1 : (2 : ℚ) ^ k ≤ (N : ℚ) / D) (h2 : (N : ℚ) / D < (2 : ℚ) ^ (k + 1)) :
    floorLog2 N D = k := by
  obtain ⟨s1, s2⟩ := floorLog2_spec N D hN hD
  have a : (2 : ℚ) ^ k < (2 : ℚ) ^ (floorLog2 N D + 1) := lt_of_le_of_lt h1 s2
  have b : (2 : ℚ) ^ floorLog2 N D < (2 : ℚ) ^ (k + 1) := lt_of_le_of_lt s1 h2
  rw [zpow_lt_zpow_iff_right₀ (by norm_num)] at a b
  omega

theorem roundHalfEven_exact (M D : Nat) (hD : 0 < D) : roundHalfEven (M * D) D = M := by
  unfold roundHalfEven
  simp [Nat.mul_mod_left, Nat.mul_div_cancel _ hD, hD]

theorem roundHalfEven_le (N D K : Nat) (hD : 0 < D) (h : N ≤ K * D) :
    roundHalfEven N D ≤ K := by
  unfold roundHalfEven
  have hq : N / D ≤ K := by
    calc N / D ≤ K * D / D := Nat.div_le_div_right h
      _ = K := Nat.mul_div_cancel _ hD
  have hdm := Nat.div_add_mod N D
  have hm := Nat.mod_lt N hD
  simp only
  rcases Nat.lt_or_ge (N / D) K with hlt | hge
  · split
    · omega
    · split <;> omega
  · have hQ : N / D = K := by omega
    have hR : N % D = 0 := by
      rw [hQ] at hdm
      have : D * K = K * D := Nat.mul_comm _ _
      omega
    simp [hR, hD, hQ]

theorem roundHalfEven_ge (N D L : Nat) (hD : 0 < D) (h : L * D ≤ N) :
    L ≤ roundHalfEven N D := by
  unfold roundHalfEven
  have hq : L ≤ N / D := by
    rw [Nat.le_div_iff_mul_le hD]; exact h
  simp only
  split
  · exact hq
  · split <;> omega

theorem roundHalfEven_le_succ (N D K : Nat) (hD : 0 < D) (h : N < K * D) :
    roundHalfEven N D ≤ K := roundHalfEven_le N D K hD (le_of_lt h)

/-- Scaled numerator and denominator of `roundPos` denote `(N / D) / 2 ^ s`. -/
theorem scaled_quot (N D : Nat) (s : Int) (hD : 0 < D) :
    ((N * 2 ^ (-s).toNat : Nat) : ℚ) / ((D * 2 ^ s.toNat : Nat) : ℚ)
      = (N : ℚ) / D / (2 : ℚ) ^ s := by
  have hDq : (D : ℚ) ≠ 0 := by exact_mod_cast hD.ne'
  rw [two_zpow_split s]
  push_cast
  field_simp

theorem scaled_den_pos (D : Nat) (s : Int) (hD : 0 < D) : 0 < D * 2 ^ s.toNat :=
  Nat.mul_pos hD (Nat.pow_pos (by norm_num))

/-- Comparison of the scaled fraction with a natural number, in `ℕ`. -/
theorem scaled_le_iff (N D : Nat) (s : Int) (hD : 0 < D) (K : Nat) :
    N * 2 ^ (-s).toNat ≤ K * (D * 2 ^ s.toNat) ↔ (N : ℚ) / D / (2 : ℚ) ^ s ≤ K := by
  rw [← scaled_quot N D s hD]
  have hpos : (0 : ℚ) < ((D * 2 ^ s.toNat : Nat) : ℚ) := by
    exact_mod_cast scaled_den_pos D s hD
  rw [div_le_iff₀ hpos]
  constructor
  · intro h; exact_mod_cast h
  · intro h; exact_mod_cast h

theorem scaled_ge_iff (N D : Nat) (s : Int) (hD : 0 < D) (K : Nat) :
    K * (D * 2 ^ s.toNat) ≤ N * 2 ^ (-s).toNat ↔ (K : ℚ) ≤ (N : ℚ) / D / (2 : ℚ) ^ s := by
  rw [← scaled_quot N D s hD]
  have hpos : (0 : ℚ) < ((D * 2 ^ s.toNat : Nat) : ℚ) := by
    exact_mod_cast scaled_den_pos D s hD
  rw [le_div_iff₀ hpos]
  constructor
  · intro h; exact_mod_cast h
  · intro h; exact_mod_cast h

theorem scaled_lt_iff (N D : Nat) (s : Int) (hD : 0 < D) (K : Nat) :
    N * 2 ^ (-s).toNat < K * (D * 2 ^ s.toNat) ↔ (N : ℚ) / D / (2 : ℚ) ^ s < K := by
  rw [← not_le, ← not_le, scaled_ge_iff N D s hD K]

theorem two_zpow_pos (k : Int) : (0 : ℚ) < (2 : ℚ) ^ k := zpow_pos (by norm_num) k

/-- The fraction scaled by `roundPos` lies in `[2 ^ (p - 1), 2 ^ p)`. -/
theorem scaled_range (p N D : Nat) (hp : 1 ≤ p) (hN : 0 < N) (hD : 0 < D) :
    ((2 ^ (p - 1) : Nat) : ℚ) ≤ (N : ℚ) / D / (2 : ℚ) ^ (floorLog2 N D - ((p : Int) - 1)) ∧
    (N : ℚ) / D / (2 : ℚ) ^ (floorLog2 N D - ((p : Int) - 1)) < ((2 ^ p : Nat) : ℚ) := by
  obtain ⟨s1, s2⟩ := floorLog2_spec N D hN hD
  have e1 : ((2 ^ (p - 1) : Nat) : ℚ) = (2 : ℚ) ^ ((p : Int) - 1) := by
    rw [show ((p : Int) - 1) = ((p - 1 : Nat) : Int) by omega, zpow_natCast]; push_cast; rfl
  have e2 : ((2 ^ p : Nat) : ℚ) = (2 : ℚ) ^ (p : Int) := by
    rw [zpow_natCast]; push_cast; rfl
  rw [e1, e2]
  constructor
  · rw [le_div_iff₀ (two_zpow_pos _), ← zpow_add₀ (by norm_num)]
    simpa using s1
  · rw [div_lt_iff₀ (two_zpow_pos _), ← zpow_add₀ (by norm_num)]
    have : (p : Int) + (floorLog2 N D - ((p : Int) - 1)) = floorLog2 N D + 1 := by ring
    rw [this]; exact s2

theorem roundHalfEven_range (p N D : Nat) (hp : 1 ≤ p) (hN : 0 < N) (hD : 0 < D) :
    2 ^ (p - 1) ≤ roundHalfEven (N * 2 ^ (-(floorLog2 N D - ((p : Int) - 1))).toNat)
        (D * 2 ^ (floorLog2 N D - ((p : Int) - 1)).toNat) ∧
    roundHalfEven (N * 2 ^ (-(floorLog2 N D - ((p : Int) - 1))).toNat)
        (D * 2 ^ (floorLog2 N D - ((p : Int) - 1)).toNat) ≤ 2 ^ p := by
  obtain ⟨r1, r2⟩ := scaled_range p N D hp hN hD
  constructor
  · apply roundHalfEven_ge _ _ _ (scaled_den_pos D _ hD)
    rw [scaled_ge_iff N D _ hD]; exact r1
  · apply roundHalfEven_le _ _ _ (scaled_den_pos D _ hD)
    rw [scaled_le_iff N D _ hD]; exact le_of_lt r2

theorem roundPos_range (p N D : Nat) (hp : 1 ≤ p) (hN : 0 < N) (hD : 0 < D) :
    2 ^ (p - 1) ≤ (roundPos p N D).1 ∧ (roundPos p N D).1 < 2 ^ p := by
  obtain ⟨r1, r2⟩ := roundHalfEven_range p N D hp hN hD
  have hpow : 2 ^ (p - 1) < 2 ^ p := Nat.pow_lt_pow_right (by norm_num) (by omega)
  unfold roundPos
  simp only
  split
  · exact ⟨le_rfl, hpow⟩
  · rename_i h
    exact ⟨r1, lt_of_le_of_ne r2 h⟩

/-- The rational denoted by the result of `roundPos`. -/
theorem roundPos_val (p N D : Nat) (hp : 1 ≤ p) :
    ((roundPos p N D).1 : ℚ) * (2 : ℚ) ^ (roundPos p N D).2 =
      (roundHalfEven (N * 2 ^ (-(floorLog2 N D - ((p : Int) - 1))).toNat)
        (D * 2 ^ (floorLog2 N D - ((p : Int) - 1)).toNat) : ℚ)
        * (2 : ℚ) ^ (floorLog2 N D - ((p : Int) - 1)) := by
  unfold roundPos
  simp only
  split
  · rename_i h
    rw [h]
    simp only
    rw [zpow_add₀ (by norm_num)]
    obtain ⟨q, rfl⟩ : ∃ q, p = q + 1 := ⟨p - 1, by omega⟩
    push_cast
    simp only [Nat.add_sub_cancel, pow_succ]
    ring
  · rfl

theorem roundPos_exact (p N D M : Nat) (u : Int) (hp : 1 ≤ p) (hN : 0 < N) (hD : 0 < D)
    (hM1 : 2 ^ (p - 1) ≤ M) (hM2 : M < 2 ^ p) (hv : (N : ℚ) / D = (M : ℚ) * (2 : ℚ) ^ u) :
    roundPos p N D = (M, u) := by
  have hk : floorLog2 N D = u + ((p : Int) - 1) := by
    apply floorLog2_unique N D hN hD
    · rw [hv, zpow_add₀ (by norm_num), mul_comm]
      apply mul_le_mul_of_nonneg_right _ (le_of_lt (two_zpow_pos _))
      rw [show ((p : Int) - 1) = ((p - 1 : Nat) : Int) by omega, zpow_natCast]
      exact_mod_cast hM1
    · rw [hv, show u + ((p : Int) - 1) + 1 = (p : Int) + u by ring, zpow_add₀ (by norm_num)]
      apply mul_lt_mul_of_pos_right _ (two_zpow_pos _)
      rw [zpow_natCast]
      exact_mod_cast hM2
  have hs : floorLog2 N D - ((p : Int) - 1) = u := by omega
  have hq : (N : ℚ) / D / (2 : ℚ) ^ u = M := by
    rw [hv]; field_simp
  have hN1 : N * 2 ^ (-u).toNat = M * (D * 2 ^ u.toNat) := by
    apply le_antisymm
    · rw [scaled_le_iff N D u hD]; exact le_of_eq hq
    · rw [scaled_ge_iff N D u hD]; exact le_of_eq hq.symm
  unfold roundPos
  simp only [hs]
  rw [hN1, roundHalfEven_exact _ _ (scaled_den_pos D u hD)]
  simp [Nat.ne_of_lt hM2]

theorem natpow_cast (p : Nat) : ((2 ^ p : Nat) : ℚ) = (2 : ℚ) ^ (p : Int) := by
  rw [zpow_natCast]; push_cast; rfl

/-- Rounding does not cross a representable upper bound. -/
theorem roundPos_le_repr (p N D M : Nat) (u : Int) (hp : 1 ≤ p) (hN : 0 < N) (hD : 0 < D)
    (hM2 : M < 2 ^ p) (hv : (N : ℚ) / D ≤ (M : ℚ) * (2 : ℚ) ^ u) :
    ((roundPos p N D).1 : ℚ) * (2 : ℚ) ^ (roundPos p N D).2 ≤ (M : ℚ) * (2 : ℚ) ^ u := by
  rw [roundPos_val p N D hp]
  obtain ⟨s1, _⟩ := floorLog2_spec N D hN hD
  have hlt : (2 : ℚ) ^ floorLog2 N D < (2 : ℚ) ^ ((p : Int) + u) := by
    calc (2 : ℚ) ^ floorLog2 N D ≤ (N : ℚ) / D := s1
      _ ≤ (M : ℚ) * (2 : ℚ) ^ u := hv
      _ < (2 : ℚ) ^ (p : Int) * (2 : ℚ) ^ u := by
          apply mul_lt_mul_of_pos_right _ (two_zpow_pos _)
          rw [← natpow_cast]; exact_mod_cast hM2
      _ = (2 : ℚ) ^ ((p : Int) + u) := by rw [zpow_add₀ (by norm_num)]
  rw [zpow_lt_zpow_iff_right₀ (by norm_num)] at hlt
  generalize hs : floorLog2 N D - ((p : Int) - 1) = s
  have hsu : s ≤ u := by omega
  obtain ⟨j, hj⟩ := Int.eq_ofNat_of_zero_le (sub_nonneg.mpr hsu)
  have hu : u = s + (j : Int) := by omega
  have hMu : (M : ℚ) * (2 : ℚ) ^ u = ((M * 2 ^ j : Nat) : ℚ) * (2 : ℚ) ^ s := by
    rw [hu, zpow_add₀ (by norm_num), zpow_natCast]; push_cast; ring
  rw [hMu]
  apply mul_le_mul_of_nonneg_right _ (le_of_lt (two_zpow_pos _))
  have : roundHalfEven (N * 2 ^ (-s).toNat) (D * 2 ^ s.toNat) ≤ M * 2 ^ j := by
    apply roundHalfEven_le _ _ _ (scaled_den_pos D _ hD)
    rw [scaled_le_iff N D _ hD, div_le_iff₀ (two_zpow_pos _), ← hMu]
    exact hv
  exact_mod_cast this

/-- Rounding does not cross a representable lower bound. -/
theorem roundPos_ge_repr (p N D M : Nat) (u : Int) (hp : 1 ≤ p) (hN : 0 < N) (hD : 0 < D)
    (hM2 : M < 2 ^ p) (hv : (M : ℚ) * (2 : ℚ) ^ u ≤ (N : ℚ) / D) :
    (M : ℚ) * (2 : ℚ) ^ u ≤ ((roundPos p N D).1 : ℚ) * (2 : ℚ) ^ (roundPos p N D).2 := by
  rw [roundPos_val p N D hp]
  obtain ⟨r1, _⟩ := roundHalfEven_range p N D hp hN hD
  generalize hs : floorLog2 N D - ((p : Int) - 1) = s at r1 ⊢
  rcases le_or_lt s u with hsu | hus
  · -- the bound is a multiple of the unit in the last place
    obtain ⟨j, hj⟩ := Int.eq_ofNat_of_zero_le (sub_nonneg.mpr hsu)
    have hu : u = s + (j : Int) := by omega
    have hMu : (M : ℚ) * (2 : ℚ) ^ u = ((M * 2 ^ j : Nat) : ℚ) * (2 : ℚ) ^ s := by
      rw [hu, zpow_add₀ (by norm_num), zpow_natCast]; push_cast; ring
    rw [hMu]
    apply mul_le_mul_of_nonneg_right _ (le_of_lt (two_zpow_pos _))
    have : M * 2 ^ j ≤ roundHalfEven (N * 2 ^ (-s).toNat) (D * 2 ^ s.toNat) := by
      apply roundHalfEven_ge _ _ _ (scaled_den_pos D _ hD)
      rw [scaled_ge_iff N D _ hD, le_div_iff₀ (two_zpow_pos _), ← hMu]
      exact hv
    exact_mod_cast this
  · -- the bound is below the smallest value with this exponent
    have h1 : (M : ℚ) * (2 : ℚ) ^ u ≤ (2 : ℚ) ^ ((p : Int) + u) := by
      rw [zpow_add₀ (by norm_num)]
      apply mul_le_mul_of_nonneg_right _ (le_of_lt (two_zpow_pos _))
      rw [← natpow_cast]; exact_mod_cast le_of_lt hM2
    have h2 : (2 : ℚ) ^ ((p : Int) + u) ≤ (2 : ℚ) ^ (((p - 1 : Nat) : Int) + s) :=
      zpow_le_zpow_right₀ (by norm_num) (by omega)
    have h3 : (2 : ℚ) ^ (((p - 1 : Nat) : Int) + s) ≤
        (roundHalfEven (N * 2 ^ (-s).toNat) (D * 2 ^ s.toNat) : ℚ) * (2 : ℚ) ^ s := by
      rw [zpow_add₀ (by norm_num)]
      apply mul_le_mul_of_nonneg_right _ (le_of_lt (two_zpow_pos _))
      rw [← natpow_cast]; exact_mod_cast r1
    linarith

theorem val_zero : val ⟨0, 0⟩ = 0 := by simp [val]

theorem val_eq_zero_iff (a : Flt) : val a = 0 ↔ a.m = 0 := by
  unfold val
  constructor
  · intro h
    rcases mul_eq_zero.mp h with h | h
    · exact_mod_cast h
    · exact absurd h (ne_of_gt (two_zpow_pos _))
  · intro h; simp [h]

theorem val_pos_iff (a : Flt) : 0 < val a ↔ 0 < a.m := by
  unfold val
  rw [mul_pos_iff_of_pos_right (two_zpow_pos _)]
  exact_mod_cast Iff.rfl

theorem val_neg_iff (a : Flt) : val a < 0 ↔ a.m < 0 := by
  unfold val
  constructor
  · intro h
    by_contra hc
    push_neg at hc
    have : (0 : ℚ) ≤ (a.m : ℚ) := by exact_mod_cast hc
    have := mul_nonneg this (le_of_lt (two_zpow_pos a.e))
    linarith
  · intro h
    have : (a.m : ℚ) < 0 := by exact_mod_cast h
    exact mul_neg_of_neg_of_pos this (two_zpow_pos _)

theorem isFlt_zero (p : Nat) : IsFlt p ⟨0, 0⟩ := Or.inl rfl

theorem isFlt_nonzero (p : Nat) (a : Flt) (h : IsFlt p a) (hm : a.m ≠ 0) :
    2 ^ (p - 1) ≤ a.m.natAbs ∧ a.m.natAbs < 2 ^ p := by
  rcases h with h | h
  · rw [h] at hm; exact absurd rfl hm
  · exact h

theorem isFlt_round (p : Nat) (n : Int) (d : Nat) (e : Int) (hp : 1 ≤ p) (hd : 0 < d) :
    IsFlt p (round p n d e) := by
  unfold round
  split
  · exact isFlt_zero p
  · rename_i hn
    right
    have hN : 0 < n.natAbs := Int.natAbs_pos.mpr hn
    have := roundPos_range p n.natAbs d hp hN hd
    simp only [Int.natAbs_mul, Int.natAbs_sign_of_nonzero hn, one_mul, Int.natAbs_ofNat]
    exact this

theorem val_round_of_pos (p : Nat) (n : Int) (d : Nat) (e : Int) (hn : 0 < n) :
    val (round p n d e) =
      ((roundPos p n.natAbs d).1 : ℚ) * (2 : ℚ) ^ (roundPos p n.natAbs d).2 * (2 : ℚ) ^ e := by
  unfold round val
  simp only [ne_of_gt hn, if_false, Int.sign_eq_one_of_pos hn, one_mul]
  rw [zpow_add₀ (by norm_num)]
  push_cast
  ring

theorem val_round_of_neg (p : Nat) (n : Int) (d : Nat) (e : Int) (hn : n < 0) :
    val (round p n d e) =
      -(((roundPos p n.natAbs d).1 : ℚ) * (2 : ℚ) ^ (roundPos p n.natAbs d).2 * (2 : ℚ) ^ e) := by
  unfold round val
  simp only [ne_of_lt hn, if_false, Int.sign_eq_neg_one_of_neg hn]
  rw [zpow_add₀ (by norm_num)]
  push_cast
  ring

/-- The exact value `|n| / d` in terms of the signed value. -/
theorem natAbs_cast_of_pos (n : Int) (hn : 0 < n) : ((n.natAbs : Nat) : ℚ) = (n : ℚ) := by
  rw [Nat.cast_natAbs, abs_of_pos hn]

theorem natAbs_cast_of_neg (n : Int) (hn : n < 0) : ((n.natAbs : Nat) : ℚ) = -(n : ℚ) := by
  rw [Nat.cast_natAbs, abs_of_neg hn]; push_cast; rfl

/-- A value that is representable exactly is returned by rounding. -/
theorem round_eq_of_val (p : Nat) (n : Int) (d : Nat) (e : Int) (a : Flt) (hp : 1 ≤ p)
    (hd : 0 < d) (ha : IsFlt p a) (hv : (n : ℚ) / d * (2 : ℚ) ^ e = val a) :
    round p n d e = a := by
  have hdq : (0 : ℚ) < d := by exact_mod_cast hd
  have hsign : ∀ x : ℚ, 0 < x / d * (2 : ℚ) ^ e ↔ 0 < x := by
    intro x
    rw [mul_pos_iff_of_pos_right (two_zpow_pos _), div_pos_iff_of_pos_right hdq]
  rcases lt_trichotomy n 0 with hn | hn | hn
  · -- negative
    have hneg : val a < 0 := by
      rw [← hv]
      have : 0 < (-(n : ℚ)) / d * (2 : ℚ) ^ e := (hsign _).mpr (by exact_mod_cast neg_pos.mpr hn)
      have e1 : (-(n : ℚ)) / d * (2 : ℚ) ^ e = -((n : ℚ) / d * (2 : ℚ) ^ e) := by ring
      linarith
    have hm : a.m < 0 := (val_neg_iff a).mp hneg
    obtain ⟨m1, m2⟩ := isFlt_nonzero p a ha (ne_of_lt hm)
    have hx : ((n.natAbs : Nat) : ℚ) / d = ((a.m.natAbs : Nat) : ℚ) * (2 : ℚ) ^ (a.e - e) := by
      rw [natAbs_cast_of_neg n hn, natAbs_cast_of_neg a.m hm, zpow_sub₀ (by norm_num)]
      have h2 : (2 : ℚ) ^ e ≠ 0 := ne_of_gt (two_zpow_pos _)
      unfold val at hv
      field_simp
      field_simp at hv
      linarith
    have := roundPos_exact p n.natAbs d a.m.natAbs (a.e - e) hp (Int.natAbs_pos.mpr (ne_of_lt hn))
      hd m1 m2 hx
    unfold round
    simp only [ne_of_lt hn, if_false, this, Int.sign_eq_neg_one_of_neg hn]
    cases a with
    | mk am ae =>
      simp only at hm ⊢
      congr 1
      · omega
      · ring
  · -- zero
    subst hn
    have : val a = 0 := by rw [← hv]; simp
    have hm : a.m = 0 := (val_eq_zero_iff a).mp this
    rcases ha with ha | ha
    · simp [round, ha]
    · rw [hm] at ha
      simp at ha
  · -- positive
    have hpos : 0 < val a := by
      rw [← hv]; exact (hsign _).mpr (by exact_mod_cast hn)
    have hm : 0 < a.m := (val_pos_iff a).mp hpos
    obtain ⟨m1, m2⟩ := isFlt_nonzero p a ha (ne_of_gt hm)
    have hx : ((n.natAbs : Nat) : ℚ) / d = ((a.m.natAbs : Nat) : ℚ) * (2 : ℚ) ^ (a.e - e) := by
      rw [natAbs_cast_of_pos n hn, natAbs_cast_of_pos a.m hm, zpow_sub₀ (by norm_num)]
      have h2 : (2 : ℚ) ^ e ≠ 0 := ne_of_gt (two_zpow_pos _)
      unfold val at hv
      field_simp
      field_simp at hv
      linarith
    have := roundPos_exact p n.natAbs d a.m.natAbs (a.e - e) hp (Int.natAbs_pos.mpr (ne_of_gt hn))
      hd m1 m2 hx
    unfold round
    simp only [ne_of_gt hn, if_false, this, Int.sign_eq_one_of_pos hn]
    cases a with
    | mk am ae =>
      simp only at hm ⊢
      congr 1
      · omega
      · ring

theorem val_round_zero (p : Nat) (d : Nat) (e : Int) : round p 0 d e = ⟨0, 0⟩ := by
  simp [round]

/-- Rounding does not cross a representable upper bound. -/
theorem val_round_le (p : Nat) (n : Int) (d : Nat) (e : Int) (c : Flt) (hp : 1 ≤ p)
    (hd : 0 < d) (hc : IsFlt p c) (h : (n : ℚ) / d * (2 : ℚ) ^ e ≤ val c) :
    val (round p n d e) ≤ val c := by
  have hdq : (0 : ℚ) < d := by exact_mod_cast hd
  have h2 : (2 : ℚ) ^ e ≠ 0 := ne_of_gt (two_zpow_pos _)
  rcases lt_trichotomy n 0 with hn | hn | hn
  · rw [val_round_of_neg p n d e hn]
    have hN : 0 < n.natAbs := Int.natAbs_pos.mpr (ne_of_lt hn)
    have hr := roundPos_range p n.natAbs d hp hN hd
    have hrpos : (0 : ℚ) ≤ ((roundPos p n.natAbs d).1 : ℚ) * (2 : ℚ) ^ (roundPos p n.natAbs d).2
        * (2 : ℚ) ^ e := by positivity
    rcases le_or_lt 0 (val c) with hc0 | hc0
    · linarith
    · have hm : c.m < 0 := (val_neg_iff c).mp hc0
      obtain ⟨_, m2⟩ := isFlt_nonzero p c hc (ne_of_lt hm)
      have hx : ((c.m.natAbs : Nat) : ℚ) * (2 : ℚ) ^ (c.e - e) ≤ ((n.natAbs : Nat) : ℚ) / d := by
        rw [natAbs_cast_of_neg n hn, natAbs_cast_of_neg c.m hm, zpow_sub₀ (by norm_num)]
        unfold val at h
        rw [neg_mul, neg_div, neg_le_neg_iff, mul_div_assoc', le_div_iff₀ (two_zpow_pos _)]
        exact h
      have := roundPos_ge_repr p n.natAbs d c.m.natAbs (c.e - e) hp hN hd m2 hx
      have := mul_le_mul_of_nonneg_right this (le_of_lt (two_zpow_pos e))
      rw [mul_assoc, ← zpow_add₀ (by norm_num), sub_add_cancel, natAbs_cast_of_neg c.m hm] at this
      unfold val
      linarith
  · subst hn
    rw [val_round_zero, val_zero]
    simpa using h
  · rw [val_round_of_pos p n d e hn]
    have hN : 0 < n.natAbs := Int.natAbs_pos.mpr (ne_of_gt hn)
    have hpos : 0 < val c := by
      have : 0 < (n : ℚ) / d * (2 : ℚ) ^ e := by
        have : (0 : ℚ) < n := by exact_mod_cast hn
        positivity
      linarith
    have hm : 0 < c.m := (val_pos_iff c).mp hpos
    obtain ⟨_, m2⟩ := isFlt_nonzero p c hc (ne_of_gt hm)
    have hx : ((n.natAbs : Nat) : ℚ) / d ≤ ((c.m.natAbs : Nat) : ℚ) * (2 : ℚ) ^ (c.e - e) := by
      rw [natAbs_cast_of_pos n hn, natAbs_cast_of_pos c.m hm, zpow_sub₀ (by norm_num)]
      unfold val at h
      rw [mul_div_assoc', le_div_iff₀ (two_zpow_pos _)]
      exact h
    have := roundPos_le_repr p n.natAbs d c.m.natAbs (c.e - e) hp hN hd m2 hx
    have := mul_le_mul_of_nonneg_right this (le_of_lt (two_zpow_pos e))
    rw [mul_assoc (c.m.natAbs : ℚ), ← zpow_add₀ (by norm_num), sub_add_cancel,
      natAbs_cast_of_pos c.m hm] at this
    unfold val
    linarith

/-- Rounding does not cross a representable lower bound. -/
theorem val_round_ge (p : Nat) (n : Int) (d : Nat) (e : Int) (c : Flt) (hp : 1 ≤ p)
    (hd : 0 < d) (hc : IsFlt p c) (h : val c ≤ (n : ℚ) / d * (2 : ℚ) ^ e) :
    val c ≤ val (round p n d e) := by
  have hdq : (0 : ℚ) < d := by exact_mod_cast hd
  rcases lt_trichotomy n 0 with hn | hn | hn
  · rw [val_round_of_neg p n d e hn]
    have hN : 0 < n.natAbs := Int.natAbs_pos.mpr (ne_of_lt hn)
    have hneg : val c < 0 := by
      have : (n : ℚ) / d * (2 : ℚ) ^ e < 0 := by
        have : (n : ℚ) < 0 := by exact_mod_cast hn
        have := div_neg_of_neg_of_pos this hdq
        exact mul_neg_of_neg_of_pos this (two_zpow_pos _)
      linarith
    have hm : c.m < 0 := (val_neg_iff c).mp hneg
    obtain ⟨_, m2⟩ := isFlt_nonzero p c hc (ne_of_lt hm)
    have hx : ((n.natAbs : Nat) : ℚ) / d ≤ ((c.m.natAbs : Nat) : ℚ) * (2 : ℚ) ^ (c.e - e) := by
      rw [natAbs_cast_of_neg n hn, natAbs_cast_of_neg c.m hm, zpow_sub₀ (by norm_num)]
      unfold val at h
      rw [neg_mul, neg_div, neg_le_neg_iff, mul_div_assoc', div_le_iff₀ (two_zpow_pos _)]
      exact h
    have := roundPos_le_repr p n.natAbs d c.m.natAbs (c.e - e) hp hN hd m2 hx
    have := mul_le_mul_of_nonneg_right this (le_of_lt (two_zpow_pos e))
    rw [mul_assoc (c.m.natAbs : ℚ), ← zpow_add₀ (by norm_num), sub_add_cancel,
      natAbs_cast_of_neg c.m hm] at this
    unfold val
    linarith
  · subst hn
    rw [val_round_zero, val_zero]
    simpa using h
  · rw [val_round_of_pos p n d e hn]
    have hN : 0 < n.natAbs := Int.natAbs_pos.mpr (ne_of_gt hn)
    have hrpos : (0 : ℚ) ≤ ((roundPos p n.natAbs d).1 : ℚ) * (2 : ℚ) ^ (roundPos p n.natAbs d).2
        * (2 : ℚ) ^ e := by positivity
    rcases le_or_lt (val c) 0 with hc0 | hc0
    · linarith
    · have hm : 0 < c.m := (val_pos_iff c).mp hc0
      obtain ⟨_, m2⟩ := isFlt_nonzero p c hc (ne_of_gt hm)
      have hx : ((c.m.natAbs : Nat) : ℚ) * (2 : ℚ) ^ (c.e - e) ≤ ((n.natAbs : Nat) : ℚ) / d := by
        rw [natAbs_cast_of_pos n hn, natAbs_cast_of_pos c.m hm, zpow_sub₀ (by norm_num)]
        unfold val at h
        rw [mul_div_assoc', div_le_iff₀ (two_zpow_pos _)]
        exact h
      have := roundPos_ge_repr p n.natAbs d c.m.natAbs (c.e - e) hp hN hd m2 hx
      have := mul_le_mul_of_nonneg_right this (le_of_lt (two_zpow_pos e))
      rw [mul_assoc, ← zpow_add₀ (by norm_num), sub_add_cancel, natAbs_cast_of_pos c.m hm] at this
      unfold val
      linarith

theorem two_pow_toNat (k : Int) (hk : 0 ≤ k) : ((2 : ℚ) ^ k.toNat) = (2 : ℚ) ^ k := by
  obtain ⟨n, rfl⟩ := Int.eq_ofNat_of_zero_le hk
  simp

theorem mul_exact (a b : Flt) :
    ((a.m * b.m : Int) : ℚ) / ((1 : Nat) : ℚ) * (2 : ℚ) ^ (a.e + b.e) = val a * val b := by
  unfold val
  rw [zpow_add₀ (by norm_num)]
  push_cast
  ring

theorem add_exact (a b : Flt) :
    ((a.m * 2 ^ (a.e - min a.e b.e).toNat + b.m * 2 ^ (b.e - min a.e b.e).toNat : Int) : ℚ)
      / ((1 : Nat) : ℚ) * (2 : ℚ) ^ (min a.e b.e) = val a + val b := by
  unfold val
  push_cast
  rw [two_pow_toNat _ (by omega), two_pow_toNat _ (by omega)]
  rw [zpow_sub₀ (by norm_num), zpow_sub₀ (by norm_num)]
  have : (2 : ℚ) ^ (min a.e b.e) ≠ 0 := ne_of_gt (two_zpow_pos _)
  field_simp

theorem sub_exact (a b : Flt) :
    ((a.m * 2 ^ (a.e - min a.e b.e).toNat - b.m * 2 ^ (b.e - min a.e b.e).toNat : Int) : ℚ)
      / ((1 : Nat) : ℚ) * (2 : ℚ) ^ (min a.e b.e) = val a - val b := by
  unfold val
  push_cast
  rw [two_pow_toNat _ (by omega), two_pow_toNat _ (by omega)]
  rw [zpow_sub₀ (by norm_num), zpow_sub₀ (by norm_num)]
  have : (2 : ℚ) ^ (min a.e b.e) ≠ 0 := ne_of_gt (two_zpow_pos _)
  field_simp

theorem div_exact (a b : Flt) (hb : b.m ≠ 0) :
    ((a.m * Int.sign b.m : Int) : ℚ) / ((b.m.natAbs : Nat) : ℚ) * (2 : ℚ) ^ (a.e - b.e)
      = val a / val b := by
  unfold val
  have hbq : (b.m : ℚ) ≠ 0 := by exact_mod_cast hb
  have h2 : (2 : ℚ) ^ b.e ≠ 0 := ne_of_gt (two_zpow_pos _)
  rw [zpow_sub₀ (by norm_num)]
  rcases lt_or_gt_of_ne hb with h | h
  · rw [natAbs_cast_of_neg b.m h, Int.sign_eq_neg_one_of_neg h]
    push_cast
    field_simp
  · rw [natAbs_cast_of_pos b.m h, Int.sign_eq_one_of_pos h]
    push_cast
    field_simp

theorem cvt_exact (a : Flt) : (a.m : ℚ) / ((1 : Nat) : ℚ) * (2 : ℚ) ^ a.e = val a := by
  unfold val; simp

theorem ofInt_eq_of_val (p : Nat) (n : Int) (c : Flt) (hp : 1 ≤ p) (hc : IsFlt p c)
    (h : (n : ℚ) = val c) : ofInt p n = c :=
  round_eq_of_val p _ 1 _ c hp (by norm_num) hc (by simp [h])

theorem isFlt_ofInt (p : Nat) (n : Int) (hp : 1 ≤ p) : IsFlt p (ofInt p n) :=
  isFlt_round p _ 1 _ hp (by norm_num)

theorem val_mul_le (p : Nat) (a b c : Flt) (hp : 1 ≤ p) (hc : IsFlt p c)
    (h : val a * val b ≤ val c) : val (mul p a b) ≤ val c :=
  val_round_le p _ 1 _ c hp (by norm_num) hc (by rw [mul_exact]; exact h)

theorem val_mul_ge (p : Nat) (a b c : Flt) (hp : 1 ≤ p) (hc : IsFlt p c)
    (h : val c ≤ val a * val b) : val c ≤ val (mul p a b) :=
  val_round_ge p _ 1 _ c hp (by norm_num) hc (by rw [mul_exact]; exact h)

theorem val_add_le (p : Nat) (a b c : Flt) (hp : 1 ≤ p) (hc : IsFlt p c)
    (h : val a + val b ≤ val c) : val (add p a b) ≤ val c :=
  val_round_le p _ 1 _ c hp (by norm_num) hc (by rw [add_exact]; exact h)

theorem val_add_ge (p : Nat) (a b c : Flt) (hp : 1 ≤ p) (hc : IsFlt p c)
    (h : val c ≤ val a + val b) : val c ≤ val (add p a b) :=
  val_round_ge p _ 1 _ c hp (by norm_num) hc (by rw [add_exact]; exact h)

theorem val_sub_le (p : Nat) (a b c : Flt) (hp : 1 ≤ p) (hc : IsFlt p c)
    (h : val a - val b ≤ val c) : val (sub p a b) ≤ val c :=
  val_round_le p _ 1 _ c hp (by norm_num) hc (by rw [sub_exact]; exact h)

theorem val_sub_ge (p : Nat) (a b c : Flt) (hp : 1 ≤ p) (hc : IsFlt p c)
    (h : val c ≤ val a - val b) : val c ≤ val (sub p a b) :=
  val_round_ge p _ 1 _ c hp (by norm_num) hc (by rw [sub_exact]; exact h)

/-- Integers below `2 ^ p` in magnitude convert exactly. -/
theorem val_ofInt (p : Nat) (n : Int) (hp : 1 ≤ p) (h : n.natAbs < 2 ^ p) :
    val (ofInt p n) = n := by
  rcases eq_or_ne n 0 with hn | hn
  · subst hn; simp [ofInt, round, val]
  · have hN : 0 < n.natAbs := Int.natAbs_pos.mpr hn
    obtain ⟨l1, l2⟩ := ilog2_spec n.natAbs hN
    have hl : ilog2 n.natAbs < p := by
      have := lt_of_le_of_lt l1 h
      exact (Nat.pow_lt_pow_iff_right (by norm_num)).mp this
    obtain ⟨k, hk⟩ : ∃ k, p - 1 = ilog2 n.natAbs + k := ⟨p - 1 - ilog2 n.natAbs, by omega⟩
    have hc : IsFlt p ⟨n * 2 ^ k, -(k : Int)⟩ := by
      right
      simp only [Int.natAbs_mul, Int.natAbs_pow]
      have e2 : Int.natAbs 2 = 2 := rfl
      rw [e2]
      constructor
      · rw [hk, pow_add]; exact Nat.mul_le_mul_right _ l1
      · have : p = ilog2 n.natAbs + 1 + k := by omega
        rw [this, pow_add]
        exact Nat.mul_lt_mul_of_pos_right l2 (Nat.pow_pos (by norm_num))
    have hv : (n : ℚ) = val ⟨n * 2 ^ k, -(k : Int)⟩ := by
      unfold val
      push_cast
      rw [zpow_neg, zpow_natCast]
      field_simp
    rw [ofInt_eq_of_val p n _ hp hc hv, ← hv]

theorem lt_iff_val (a b : Flt) : lt a b = true ↔ val a < val b := by
  unfold lt
  simp only [decide_eq_true_eq]
  have key : ∀ x : Flt, ((x.m * 2 ^ (x.e - min a.e b.e).toNat : Int) : ℚ) * (2 : ℚ) ^ (min a.e b.e)
      = val x ∨ x.e < min a.e b.e := by
    intro x
    by_cases hx : min a.e b.e ≤ x.e
    · left
      unfold val
      push_cast
      rw [two_pow_toNat _ (by omega), mul_assoc, ← zpow_add₀ (by norm_num), sub_add_cancel]
    · right; omega
  have ka := (key a).resolve_right (by omega)
  have kb := (key b).resolve_right (by omega)
  rw [← ka, ← kb, mul_lt_mul_right (two_zpow_pos _)]
  exact_mod_cast Iff.rfl

end Flt

/-! ## Rounding error -/

namespace Flt

/-- A canonical value scaled by a power of two is representable. -/
theorem repr_scale (p : Nat) (a : Flt) (ha : IsFlt p a) (k : Int) :
    ∃ c, IsFlt p c ∧ val c = val a * (2 : ℚ) ^ k := by
  rcases ha with ha | ha
  · exact ⟨⟨0, 0⟩, isFlt_zero p, by simp [ha, val]⟩
  · refine ⟨⟨a.m, a.e + k⟩, Or.inr ha, ?_⟩
    unfold val
    rw [zpow_add₀ (by norm_num)]
    ring

theorem mul_zero_left (p : Nat) (a : Flt) : mul p ⟨0, 0⟩ a = ⟨0, 0⟩ := by
  simp [mul, round]

/-- The distance from `N / D` to its nearest integer is at most one half. -/
theorem roundHalfEven_error (N D : Nat) (hD : 0 < D) :
    2 * (roundHalfEven N D * D) ≤ 2 * N + D ∧ 2 * N ≤ 2 * (roundHalfEven N D * D) + D := by
  unfold roundHalfEven
  have hdm := Nat.div_add_mod N D
  have hm := Nat.mod_lt N hD
  generalize hX : D * (N / D) = X at hdm
  have hQ : N / D * D = X := by rw [Nat.mul_comm]; exact hX
  have hQ1 : (N / D + 1) * D = X + D := by rw [Nat.add_mul, hQ]; simp
  simp only
  split
  · rw [hQ]; omega
  · split
    · rw [hQ1]; omega
    · rcases Nat.mod_two_eq_zero_or_one (N / D) with h | h
      · rw [h, Nat.add_zero, hQ]; omega
      · rw [h, hQ1]; omega

/-- Rounding moves a positive value up by at most half a unit in the last place. -/
theorem roundPos_le_add (p N D : Nat) (hp : 1 ≤ p) (hD : 0 < D) :
    ((roundPos p N D).1 : ℚ) * (2 : ℚ) ^ (roundPos p N D).2
      ≤ (N : ℚ) / D + (2 : ℚ) ^ (floorLog2 N D - (p : Int)) := by
  rw [roundPos_val p N D hp]
  generalize hs : floorLog2 N D - ((p : Int) - 1) = s
  have hs' : floorLog2 N D - (p : Int) = s - 1 := by omega
  rw [hs']
  obtain ⟨e1, _⟩ := roundHalfEven_error (N * 2 ^ (-s).toNat) (D * 2 ^ s.toNat)
    (scaled_den_pos D s hD)
  have hD1 : (0 : ℚ) < ((D * 2 ^ s.toNat : Nat) : ℚ) := by
    exact_mod_cast scaled_den_pos D s hD
  have e1q : 2 * ((roundHalfEven (N * 2 ^ (-s).toNat) (D * 2 ^ s.toNat) : ℚ)
      * ((D * 2 ^ s.toNat : Nat) : ℚ)) ≤ 2 * ((N * 2 ^ (-s).toNat : Nat) : ℚ)
        + ((D * 2 ^ s.toNat : Nat) : ℚ) := by exact_mod_cast e1
  have hq := scaled_quot N D s hD
  have hle : (roundHalfEven (N * 2 ^ (-s).toNat) (D * 2 ^ s.toNat) : ℚ)
      ≤ (N : ℚ) / D / (2 : ℚ) ^ s + 1 / 2 := by
    rw [← hq, div_add' _ _ _ (ne_of_gt hD1), le_div_iff₀ hD1]
    linarith
  have h2 := mul_le_mul_of_nonneg_right hle (le_of_lt (two_zpow_pos s))
  have h3 : ((N : ℚ) / D / (2 : ℚ) ^ s + 1 / 2) * (2 : ℚ) ^ s
      = (N : ℚ) / D + (2 : ℚ) ^ (s - 1) := by
    rw [zpow_sub₀ (by norm_num)]
    have : (2 : ℚ) ^ s ≠ 0 := ne_of_gt (two_zpow_pos s)
    field_simp
    ring
  linarith

/-- Rounding a positive value below `2 ^ (k + 1)` adds at most `2 ^ (k - p)`. -/
theorem val_round_le_add (p : Nat) (n : Int) (d : Nat) (e k : Int) (hp : 1 ≤ p) (hd : 0 < d)
    (hn : 0 < n) (hv : (n : ℚ) / d * (2 : ℚ) ^ e < (2 : ℚ) ^ (k + 1)) :
    val (round p n d e) ≤ (n : ℚ) / d * (2 : ℚ) ^ e + (2 : ℚ) ^ (k - (p : Int)) := by
  rw [val_round_of_pos p n d e hn]
  have hN : 0 < n.natAbs := Int.natAbs_pos.mpr (ne_of_gt hn)
  obtain ⟨s1, _⟩ := floorLog2_spec n.natAbs d hN hd
  have hle := roundPos_le_add p n.natAbs d hp hd
  rw [natAbs_cast_of_pos n hn] at hle s1
  have hfl : floorLog2 n.natAbs d + e < k + 1 := by
    have : (2 : ℚ) ^ (floorLog2 n.natAbs d + e) < (2 : ℚ) ^ (k + 1) := by
      rw [zpow_add₀ (by norm_num)]
      exact lt_of_le_of_lt (mul_le_mul_of_nonneg_right s1 (le_of_lt (two_zpow_pos e))) hv
    exact (zpow_lt_zpow_iff_right₀ (by norm_num)).mp this
  have h2 := mul_le_mul_of_nonneg_right hle (le_of_lt (two_zpow_pos e))
  have h3 : (2 : ℚ) ^ (floorLog2 n.natAbs d - (p : Int)) * (2 : ℚ) ^ e
      ≤ (2 : ℚ) ^ (k - (p : Int)) := by
    rw [← zpow_add₀ (by norm_num)]
    exact zpow_le_zpow_right₀ (by norm_num) (by omega)
  rw [add_mul] at h2
  linarith

end Flt

/-! ## Loops and memory -/

theorem forUpTo_inv {σ : Type} (body : Int → σ → Option σ) (P : Nat → σ → Prop) (n : Nat)
    (s : σ) (h0 : P 0 s)
    (hstep : ∀ (k : Nat) (t : σ), k < n → P k t → ∃ t', body (k : Int) t = some t' ∧ P (k + 1) t') :
    ∃ t, forUpTo body n s = some t ∧ P n t := by
  induction n with
  | zero => exact ⟨s, rfl, h0⟩
  | succ k ih =>
    obtain ⟨t, ht, hP⟩ := ih (fun j t hj hp => hstep j t (Nat.lt_succ_of_lt hj) hp)
    obtain ⟨t', ht', hP'⟩ := hstep k t (Nat.lt_succ_self k) hP
    exact ⟨t', by simp [forUpTo, ht, ht'], hP'⟩

theorem forUpTo_none_of_first {σ : Type} (body : Int → σ → Option σ) (n : Nat) (s : σ)
    (hn : 0 < n) (h : body 0 s = none) : forUpTo body n s = none := by
  induction n with
  | zero => omega
  | succ k ih =>
    rcases Nat.eq_zero_or_pos k with hk | hk
    · subst hk; simp [forUpTo, h]
    · simp [forUpTo, ih hk]

theorem forRange_zero {σ : Type} (n : Nat) (body : Int → σ → Option σ) (s : σ) :
    forRange 0 (n : Int) body s = forUpTo body n s := by
  simp [forRange]

theorem forRange_empty {σ : Type} (lo hi : Int) (h : hi ≤ lo) (body : Int → σ → Option σ)
    (s : σ) : forRange lo hi body s = some s := by
  have : (hi - lo).toNat = 0 := by omega
  simp [forRange, this, forUpTo]

theorem rd_natCast (buf : List Nat) (n : Nat) : rd buf (n : Int) = buf[n]? := by
  simp [rd]

theorem wr_natCast (buf : List Nat) (n : Nat) (v : Nat) (h : n < buf.length) :
    wr buf (n : Int) v = some (buf.set n v) := by
  simp [wr, h]

/-- A row-major loop nest that rewrites every pixel in place from its old value. -/
theorem row_major_map (w h : Nat) (data : List Nat) (F : Nat → Nat → Nat)
    (body : Int → Int → List Nat → Option (List Nat)) (hlen : data.length = w * h)
    (hbody : ∀ (x y : Nat) (d : List Nat) (p : Nat), x < w → y < h → d.length = w * h →
      d[y * w + x]? = some p → body x y d = some (d.set (y * w + x) (F (y * w + x) p))) :
    ∃ out, forRange 0 (h : Int) (fun y d => forRange 0 (w : Int) (fun x d => body x y d) d) data
        = some out ∧ out.length = data.length ∧
        ∀ j : Nat, out[j]? = (data[j]?).map (F j) := by
  rw [forRange_zero]
  have main := forUpTo_inv
    (fun y d => forRange 0 (w : Int) (fun x d => body x y d) d)
    (fun k d => d.length = w * h ∧
      ∀ j : Nat, d[j]? = if j < k * w then (data[j]?).map (F j) else data[j]?)
    h data ⟨hlen, fun j => by simp⟩ ?_
  · obtain ⟨out, h1, h2, h3⟩ := main
    refine ⟨out, h1, by rw [h2, hlen], fun j => ?_⟩
    rw [h3 j]
    split
    · rfl
    · rename_i hj
      have : data.length ≤ j := by rw [hlen, Nat.mul_comm]; omega
      simp [List.getElem?_eq_none this]
  · intro y d0 hy ⟨hl0, hd0⟩
    simp only
    rw [forRange_zero]
    have inner := forUpTo_inv (fun x d => body x (y : Int) d)
      (fun x d => d.length = w * h ∧
        ∀ j : Nat, d[j]? = if j < y * w + x then (data[j]?).map (F j) else data[j]?)
      w d0 ⟨hl0, by simpa using hd0⟩ ?_
    · obtain ⟨d1, e1, l1, p1⟩ := inner
      refine ⟨d1, e1, l1, fun j => ?_⟩
      rw [p1 j, Nat.succ_mul]
    · intro x d hx ⟨hl, hd⟩
      have hin : y * w + x < data.length := by
        rw [hlen]
        calc y * w + x < y * w + w := by omega
          _ = (y + 1) * w := by rw [Nat.succ_mul]
          _ ≤ h * w := Nat.mul_le_mul_right _ hy
          _ = w * h := Nat.mul_comm _ _
      have hp : d[y * w + x]? = some (data[y * w + x]) := by
        rw [hd]; simp [List.getElem?_eq_getElem hin]
      refine ⟨_, hbody x y d _ hx hy hl hp, by simp [hl], fun j => ?_⟩
      rw [List.getElem?_set]
      by_cases hj : y * w + x = j
      · subst hj
        simp [hl.symm ▸ (hlen ▸ hin), List.getElem?_eq_getElem hin]
      · rw [if_neg hj, hd j]
        have : (j < y * w + (x + 1)) ↔ (j < y * w + x) := by omega
        simp only [this]

theorem testBit_of_lt_256 (c : Nat) (hc : c < 256) (i : Nat) (hi : 8 ≤ i) :
    c.testBit i = false := by
  apply Nat.testBit_lt_two_pow
  calc c < 2 ^ 8 := hc
    _ ≤ 2 ^ i := Nat.pow_le_pow_right (by norm_num) hi

theorem red_pack_nat (r g b : Nat) (hr : r < 256) (hg : g < 256) (hb : b < 256) :
    red (r <<< 16 ||| g <<< 8 ||| b) = r := by
  unfold red
  apply Nat.eq_of_testBit_eq
  intro i
  have hc : (0xff0000 : Nat) = (2 ^ 8 - 1) <<< 16 := by decide
  rw [hc]
  simp only [Nat.testBit_shiftRight, Nat.testBit_and, Nat.testBit_or, Nat.testBit_shiftLeft,
    Nat.testBit_two_pow_sub_one]
  by_cases hi : i < 8
  · have h1 : b.testBit (16 + i) = false := testBit_of_lt_256 b hb _ (by omega)
    have h2 : g.testBit (16 + i - 8) = false := testBit_of_lt_256 g hg _ (by omega)
    simp [h1, h2, hi]
  · have h3 : r.testBit i = false := testBit_of_lt_256 r hr _ (by omega)
    simp [hi, h3]

theorem green_pack_nat (r g b : Nat) (hg : g < 256) (hb : b < 256) :
    green (r <<< 16 ||| g <<< 8 ||| b) = g := by
  unfold green
  apply Nat.eq_of_testBit_eq
  intro i
  have hc : (0x00ff00 : Nat) = (2 ^ 8 - 1) <<< 8 := by decide
  rw [hc]
  simp only [Nat.testBit_shiftRight, Nat.testBit_and, Nat.testBit_or, Nat.testBit_shiftLeft,
    Nat.testBit_two_pow_sub_one]
  by_cases hi : i < 8
  · have h1 : b.testBit (8 + i) = false := testBit_of_lt_256 b hb _ (by omega)
    simp [h1, hi]
    omega
  · have h3 : g.testBit i = false := testBit_of_lt_256 g hg _ (by omega)
    simp [hi, h3]

theorem blue_pack_nat (r g b : Nat) (hb : b < 256) :
    blue (r <<< 16 ||| g <<< 8 ||| b) = b := by
  unfold blue
  apply Nat.eq_of_testBit_eq
  intro i
  have hc : (0x0000ff : Nat) = 2 ^ 8 - 1 := by decide
  rw [hc]
  simp only [Nat.testBit_and, Nat.testBit_or, Nat.testBit_shiftLeft,
    Nat.testBit_two_pow_sub_one]
  by_cases hi : i < 8
  · simp [hi]; omega
  · have h3 : b.testBit i = false := testBit_of_lt_256 b hb _ (by omega)
    simp [hi, h3]

/-- With `times = 0` the loop of `effect_blur` does not run, as with `times = 1`: the call of
`blur_once` before the loop is made in both cases. -/
theorem effect_blur_zero_eq_one (dest src : List Nat) (width height scale radius : Int) :
    effect_blur dest src width height scale radius 0
      = effect_blur dest src width height scale radius 1 := by
  unfold effect_blur
  simp [forRange_empty]

set_option maxRecDepth 1000000 in
/-- C1 (the code differs from the claim): `effect_blur` with `times = 0` on the 2x1 buffer
black, white with radius 1 and scale 1 blurs once; the destination is grey, white and not
the source. -/
theorem effect_blur_times_zero_blurs :
    effect_blur [0, 0] [0x000000, 0xffffff] 2 1 1 1 0
        = some ([0x7f7f7f, 0xffffff], [0x000000, 0xffffff]) ∧
      [0x7f7f7f, 0xffffff] ≠ [0x000000, 0xffffff] := by
  decide

theorem blur_pixel_range_zero (r g b : Int) : blur_pixel ⟨r, g, b, ⟨0, 0⟩⟩ = none := by
  simp [blur_pixel, blur_quot, Flt.div]

theorem forRange_none_of_first {σ : Type} (lo hi : Int) (h : lo < hi)
    (body : Int → σ → Option σ) (s : σ) (hb : body lo s = none) :
    forRange lo hi body s = none := by
  unfold forRange
  apply forUpTo_none_of_first _ _ _ (by omega)
  simpa using hb

/-- With radius 0 the first pixel of a line is divided by an empty window. -/
theorem blur_line_radius_zero (pos : Int → Int) (dest src : List Nat) (len : Int)
    (hlen : 1 ≤ len) : blur_line pos dest src len 0 = none := by
  unfold blur_line
  have hmin : (if (0 : Int) < len then (0 : Int) else len) = 0 := by
    rw [if_pos (by omega)]
  simp only [hmin]
  rw [forRange_empty 0 0 le_rfl]
  simp only [Option.bind_eq_bind, Option.some_bind, Option.pure_def]
  rw [forRange_none_of_first 0 len (by omega)]
  · rfl
  · have hlt : (0 : Int) < len := by omega
    simp only [add_zero, sub_zero, ge_iff_le, le_refl, if_true, hlt]
    cases hp : rd src (pos 0) with
    | none => simp
    | some p =>
      have hr : Flt.add Flt.single (Flt.sub Flt.single (Flt.ofInt Flt.single 0)
          (Flt.ofInt Flt.single 1)) (Flt.ofInt Flt.single 1) = ⟨0, 0⟩ := by decide
      simp [hr, blur_pixel_range_zero]

/-- C2 (the code differs from the claim): with `radius = 0` every window is empty and
`effect_blur` divides by `range = 0` at the first pixel, whatever the buffer, scale and
repeat count; it never returns the source unchanged. -/
theorem effect_blur_radius_zero_undefined (dest src : List Nat) (width height scale times : Int)
    (hw : 1 ≤ width) (hh : 1 ≤ height) :
    effect_blur dest src width height scale 0 times = none := by
  have hh' : blur_h (List.replicate (width * height).toNat 0) src width height 0 = none := by
    unfold blur_h forRange
    apply forUpTo_none_of_first _ _ _ (by omega)
    exact blur_line_radius_zero _ _ _ _ hw
  simp [effect_blur, BlurMem.once, blur_once, hh']

/-- Witness for C2: the 1x1 buffer holding the pixel `0x123456`. -/
theorem effect_blur_radius_zero_undefined_witness :
    effect_blur [0] [0x123456] 1 1 1 0 1 = none :=
  effect_blur_radius_zero_undefined [0] [0x123456] 1 1 1 1 (by decide) (by decide)

/-! ## Pixelate -/

set_option maxRecDepth 1000000 in
/-- C3 (the code differs from the claim): on a white 3x2 buffer with block side 2 the block
of the last column holds 2 pixels, its channel sums are divided by `factor * factor = 4`, and
its pixels become `0x7f7f7f`, while the mean over the 2 pixels of the block is white. -/
theorem effect_pixelate_cut_block_darkened :
    effect_pixelate [0xffffff, 0xffffff, 0xffffff, 0xffffff, 0xffffff, 0xffffff] 3 2 1 2
        = some [0xffffff, 0xffffff, 0x7f7f7f, 0xffffff, 0xffffff, 0x7f7f7f] ∧
      block_pixels [0xffffff, 0xffffff, 0xffffff, 0xffffff, 0xffffff, 0xffffff] 3 2 2 2 0
        = [0xffffff, 0xffffff] ∧
      block_mean [0xffffff, 0xffffff, 0xffffff, 0xffffff, 0xffffff, 0xffffff] 3 2 2 2 0
        = 0xffffff := by
  decide

/-! ## Greyscale -/

theorem drop_eq_iff_suffix (suffix path : CStr) :
    path.drop (path.length - suffix.length) = suffix ↔ suffix <:+ path := by
  rw [List.suffix_iff_eq_drop]
  exact eq_comm

/-- The events of `effect_custom_run` begin with the load of its path and contain no
compilation. -/
theorem effect_custom_run_events (W : World) (data : List Nat) (width height scale : Int)
    (path : CStr) (r : List Nat × List Event)
    (h : effect_custom_run W data width height scale path = some r) :
    r.2.head? = some (Event.loaded path) ∧ ∀ cmd, Event.compiled cmd ∉ r.2 := by
  unfold effect_custom_run at h
  split at h
  · cases h; simp
  · split at h
    · cases h; simp
    · split at h
      · simp only [Option.map_eq_some'] at h
        obtain ⟨d, _, rfl⟩ := h
        simp
      · cases h; simp

set_option maxRecDepth 1000000 in
/-- C10, counterexample: the paths `.so` and `.c` end in a known suffix and are rejected with a
logged error, although every shared object would load in the sample environment; `a.so` is
loaded. -/
theorem effect_custom_bare_suffix_rejected :
    ".so".data <:+ ".so".data ∧
      effect_custom sampleWorld [1, 2] 2 1 1 ".so".data = some ([1, 2], [Event.logged]) ∧
      ".c".data <:+ ".c".data ∧
      effect_custom sampleWorld [1, 2] 2 1 1 ".c".data = some ([1, 2], [Event.logged]) ∧
      effect_custom sampleWorld [1, 2] 2 1 1 "a.so".data
        = some ([0, 0], [Event.loaded "a.so".data]) := by
  decide

/-- C10, as amended: `effect_custom` classifies its path by length and suffix.  A path of more
than 3 chars ending in `.so` goes directly to the loader; any other path of more than 2 chars
ending in `.c` is compiled first, and the loader, if it runs, gets the compiled artifact;
every other path is rejected with one logged error, nothing is loaded or compiled, and the
buffer is returned as it was. -/
theorem effect_custom_classifies (W : World) (data : List Nat) (width height scale : Int)
    (path : CStr) :
    (3 < path.length ∧ ".so".data <:+ path →
        effect_custom W data width height scale path
          = effect_custom_run W data width height scale path ∧
        ∀ r, effect_custom W data width height scale path = some r →
          r.2.head? = some (Event.loaded path) ∧ ∀ cmd, Event.compiled cmd ∉ r.2) ∧
    (¬ (3 < path.length ∧ ".so".data <:+ path) ∧ 2 < path.length ∧ ".c".data <:+ path →
        effect_custom W data width height scale path
          = (effect_custom_compile W path).bind (fun c =>
              match c.1 with
              | some compiled =>
                (effect_custom_run W data width height scale compiled).map
                  (fun r => (r.1, c.2 ++ r.2))
              | none => some (data, c.2))) ∧
    (¬ (3 < path.length ∧ ".so".data <:+ path) ∧ ¬ (2 < path.length ∧ ".c".data <:+ path) →
        effect_custom W data width height scale path = some (data, [Event.logged]) ∧
        ∀ r, effect_custom W data width height scale path = some r →
          r.1 = data ∧ (∀ p, Event.loaded p ∉ r.2) ∧ (∀ cmd, Event.compiled cmd ∉ r.2)) := by
  have hso : (path.length > 3 ∧ path.drop (path.length - 3) = ".so".data) ↔
      (3 < path.length ∧ ".so".data <:+ path) := by
    constructor
    · rintro ⟨h1, h2⟩
      exact ⟨h1, (drop_eq_iff_suffix ".so".data path).mp h2⟩
    · rintro ⟨h1, h2⟩
      exact ⟨h1, (drop_eq_iff_suffix ".so".data path).mpr h2⟩
  have hc : (path.length > 2 ∧ path.drop (path.length - 2) = ".c".data) ↔
      (2 < path.length ∧ ".c".data <:+ path) := by
    constructor
    · rintro ⟨h1, h2⟩
      exact ⟨h1, (drop_eq_iff_suffix ".c".data path).mp h2⟩
    · rintro ⟨h1, h2⟩
      exact ⟨h1, (drop_eq_iff_suffix ".c".data path).mpr h2⟩
  refine ⟨?_, ?_, ?_⟩
  · intro h
    have hrun : effect_custom W data width height scale path
        = effect_custom_run W data width height scale path := by
      unfold effect_custom
      simp only [if_pos (hso.mpr h)]
    refine ⟨hrun, fun r hr => ?_⟩
    rw [hrun] at hr
    exact effect_custom_run_events W data width height scale path r hr
  · rintro ⟨h1, h2⟩
    unfold effect_custom
    simp only [if_neg (fun h => h1 (hso.mp h)), if_pos (hc.mpr h2)]
    cases hcomp : effect_custom_compile W path with
    | none => rfl
    | some c =>
      simp only [Option.bind_eq_bind, Option.some_bind]
      cases hc1 : c.1 with
      | none => rfl
      | some compiled =>
        simp only
        cases effect_custom_run W data width height scale compiled <;> rfl
  · rintro ⟨h1, h2⟩
    have hrej : effect_custom W data width height scale path = some (data, [Event.logged]) := by
      unfold effect_custom
      simp only [if_neg (fun h => h1 (hso.mp h)), if_neg (fun h => h2 (hc.mp h))]
    refine ⟨hrej, ?_⟩
    intro r hr
    rw [hrej] at hr
    cases hr
    simp

/-- Witness for C10: one path of each class in the sample environment. -/
theorem effect_custom_classifies_witness :
    effect_custom sampleWorld [1, 2] 2 1 1 "a.so".data
        = effect_custom_run sampleWorld [1, 2] 2 1 1 "a.so".data ∧
      effect_custom sampleWorld [1, 2] 2 1 1 "a.txt".data = some ([1, 2], [Event.logged]) :=
  ⟨((effect_custom_classifies sampleWorld [1, 2] 2 1 1 "a.so".data).1 (by decide)).1,
   ((effect_custom_classifies sampleWorld [1, 2] 2 1 1 "a.txt".data).2.2 (by decide)).1⟩

/-! ## Pipeline runner -/

/-- An index loop over a list is the monadic left fold of the list. -/
theorem forUpTo_index_eq_foldlM {σ α : Type} (f : σ → α → Option σ) (l : List α) (s : σ) :
    ∀ k : Nat, k ≤ l.length →
      forUpTo (fun i t => (l[i.toNat]?).bind (fun a => f t a)) k s = (l.take k).foldlM f s := by
  intro k
  induction k with
  | zero => intro _; simp [forUpTo]
  | succ k ih =>
    intro hk
    have hk' : k < l.length := by omega
    rw [forUpTo, ih (by omega), List.take_succ, List.foldlM_append]
    simp [List.getElem?_eq_getElem hk']

/-- The run as a fold, from the result of `ensure_format`. -/
theorem swaylock_effects_run_eq (W : World) (surface : Surface) (scale : Int)
    (effects : List Effect) :
    swaylock_effects_run W surface scale effects effects.length
      = (ensure_format W surface).bind (fun s =>
          match s with
          | none => some none
          | some s0 => (effects.foldlM (fun s e => run_effect W s scale e) s0).map some) := by
  unfold swaylock_effects_run
  cases hens : ensure_format W surface with
  | none => rfl
  | some s =>
    cases s with
    | none => rfl
    | some s0 =>
      simp only [Option.bind_eq_bind, Option.some_bind]
      rw [forRange_zero,
        forUpTo_index_eq_foldlM (fun s e => run_effect W s scale e) effects s0 _ le_rfl,
        List.take_length]
      cases List.foldlM (fun s e => run_effect W s scale e) s0 effects <;> rfl

/-- The conversion of `ensure_format`: a surface in another format is copied, pixel for pixel,
into a new `RGB24` surface of the same size. -/
theorem ensure_format_convert (W : World) (surface : Surface)
    (hf : surface.format ≠ Format.RGB24)
    (hok : W.surface_ok surface.width surface.height = true)
    (hlen : (surface.width * surface.height).toNat ≤ surface.data.length) :
    ensure_format W surface
      = some (some ⟨Format.RGB24, surface.width, surface.height,
          surface.data.take (surface.width * surface.height).toNat⟩) := by
  unfold ensure_format surface_create memcpy
  rw [if_neg hf, if_pos hok]
  simp only [Option.bind_eq_bind]
  rw [if_pos ⟨by rw [List.length_replicate], hlen⟩]
  simp only [Option.some_bind, Option.pure_def]
  rw [List.drop_of_length_le (by rw [List.length_replicate]), List.append_nil]

/-- The failure of `ensure_format`: `NULL` when the new surface cannot be created. -/
theorem ensure_format_null (W : World) (surface : Surface)
    (hf : surface.format ≠ Format.RGB24)
    (hok : W.surface_ok surface.width surface.height = false) :
    ensure_format W surface = some none := by
  unfold ensure_format surface_create
  rw [if_neg hf, hok]
  rfl

/-- C9: `swaylock_effects_run` is the left fold of `run_effect` over the effects in list
order, started from the buffer returned by `ensure_format`.  A buffer whose format is `RGB24`
is that start as it is.  A buffer in another format is first copied, pixel for pixel, into a
new `RGB24` surface of the same width and height, and the fold starts from the copy; when the
new surface cannot be created the run returns `NULL` at once.  With no effects the result is
the start of the fold: the given surface, or its `RGB24` copy with the same pixels. -/
theorem swaylock_effects_run_is_fold (W : World) (surface : Surface) (scale : Int)
    (effects : List Effect) :
    swaylock_effects_run W surface scale effects effects.length
        = (ensure_format W surface).bind (fun s =>
            match s with
            | none => some none
            | some s0 => (effects.foldlM (fun s e => run_effect W s scale e) s0).map some) ∧
      swaylock_effects_run W surface scale [] 0 = ensure_format W surface ∧
      ensure_format W { surface with format := Format.RGB24 }
        = some (some { surface with format := Format.RGB24 }) ∧
      (surface.format = Format.RGB24 →
        ensure_format W surface = some (some surface) ∧
        swaylock_effects_run W surface scale effects effects.length
          = (effects.foldlM (fun s e => run_effect W s scale e) surface).map some ∧
        swaylock_effects_run W surface scale [] 0 = some (some surface)) ∧
      (surface.format ≠ Format.RGB24 →
        W.surface_ok surface.width surface.height = true →
        (surface.width * surface.height).toNat ≤ surface.data.length →
        ensure_format W surface
          = some (some ⟨Format.RGB24, surface.width, surface.height,
              surface.data.take (surface.width * surface.height).toNat⟩) ∧
        swaylock_effects_run W surface scale effects effects.length
          = (effects.foldlM (fun s e => run_effect W s scale e)
              ⟨Format.RGB24, surface.width, surface.height,
                surface.data.take (surface.width * surface.height).toNat⟩).map some ∧
        swaylock_effects_run W surface scale [] 0
          = some (some ⟨Format.RGB24, surface.width, surface.height,
              surface.data.take (surface.width * surface.height).toNat⟩) ∧
        (surface.data.length = (surface.width * surface.height).toNat →
          swaylock_effects_run W surface scale [] 0
            = some (some { surface with format := Format.RGB24 }))) ∧
      (surface.format ≠ Format.RGB24 →
        W.surface_ok surface.width surface.height = false →
        ensure_format W surface = some none ∧
        swaylock_effects_run W surface scale effects effects.length = some none) := by
  have hrun := swaylock_effects_run_eq W surface scale effects
  have hnil : swaylock_effects_run W surface scale [] 0 = ensure_format W surface := by
    unfold swaylock_effects_run
    cases hens : ensure_format W surface with
    | none => rfl
    | some s =>
      cases s with
      | none => rfl
      | some s0 => simp [forRange, forUpTo]
  refine ⟨hrun, hnil, by simp [ensure_format], fun hf => ?_, fun hf hok hlen => ?_,
    fun hf hok => ?_⟩
  · have he : ensure_format W surface = some (some surface) := by
      unfold ensure_format
      rw [if_pos hf]
    refine ⟨he, ?_, by rw [hnil, he]⟩
    rw [hrun, he]
    rfl
  · have he := ensure_format_convert W surface hf hok hlen
    refine ⟨he, ?_, by rw [hnil, he], fun heq => ?_⟩
    · rw [hrun, he]
      rfl
    · rw [hnil, he, List.take_of_length_le (le_of_eq heq)]
  · have he := ensure_format_null W surface hf hok
    refine ⟨he, ?_⟩
    rw [hrun, he]
    rfl

set_option maxRecDepth 1000000 in
/-- Witness for C9: a 2x1 surface with an alpha channel run with no effects is returned as an
`RGB24` surface with the same two pixels. -/
theorem swaylock_effects_run_is_fold_witness :
    swaylock_effects_run sampleWorld ⟨Format.ARGB32, 2, 1, [0xff102030, 0x80ffffff]⟩ 1 [] 0
      = some (some ⟨Format.RGB24, 2, 1, [0xff102030, 0x80ffffff]⟩) :=
  (swaylock_effects_run_is_fold sampleWorld ⟨Format.ARGB32, 2, 1, [0xff102030, 0x80ffffff]⟩ 1
    []).2.2.2.2.1 (by decide) rfl (by decide) |>.2.2.2 (by decide)

/-! ## Compose -/

theorem to_c_int_of_range (z : Int) (h0 : INT_MIN ≤ z) (h1 : z ≤ INT_MAX) :
    to_c_int z = some z := by
  unfold to_c_int
  rw [if_pos ⟨h0, h1⟩]

theorem to_c_int_some (z r : Int) (h : to_c_int z = some r) :
    r = z ∧ INT_MIN ≤ z ∧ z ≤ INT_MAX := by
  unfold to_c_int at h
  split at h
  · rename_i hz
    cases h
    exact ⟨rfl, hz⟩
  · cases h

theorem percent_to_pix_range (pos : Flt) (screensize r : Int)
    (h : percent_to_pix pos screensize = some r) : INT_MIN ≤ r ∧ r ≤ INT_MAX := by
  unfold percent_to_pix at h
  cases hq : Flt.div Flt.double (Flt.cvt Flt.double pos) (Flt.ofInt Flt.double 100) with
  | none => rw [hq] at h; cases h
  | some q =>
    rw [hq] at h
    obtain ⟨h1, h2⟩ := to_c_int_some _ _ h
    rw [h1]
    exact h2

theorem scaled_to_pix_range (pos : Flt) (scale r : Int)
    (h : scaled_to_pix pos scale = some r) : INT_MIN ≤ r ∧ r ≤ INT_MAX := by
  obtain ⟨h1, h2⟩ := to_c_int_some _ _ h
  rw [h1]
  exact h2

/-- The shape of `screen_pos_to_pix`: the resolved value, then the wrap of a negative one. -/
theorem screen_pos_to_pix_unfold (pos : ScreenPos) (screensize scale : Int) :
    screen_pos_to_pix pos screensize scale
      = (if pos.is_percent then percent_to_pix pos.pos screensize
          else scaled_to_pix pos.pos scale).bind
        (fun actual => if actual < 0 then to_c_int (screensize + actual) else some actual) := by
  unfold screen_pos_to_pix
  obtain ⟨v, b⟩ := pos
  cases b <;> rfl

/-- A position resolved by `screen_pos_to_pix` is in the range of `int`. -/
theorem screen_pos_to_pix_range (pos : ScreenPos) (screensize scale p : Int)
    (h : screen_pos_to_pix pos screensize scale = some p) : INT_MIN ≤ p ∧ p ≤ INT_MAX := by
  rw [screen_pos_to_pix_unfold] at h
  obtain ⟨a, ha, h2⟩ := Option.bind_eq_some.mp h
  have hr : INT_MIN ≤ a ∧ a ≤ INT_MAX := by
    split at ha
    · exact percent_to_pix_range _ _ _ ha
    · exact scaled_to_pix_range _ _ _ ha
  split at h2
  · obtain ⟨h3, h4⟩ := to_c_int_some _ _ h2
    rw [h3]
    exact h4
  · cases h2
    exact hr

/-- A loop whose body returns its state unchanged returns its state. -/
theorem forRange_unchanged {σ : Type} (lo hi : Int) (body : Int → σ → Option σ) (s : σ)
    (h : ∀ i : Int, lo ≤ i → i < hi → body i s = some s) :
    forRange lo hi body s = some s := by
  unfold forRange
  obtain ⟨t, ht, hP⟩ := forUpTo_inv (fun i => body (lo + i)) (fun _ t => t = s)
    (hi - lo).toNat s rfl (by
      intro k t hk ht
      subst ht
      exact ⟨t, h _ (by omega) (by omega), rfl⟩)
  rw [ht, hP]

/-- A source pixel with alpha 0 in an image with an alpha channel is not composed. -/
theorem compose_pixel_transparent (data : List Nat) (width : Int) (img : Image)
    (imgx imgy offx offy : Int) (v : Nat)
    (hv : rd img.bufdata (offy * img.bufstride + offx) = some v)
    (halpha : img.bufalpha = true) (h0 : alphaOf v = 0) :
    compose_pixel data width img imgx imgy offx offy = some data := by
  unfold compose_pixel
  simp [hv, halpha, h0]

theorem rd_in_bounds (buf : List Nat) (i : Int) (h0 : 0 ≤ i) (h1 : i < buf.length) :
    ∃ v, rd buf i = some v ∧ v ∈ buf := by
  obtain ⟨n, rfl⟩ := Int.eq_ofNat_of_zero_le h0
  have hn : n < buf.length := by exact_mod_cast h1
  refine ⟨buf[n], ?_, List.getElem_mem _⟩
  rw [rd_natCast, List.getElem?_eq_getElem hn]

/-- The compose loop with a fully transparent image, at any placement. -/
theorem compose_loop_transparent (data : List Nat) (width height : Int) (img : Image)
    (imgx imgy : Int) (hw : img.bufw ≤ img.bufstride)
    (hlen : img.bufstride * img.bufh ≤ img.bufdata.length)
    (halpha : img.bufalpha = true) (h0 : ∀ p ∈ img.bufdata, alphaOf p = 0) :
    compose_loop data width height img imgx imgy = some data := by
  unfold compose_loop
  apply forRange_unchanged
  intro offy hy0 hy1
  split
  · rfl
  · apply forRange_unchanged
    intro offx hx0 hx1
    split
    · rfl
    · have hs : 0 < img.bufstride := by omega
      have hidx0 : 0 ≤ offy * img.bufstride + offx := by positivity
      have hidx1 : offy * img.bufstride + offx < img.bufdata.length := by
        have h1 : (offy + 1) * img.bufstride ≤ img.bufh * img.bufstride :=
          mul_le_mul_of_nonneg_right (by omega) (le_of_lt hs)
        have h2 : img.bufh * img.bufstride = img.bufstride * img.bufh := mul_comm _ _
        have h3 : (offy + 1) * img.bufstride = offy * img.bufstride + img.bufstride := by ring
        omega
      obtain ⟨v, hv, hmem⟩ := rd_in_bounds img.bufdata _ hidx0 hidx1
      exact compose_pixel_transparent data width img imgx imgy offx offy v hv halpha
        (h0 v hmem)

/-- C7: when the loaded image has an alpha channel and every pixel of it has alpha 0, the
compose loop of `effect_compose` returns the destination buffer unchanged at every placement
`(imgx, imgy)`, whatever the buffer and its size.  `effect_compose` itself returns the
destination unchanged for every position, requested size, gravity and scale whose conversions
to `int` are defined, and is undefined exactly when one of these conversions is. -/
theorem effect_compose_transparent (data : List Nat) (width height scale : Int)
    (posx posy posw posh : ScreenPos) (gravity : Gravity) (img : Image)
    (hw : img.bufw ≤ img.bufstride) (hlen : img.bufstride * img.bufh ≤ img.bufdata.length)
    (halpha : img.bufalpha = true) (h0 : ∀ p ∈ img.bufdata, alphaOf p = 0) :
    (∀ imgx imgy : Int, compose_loop data width height img imgx imgy = some data) ∧
    effect_compose data width height scale posx posy posw posh gravity (fun _ _ _ => some img)
      = (screen_size_to_pix posw width scale).bind (fun _ =>
          (screen_size_to_pix posh height scale).bind (fun _ =>
            (screen_pos_pair_to_pix posx posy img.bufw img.bufh width height scale gravity).bind
              (fun _ => some data))) ∧
    (∀ (imgw imgh : Int) (xy : Int × Int),
      screen_size_to_pix posw width scale = some imgw →
      screen_size_to_pix posh height scale = some imgh →
      screen_pos_pair_to_pix posx posy img.bufw img.bufh width height scale gravity = some xy →
      effect_compose data width height scale posx posy posw posh gravity (fun _ _ _ => some img)
        = some data) := by
  have hloop : ∀ imgx imgy : Int, compose_loop data width height img imgx imgy = some data :=
    fun imgx imgy => compose_loop_transparent data width height img imgx imgy hw hlen halpha h0
  have heq : effect_compose data width height scale posx posy posw posh gravity
      (fun _ _ _ => some img)
      = (screen_size_to_pix posw width scale).bind (fun _ =>
          (screen_size_to_pix posh height scale).bind (fun _ =>
            (screen_pos_pair_to_pix posx posy img.bufw img.bufh width height scale gravity).bind
              (fun _ => some data))) := by
    unfold effect_compose
    cases screen_size_to_pix posw width scale with
    | none => rfl
    | some a =>
      cases screen_size_to_pix posh height scale with
      | none => rfl
      | some b =>
        cases hxy : screen_pos_pair_to_pix posx posy img.bufw img.bufh width height scale
            gravity with
        | none => simp only [hxy, Option.bind_eq_bind, Option.some_bind, Option.none_bind]
        | some xy =>
          simp only [hxy, Option.bind_eq_bind, Option.some_bind]
          exact hloop xy.1 xy.2
  refine ⟨hloop, heq, fun imgw imgh xy ha hb hxy => ?_⟩
  rw [heq, ha, hb, hxy]
  rfl

set_option maxRecDepth 1000000 in
/-- Witness for C7: a 2x2 transparent image placed at the centre of a 3x2 buffer. -/
theorem effect_compose_transparent_witness :
    effect_compose [1, 2, 3, 4, 5, 6] 3 2 1 ⟨Flt.ofInt 24 50, true⟩ ⟨Flt.ofInt 24 50, true⟩
        ⟨Flt.ofInt 24 2, false⟩ ⟨Flt.ofInt 24 2, false⟩ Gravity.CENTER
        (fun _ _ _ => some ⟨2, 2, [0x00ffffff, 0x00000000, 0x00123456, 0x00abcdef], 2, true⟩)
      = some [1, 2, 3, 4, 5, 6] :=
  (effect_compose_transparent [1, 2, 3, 4, 5, 6] 3 2 1 ⟨Flt.ofInt 24 50, true⟩
    ⟨Flt.ofInt 24 50, true⟩ ⟨Flt.ofInt 24 2, false⟩ ⟨Flt.ofInt 24 2, false⟩ Gravity.CENTER
    ⟨2, 2, [0x00ffffff, 0x00000000, 0x00123456, 0x00abcdef], 2, true⟩
    (by decide) (by decide) rfl (by decide)).2.2 2 2 (0, 0) (by decide) (by decide) (by decide)

theorem percent_to_pix_zero (screensize : Int) : percent_to_pix ⟨0, 0⟩ screensize = some 0 := by
  unfold percent_to_pix
  have h1 : Flt.div Flt.double (Flt.cvt Flt.double ⟨0, 0⟩) (Flt.ofInt Flt.double 100)
      = some ⟨0, 0⟩ := by decide
  have h2 : to_c_int 0 = some 0 := by decide
  simp [h1, Flt.mul, Flt.round, Flt.toInt, Flt.toCInt, h2]

theorem scaled_to_pix_zero (scale : Int) : scaled_to_pix ⟨0, 0⟩ scale = some 0 := by
  have h2 : to_c_int 0 = some 0 := by decide
  simp [scaled_to_pix, Flt.mul, Flt.round, Flt.toInt, Flt.toCInt, h2]

/-- The position 0, as a percentage or as a pixel count, resolves to the pixel 0. -/
theorem screen_pos_to_pix_zero (is_percent : Bool) (screensize scale : Int) :
    screen_pos_to_pix ⟨⟨0, 0⟩, is_percent⟩ screensize scale = some 0 := by
  rw [screen_pos_to_pix_unfold]
  cases is_percent <;> simp [percent_to_pix_zero, scaled_to_pix_zero]

/-- C8: a 1x1 source image that is fully opaque (no alpha channel, or alpha 255), composed
with gravity top-left at position (0, 0) onto a buffer of at least 1x1 pixels, replaces the
destination pixel (0, 0) by the source pixel and leaves every other pixel unchanged.  The
position (0, 0) always resolves; the result exists for every requested size whose conversion
to `int` is defined, and only for those. -/
theorem effect_compose_single_pixel (data : List Nat) (width height scale : Int)
    (px py : Bool) (posw posh : ScreenPos) (img : Image) (v : Nat)
    (hw : 1 ≤ width) (hh : 1 ≤ height) (hdata : (width * height).toNat ≤ data.length)
    (hbw : img.bufw = 1) (hbh : img.bufh = 1) (hv : img.bufdata[0]? = some v)
    (hsolid : img.bufalpha = false ∨ alphaOf v = 255) :
    effect_compose data width height scale ⟨⟨0, 0⟩, px⟩ ⟨⟨0, 0⟩, py⟩ posw posh Gravity.NW
        (fun _ _ _ => some img)
      = (screen_size_to_pix posw width scale).bind (fun _ =>
          (screen_size_to_pix posh height scale).bind (fun _ => some (data.set 0 v))) ∧
      (∀ imgw imgh : Int, screen_size_to_pix posw width scale = some imgw →
        screen_size_to_pix posh height scale = some imgh →
        effect_compose data width height scale ⟨⟨0, 0⟩, px⟩ ⟨⟨0, 0⟩, py⟩ posw posh Gravity.NW
          (fun _ _ _ => some img) = some (data.set 0 v)) ∧
      (data.set 0 v)[0]? = some v ∧ ∀ i : Nat, i ≠ 0 → (data.set 0 v)[i]? = data[i]? := by
  have hpos : 0 < data.length := by
    have : 1 ≤ width * height := by nlinarith
    omega
  have hxy : screen_pos_pair_to_pix ⟨⟨0, 0⟩, px⟩ ⟨⟨0, 0⟩, py⟩ img.bufw img.bufh width height
      scale Gravity.NW = some (0, 0) := by
    simp [screen_pos_pair_to_pix, screen_pos_to_pix_zero]
  have hrd : rd img.bufdata 0 = some v := by
    have := rd_natCast img.bufdata 0
    simpa [hv] using this
  have hwr : wr data 0 v = some (data.set 0 v) := by
    have := wr_natCast data 0 v hpos
    simpa using this
  have hpix : compose_pixel data width img 0 0 0 0 = some (data.set 0 v) := by
    unfold compose_pixel
    rcases hsolid with h | h
    · simp [hrd, h, hwr]
    · cases hb : img.bufalpha <;> simp [hrd, h, hwr]
  have hcw : ¬ ((0 : Int) < 0 ∨ (0 : Int) > width) := by omega
  have hch : ¬ ((0 : Int) < 0 ∨ (0 : Int) > height) := by omega
  have hloop : compose_loop data width height img 0 0 = some (data.set 0 v) := by
    unfold compose_loop
    simp only [hbw, hbh]
    simp only [forRange, sub_zero, Int.toNat_one, forUpTo, Option.some_bind, Nat.cast_zero,
      add_zero, zero_add]
    simp only [hch, hcw, if_false, hpix]
  have heq : effect_compose data width height scale ⟨⟨0, 0⟩, px⟩ ⟨⟨0, 0⟩, py⟩ posw posh
      Gravity.NW (fun _ _ _ => some img)
      = (screen_size_to_pix posw width scale).bind (fun _ =>
          (screen_size_to_pix posh height scale).bind (fun _ => some (data.set 0 v))) := by
    unfold effect_compose
    cases screen_size_to_pix posw width scale with
    | none => rfl
    | some a =>
      cases screen_size_to_pix posh height scale with
      | none => rfl
      | some b =>
        simp only [hxy, Option.bind_eq_bind, Option.some_bind]
        exact hloop
  refine ⟨heq, fun imgw imgh ha hb => ?_, by simp [hpos],
    fun i hi => by simp [List.getElem?_set, Ne.symm hi]⟩
  rw [heq, ha, hb]
  rfl

set_option maxRecDepth 1000000 in
/-- Witness for C8: an opaque 1x1 image on a 3x2 buffer. -/
theorem effect_compose_single_pixel_witness :
    effect_compose [1, 2, 3, 4, 5, 6] 3 2 1 ⟨⟨0, 0⟩, false⟩ ⟨⟨0, 0⟩, true⟩
        ⟨Flt.ofInt 24 1, false⟩ ⟨Flt.ofInt 24 1, false⟩ Gravity.NW
        (fun _ _ _ => some ⟨1, 1, [0xffabcdef], 1, true⟩) = some [0xffabcdef, 2, 3, 4, 5, 6] :=
  (effect_compose_single_pixel [1, 2, 3, 4, 5, 6] 3 2 1 false true ⟨Flt.ofInt 24 1, false⟩
    ⟨Flt.ofInt 24 1, false⟩
    ⟨1, 1, [0xffabcdef], 1, true⟩ 0xffabcdef (by decide) (by decide) (by decide) rfl rfl rfl
    (Or.inr (by decide))).2.1 1 1 (by decide) (by decide)

/-! ## Scale -/

theorem forUpTo_congr {σ : Type} (body1 body2 : Int → σ → Option σ) (n : Nat) (s : σ)
    (h : ∀ (k : Nat) (t : σ), k < n → body1 k t = body2 k t) :
    forUpTo body1 n s = forUpTo body2 n s := by
  induction n with
  | zero => rfl
  | succ k ih =>
    rw [forUpTo, forUpTo, ih (fun j t hj => h j t (Nat.lt_succ_of_lt hj))]
    cases forUpTo body2 k s with
    | none => rfl
    | some t => exact h k t (Nat.lt_succ_self k)

theorem red_le (p : Nat) : red p ≤ 255 := by
  unfold red
  rw [Nat.shiftRight_eq_div_pow]
  calc (p &&& 0xff0000) / 2 ^ 16 ≤ 0xff0000 / 2 ^ 16 := Nat.div_le_div_right Nat.and_le_right
    _ = 255 := by norm_num

theorem green_le (p : Nat) : green p ≤ 255 := by
  unfold green
  rw [Nat.shiftRight_eq_div_pow]
  calc (p &&& 0x00ff00) / 2 ^ 8 ≤ 0x00ff00 / 2 ^ 8 := Nat.div_le_div_right Nat.and_le_right
    _ = 255 := by norm_num

theorem blue_le (p : Nat) : blue p ≤ 255 := Nat.and_le_right

theorem val_dbl_one : Flt.val (Flt.ofInt Flt.double 1) = 1 := by
  have := Flt.val_ofInt 53 1 (by norm_num) (by norm_num)
  simpa using this

theorem truncQ_intCast (z : Int) : truncQ (z : ℚ) = z := by
  unfold truncQ
  split <;> simp

/-- The conversion of a floating-point value to `int` truncates the number it denotes. -/
theorem Flt.toInt_eq_trunc (a : Flt) : Flt.toInt a = truncQ (Flt.val a) := by
  unfold Flt.toInt
  split
  · rename_i he
    have hv : Flt.val a = ((a.m * 2 ^ a.e.toNat : Int) : ℚ) := by
      unfold Flt.val
      push_cast
      rw [Flt.two_pow_toNat _ he]
    rw [hv, truncQ_intCast]
  · rename_i he
    obtain ⟨k, hk⟩ : ∃ k : Nat, a.e = -(k : Int) := ⟨(-a.e).toNat, by omega⟩
    have hk' : (-a.e).toNat = k := by omega
    rw [hk']
    have hv : Flt.val a = (a.m : ℚ) / ((2 ^ k : Nat) : ℚ) := by
      unfold Flt.val
      rw [hk, zpow_neg, zpow_natCast]
      push_cast
      simp [div_eq_mul_inv]
    have hd : (0 : ℚ) < ((2 ^ k : Nat) : ℚ) := by positivity
    unfold truncQ
    rcases le_or_lt 0 a.m with hm | hm
    · have h0 : 0 ≤ Flt.val a := by
        rw [hv]; exact div_nonneg (by exact_mod_cast hm) (le_of_lt hd)
      rw [if_pos h0, hv, Rat.floor_intCast_div_natCast,
        Int.tdiv_eq_ediv hm (by positivity)]
      norm_cast
    · have h0 : ¬ 0 ≤ Flt.val a := by
        rw [hv, not_le]; exact div_neg_of_neg_of_pos (by exact_mod_cast hm) hd
      rw [if_neg h0, hv]
      have e1 : (a.m : ℚ) / ((2 ^ k : Nat) : ℚ)
          = -(((-a.m : Int) : ℚ) / ((2 ^ k : Nat) : ℚ)) := by
        push_cast; ring
      rw [e1, Int.ceil_neg, Rat.floor_intCast_div_natCast]
      have e2 : Int.tdiv a.m (2 ^ k) = -(Int.tdiv (-a.m) (2 ^ k)) := by
        rw [Int.neg_tdiv, neg_neg]
      rw [e2, Int.tdiv_eq_ediv (by omega) (by positivity)]
      norm_cast

/-! ## Artifact staleness -/

/-- C11: `file_is_outdated` returns false exactly when both files have a modification time and
that of the artifact, compared as `(seconds, nanoseconds)`, is strictly newer than that of
the source.  Equal times, a newer source and a failed `stat` of either file give true.  When
it returns false, `effect_custom_compile` returns the artifact path without calling the
compiler. -/
theorem file_is_outdated_iff (W : World) (input output : CStr) :
    (file_is_outdated W input output = false ↔
      ∃ instat outstat, W.mtime input = some instat ∧ W.mtime output = some outstat ∧
        (instat.1 < outstat.1 ∨ (instat.1 = outstat.1 ∧ instat.2 < outstat.2))) ∧
    (∀ t, W.mtime input = some t → W.mtime output = some t →
      file_is_outdated W input output = true) ∧
    (W.mtime input = none → file_is_outdated W input output = true) ∧
    (W.mtime output = none → file_is_outdated W input output = true) ∧
    (∀ cachepath abspath, cache_dir W = some cachepath → W.mkdir_ok cachepath = true →
      W.realpath input = some abspath →
      file_is_outdated W input (artifact_path cachepath abspath) = false →
      effect_custom_compile W input = some (some (artifact_path cachepath abspath), [])) := by
  refine ⟨?_, ?_, ?_, ?_, ?_⟩
  · unfold file_is_outdated
    cases hi : W.mtime input with
    | none => simp
    | some instat =>
      cases ho : W.mtime output with
      | none => simp
      | some outstat =>
        simp only [Option.some.injEq, exists_and_left, exists_eq_left']
        constructor
        · intro h
          split at h
          · exact absurd h (by simp)
          · split at h
            · exact absurd h (by simp)
            · omega
        · intro h
          have h1 : ¬ instat.1 > outstat.1 := by omega
          have h2 : ¬ (instat.1 = outstat.1 ∧ instat.2 ≥ outstat.2) := by omega
          simp only [h1, h2, if_false]
  · intro t hi ho
    unfold file_is_outdated
    simp [hi, ho]
  · intro hi
    unfold file_is_outdated
    simp [hi]
  · intro ho
    unfold file_is_outdated
    cases hi : W.mtime input <;> simp [ho]
  · intro cachepath abspath hc hm hr hf
    unfold effect_custom_compile
    simp [hc, hm, hr, hf]

set_option maxRecDepth 1000000 in
/-- Witness for C11: an artifact one nanosecond newer than its source is kept, and one with
the same time is not. -/
theorem file_is_outdated_iff_witness :
    file_is_outdated (timedWorld "a.c".data (5, 100) (5, 101)) "a.c".data "a.so".data = false ∧
      file_is_outdated (timedWorld "a.c".data (5, 100) (5, 100)) "a.c".data "a.so".data = true :=
  ⟨((file_is_outdated_iff _ "a.c".data "a.so".data).1).2
      ⟨(5, 100), (5, 101), by decide, by decide, by decide⟩,
   (file_is_outdated_iff _ "a.c".data "a.so".data).2.1 (5, 100) (by decide) (by decide)⟩

/-! ## Screen positions -/

/-- The quotient `pos / 100.0` exists for every position value. -/
theorem percent_quot_isSome (pos : Flt) :
    ∃ q, Flt.div Flt.double (Flt.cvt Flt.double pos) (Flt.ofInt Flt.double 100) = some q := by
  unfold Flt.div
  have h : (Flt.ofInt Flt.double 100).m ≠ 0 := by decide
  simp [h]

/-- The conversion to `int` returns the truncated value when it is in the range of `int`. -/
theorem Flt.toCInt_eq (a : Flt) : Flt.toCInt a = to_c_int (truncQ (Flt.val a)) := by
  unfold Flt.toCInt
  rw [Flt.toInt_eq_trunc]

/-- C12: `screen_size_to_pix` computes `t`: for a percentage, the `double` product
`(value / 100) * axisLength` truncated; for a value above 0 that is not a percentage, the
`float` product `value * scale` truncated; and otherwise the value itself truncated, not
multiplied by `scale`.  It returns `t` when `t` is in the range of `int`, and the conversion
is undefined otherwise (`to_c_int t`); a whole number that is not positive and not below
`INT_MIN` is returned as it is. -/
theorem screen_size_to_pix_cases (size : ScreenPos) (screensize scale : Int) :
    (size.is_percent = true →
      ∃ q, Flt.div Flt.double (Flt.cvt Flt.double size.pos) (Flt.ofInt Flt.double 100) = some q ∧
        screen_size_to_pix size screensize scale
          = to_c_int (truncQ (Flt.val (Flt.mul Flt.double q (Flt.ofInt Flt.double screensize))))) ∧
    (size.is_percent = false → 0 < Flt.val size.pos →
      screen_size_to_pix size screensize scale
        = to_c_int (truncQ (Flt.val (Flt.mul Flt.single size.pos (Flt.ofInt Flt.single scale))))) ∧
    (size.is_percent = false → Flt.val size.pos ≤ 0 →
      screen_size_to_pix size screensize scale = to_c_int (truncQ (Flt.val size.pos)) ∧
      ∀ n : Int, Flt.val size.pos = n → INT_MIN ≤ n →
        screen_size_to_pix size screensize scale = some n) ∧
    (∀ t : Int, (INT_MIN ≤ t ∧ t ≤ INT_MAX → to_c_int t = some t) ∧
      (¬ (INT_MIN ≤ t ∧ t ≤ INT_MAX) → to_c_int t = none)) ∧
    (∀ r : Int, screen_size_to_pix size screensize scale = some r →
      INT_MIN ≤ r ∧ r ≤ INT_MAX) := by
  have h0 : Flt.val (Flt.ofInt Flt.single 0) = 0 := by
    have : Flt.ofInt Flt.single 0 = ⟨0, 0⟩ := by decide
    rw [this, Flt.val_zero]
  have hperc : size.is_percent = true →
      ∃ q, Flt.div Flt.double (Flt.cvt Flt.double size.pos) (Flt.ofInt Flt.double 100) = some q ∧
        screen_size_to_pix size screensize scale
          = to_c_int (truncQ (Flt.val (Flt.mul Flt.double q
              (Flt.ofInt Flt.double screensize)))) := by
    intro hp
    obtain ⟨q, hq⟩ := percent_quot_isSome size.pos
    refine ⟨q, hq, ?_⟩
    unfold screen_size_to_pix percent_to_pix
    simp [hp, hq, Flt.toCInt_eq]
  have hposv : size.is_percent = false → 0 < Flt.val size.pos →
      screen_size_to_pix size screensize scale
        = to_c_int (truncQ (Flt.val (Flt.mul Flt.single size.pos
            (Flt.ofInt Flt.single scale)))) := by
    intro hp hpos
    have hlt : Flt.lt (Flt.ofInt Flt.single 0) size.pos = true := by
      rw [Flt.lt_iff_val, h0]; exact hpos
    unfold screen_size_to_pix scaled_to_pix
    simp [hp, hlt, Flt.toCInt_eq]
  have hnegv : size.is_percent = false → Flt.val size.pos ≤ 0 →
      screen_size_to_pix size screensize scale = to_c_int (truncQ (Flt.val size.pos)) := by
    intro hp hneg
    have hlt : ¬ Flt.lt (Flt.ofInt Flt.single 0) size.pos = true := by
      rw [Flt.lt_iff_val, h0]; exact not_lt.mpr hneg
    unfold screen_size_to_pix
    simp [hp, hlt, Flt.toCInt_eq]
  refine ⟨hperc, hposv, fun hp hneg => ⟨hnegv hp hneg, fun n hn hmin => ?_⟩,
    fun t => ⟨fun h => to_c_int_of_range t h.1 h.2, fun h => ?_⟩, fun r hr => ?_⟩
  · rw [hnegv hp hneg, hn, truncQ_intCast]
    have hn0 : n ≤ 0 := by
      have : (n : ℚ) ≤ 0 := hn ▸ hneg
      exact_mod_cast this
    exact to_c_int_of_range n hmin (le_trans hn0 (by decide))
  · unfold to_c_int
    rw [if_neg h]
  · cases hp : size.is_percent
    · rcases lt_or_le 0 (Flt.val size.pos) with hv | hv
      · rw [hposv hp hv] at hr
        obtain ⟨h1, h2⟩ := to_c_int_some _ _ hr
        rw [h1]; exact h2
      · rw [hnegv hp hv] at hr
        obtain ⟨h1, h2⟩ := to_c_int_some _ _ hr
        rw [h1]; exact h2
    · obtain ⟨q, _, hq⟩ := hperc hp
      rw [hq] at hr
      obtain ⟨h1, h2⟩ := to_c_int_some _ _ hr
      rw [h1]; exact h2

set_option maxRecDepth 1000000 in
/-- Witness for C12: the size -1 with scale 2 is returned as -1. -/
theorem screen_size_to_pix_cases_witness :
    screen_size_to_pix ⟨Flt.ofInt Flt.single (-1), false⟩ 100 2 = some (-1) :=
  ((screen_size_to_pix_cases ⟨Flt.ofInt Flt.single (-1), false⟩ 100 2).2.2.1 rfl
    (by rw [Flt.val_ofInt 24 (-1) (by norm_num) (by norm_num)]; norm_num)).2 (-1)
    (by rw [Flt.val_ofInt 24 (-1) (by norm_num) (by norm_num)]) (by decide)

/-- C13: `screen_pos_to_pix` computes `t`, the `double` product `(value / 100) * axisLength`
truncated for a percentage and the `float` product `value * scale` truncated otherwise.  The
conversion gives `r = t` when `t` is in the range of `int` and is undefined otherwise; the
function returns `r` when `r ≥ 0` and `axisLength + r` when `r < 0`, this sum being defined
when it is in the range of `int`.  For `0 < -t ≤ axisLength ≤ INT_MAX` the result is
`axisLength + t`, in `[0, axisLength)`. -/
theorem screen_pos_to_pix_cases (pos : ScreenPos) (screensize scale : Int) :
    ∃ t : Int,
      (pos.is_percent = true →
        ∃ q, Flt.div Flt.double (Flt.cvt Flt.double pos.pos) (Flt.ofInt Flt.double 100) = some q ∧
          t = truncQ (Flt.val (Flt.mul Flt.double q (Flt.ofInt Flt.double screensize)))) ∧
      (pos.is_percent = false →
        t = truncQ (Flt.val (Flt.mul Flt.single pos.pos (Flt.ofInt Flt.single scale)))) ∧
      screen_pos_to_pix pos screensize scale
        = (to_c_int t).bind (fun r => if r < 0 then to_c_int (screensize + r) else some r) ∧
      (0 ≤ t → t ≤ INT_MAX → screen_pos_to_pix pos screensize scale = some t) ∧
      (t < 0 → INT_MIN ≤ t → INT_MIN ≤ screensize + t → screensize + t ≤ INT_MAX →
        screen_pos_to_pix pos screensize scale = some (screensize + t)) ∧
      (¬ (INT_MIN ≤ t ∧ t ≤ INT_MAX) → screen_pos_to_pix pos screensize scale = none) ∧
      (0 < -t → -t ≤ screensize → screensize ≤ INT_MAX →
        ∃ p, screen_pos_to_pix pos screensize scale = some p ∧ p = screensize + t ∧
          0 ≤ p ∧ p < screensize) := by
  obtain ⟨q, hq⟩ := percent_quot_isSome pos.pos
  have hmin : INT_MIN = -2147483648 := rfl
  have hmax : INT_MAX = 2147483647 := rfl
  have hfinal : ∀ t : Int, screen_pos_to_pix pos screensize scale
      = (to_c_int t).bind (fun r => if r < 0 then to_c_int (screensize + r) else some r) →
      (0 ≤ t → t ≤ INT_MAX → screen_pos_to_pix pos screensize scale = some t) ∧
      (t < 0 → INT_MIN ≤ t → INT_MIN ≤ screensize + t → screensize + t ≤ INT_MAX →
        screen_pos_to_pix pos screensize scale = some (screensize + t)) ∧
      (¬ (INT_MIN ≤ t ∧ t ≤ INT_MAX) → screen_pos_to_pix pos screensize scale = none) ∧
      (0 < -t → -t ≤ screensize → screensize ≤ INT_MAX →
        ∃ p, screen_pos_to_pix pos screensize scale = some p ∧ p = screensize + t ∧
          0 ≤ p ∧ p < screensize) := by
    intro t ht
    have hneg : t < 0 → INT_MIN ≤ t → INT_MIN ≤ screensize + t → screensize + t ≤ INT_MAX →
        screen_pos_to_pix pos screensize scale = some (screensize + t) := by
      intro h1 h2 h3 h4
      rw [ht, to_c_int_of_range t h2 (by omega), Option.some_bind, if_pos h1,
        to_c_int_of_range _ h3 h4]
    refine ⟨fun h1 h2 => ?_, hneg, fun h => ?_, fun h1 h2 h3 => ?_⟩
    · rw [ht, to_c_int_of_range t (by omega) h2, Option.some_bind, if_neg (by omega)]
    · rw [ht]
      unfold to_c_int
      rw [if_neg h]
      rfl
    · exact ⟨screensize + t, hneg (by omega) (by omega) (by omega) (by omega), rfl,
        by omega, by omega⟩
  cases hp : pos.is_percent
  · refine ⟨truncQ (Flt.val (Flt.mul Flt.single pos.pos (Flt.ofInt Flt.single scale))),
      fun h => absurd h (by simp), fun _ => rfl, ?_⟩
    have hr : screen_pos_to_pix pos screensize scale
        = (to_c_int (truncQ (Flt.val (Flt.mul Flt.single pos.pos
            (Flt.ofInt Flt.single scale))))).bind
          (fun r => if r < 0 then to_c_int (screensize + r) else some r) := by
      rw [screen_pos_to_pix_unfold, hp]
      simp only [Bool.false_eq_true, if_false]
      unfold scaled_to_pix
      rw [Flt.toCInt_eq]
    exact ⟨hr, hfinal _ hr⟩
  · refine ⟨truncQ (Flt.val (Flt.mul Flt.double q (Flt.ofInt Flt.double screensize))),
      fun _ => ⟨q, hq, rfl⟩, fun h => absurd h (by simp), ?_⟩
    have hr : screen_pos_to_pix pos screensize scale
        = (to_c_int (truncQ (Flt.val (Flt.mul Flt.double q
            (Flt.ofInt Flt.double screensize))))).bind
          (fun r => if r < 0 then to_c_int (screensize + r) else some r) := by
      rw [screen_pos_to_pix_unfold, hp]
      simp only [if_true]
      unfold percent_to_pix
      simp only [hq, Option.bind_eq_bind, Option.some_bind]
      rw [Flt.toCInt_eq]
    exact ⟨hr, hfinal _ hr⟩

set_option maxRecDepth 1000000 in
/-- Witness for C13: the position -10 pixels on an axis of 100 pixels, at scale 1, is the
pixel 90. -/
theorem screen_pos_to_pix_cases_witness :
    screen_pos_to_pix ⟨Flt.ofInt Flt.single (-10), false⟩ 100 1 = some 90 := by
  obtain ⟨t, _, h2, _, _, h5, _⟩ :=
    screen_pos_to_pix_cases ⟨Flt.ofInt Flt.single (-10), false⟩ 100 1
  have ht : t = -10 := by
    rw [h2 rfl, ← Flt.toInt_eq_trunc]
    decide
  subst ht
  rw [h5 (by decide) (by decide) (by decide) (by decide)]
  rfl

set_option maxRecDepth 1000000 in
/-- Counterexample for C13: the position 29 percent on an axis of 100 pixels is the pixel 28,
where `trunc(29 / 100 * 100)` is 29: the quotient `29 / 100.0` is rounded to `double`, and
its product by 100 is below 29. -/
theorem screen_pos_to_pix_percent_rounded :
    screen_pos_to_pix ⟨Flt.ofInt Flt.single 29, true⟩ 100 1 = some 28 ∧
      truncQ ((29 : ℚ) / 100 * 100) = 29 := by
  refine ⟨by decide, ?_⟩
  have h : (29 : ℚ) / 100 * 100 = ((29 : Int) : ℚ) := by norm_num
  rw [h, truncQ_intCast]

/-- C14: for each of the 9 gravities `screen_pos_pair_to_pix` resolves `px` and `py` by
`screen_pos_to_pix` and returns `(px - dx, py - dy)`, where `dx`, `dy` are the shifts of the
gravity; each difference is returned when it is in the range of `int` (the subtraction
overflows otherwise), and nothing clamps the result to the screen. -/
theorem screen_pos_pair_to_pix_gravity (posx posy : ScreenPos) (objwidth objheight : Int)
    (screenwidth screenheight scale : Int) (gravity : Gravity) :
    screen_pos_pair_to_pix posx posy objwidth objheight screenwidth screenheight scale gravity
      = (screen_pos_to_pix posx screenwidth scale).bind (fun px =>
          (screen_pos_to_pix posy screenheight scale).bind (fun py =>
            (to_c_int (px - gravity_dx gravity objwidth)).bind (fun x =>
              (to_c_int (py - gravity_dy gravity objheight)).bind (fun y => some (x, y))))) ∧
    (∀ px py : Int, screen_pos_to_pix posx screenwidth scale = some px →
      screen_pos_to_pix posy screenheight scale = some py →
      INT_MIN ≤ px - gravity_dx gravity objwidth →
      px - gravity_dx gravity objwidth ≤ INT_MAX →
      INT_MIN ≤ py - gravity_dy gravity objheight →
      py - gravity_dy gravity objheight ≤ INT_MAX →
      screen_pos_pair_to_pix posx posy objwidth objheight screenwidth screenheight scale gravity
        = some (px - gravity_dx gravity objwidth, py - gravity_dy gravity objheight)) := by
  have heq : screen_pos_pair_to_pix posx posy objwidth objheight screenwidth screenheight scale
      gravity
      = (screen_pos_to_pix posx screenwidth scale).bind (fun px =>
          (screen_pos_to_pix posy screenheight scale).bind (fun py =>
            (to_c_int (px - gravity_dx gravity objwidth)).bind (fun x =>
              (to_c_int (py - gravity_dy gravity objheight)).bind (fun y => some (x, y))))) := by
    unfold screen_pos_pair_to_pix
    cases hx : screen_pos_to_pix posx screenwidth scale with
    | none => rfl
    | some px =>
      cases hy : screen_pos_to_pix posy screenheight scale with
      | none => rfl
      | some py =>
        obtain ⟨hx0, hx1⟩ := screen_pos_to_pix_range _ _ _ _ hx
        obtain ⟨hy0, hy1⟩ := screen_pos_to_pix_range _ _ _ _ hy
        have hpx : to_c_int (px - 0) = some px := by
          rw [sub_zero]; exact to_c_int_of_range px hx0 hx1
        have hpy : to_c_int (py - 0) = some py := by
          rw [sub_zero]; exact to_c_int_of_range py hy0 hy1
        cases gravity <;>
          simp only [gravity_dx, gravity_dy, hpx, hpy, Option.bind_eq_bind, Option.some_bind,
            Option.pure_def]
  refine ⟨heq, fun px py hx hy h1 h2 h3 h4 => ?_⟩
  rw [heq, hx, hy, Option.some_bind, Option.some_bind, to_c_int_of_range _ h1 h2,
    to_c_int_of_range _ h3 h4]
  rfl

set_option maxRecDepth 1000000 in
/-- Witness for C14: a 7x9 object placed at position (0, 0) of a 100x200 screen with gravity
south-east has the origin (-7, -9), outside the screen. -/
theorem screen_pos_pair_to_pix_gravity_witness :
    screen_pos_pair_to_pix ⟨⟨0, 0⟩, false⟩ ⟨⟨0, 0⟩, false⟩ 7 9 100 200 1 Gravity.SE
      = some (-7, -9) :=
  (screen_pos_pair_to_pix_gravity ⟨⟨0, 0⟩, false⟩ ⟨⟨0, 0⟩, false⟩ 7 9 100 200 1 Gravity.SE).2
    0 0 (by decide) (by decide) (by decide) (by decide) (by decide) (by decide)

set_option maxRecDepth 1000000 in
/-- Counterexample for C12: the size -1/2 (the `float` constant `-0.5f`, not a percentage) is
not returned unchanged; the conversion to the `int` return type truncates it to 0. -/
theorem screen_size_to_pix_fraction_truncated :
    Flt.val (Flt.lit Flt.single (-1) 2) = -1 / 2 ∧
      screen_size_to_pix ⟨Flt.lit Flt.single (-1) 2, false⟩ 100 2 = some 0 := by
  have h : Flt.lit Flt.single (-1) 2 = ⟨-8388608, -24⟩ := by decide
  refine ⟨?_, by decide⟩
  rw [h]
  unfold Flt.val
  norm_num

/-! ## Blur window -/

set_option maxRecDepth 1000000 in
/-- C17: on the row (90, 0, 0) with radius 1, `blur_h` writes 0 at column 1, the mean of the
columns 1..2, where the symmetric window 0..2 has the mean 30; at column 2 the window is the
column 2 alone.  `blur_v` does the same on a column. -/
theorem blur_window_not_symmetric :
    blur_h [0, 0, 0] [90, 0, 0] 3 1 1 = some [45, 0, 0] ∧
      blur_h_windowed [90, 0, 0] 3 1 1 = [45, 30, 0] ∧
      blur_v [0, 0, 0] [90, 0, 0] 1 3 1 = some [45, 0, 0] ∧
      blur_v_windowed [90, 0, 0] 1 3 1 = [45, 30, 0] ∧
      blur_h [0, 0, 0] [0, 90, 90] 3 1 1 = some [45, 90, 90] ∧
      blur_h_windowed [0, 90, 90] 3 1 1 = [45, 60, 90] := by
  decide

/-! ## Compose bounds -/

set_option maxRecDepth 1000000 in
/-- C18: on a 2x2 destination an image pixel placed at x = 2 = width passes the range test
and is written at index 2, the pixel (0, 1) of the next row; placed at y = 2 = height it is
written at index 4, past the end of the buffer. -/
theorem effect_compose_writes_out_of_range :
    effect_compose [1, 2, 3, 4] 2 2 1 ⟨Flt.ofInt Flt.single 2, false⟩
        ⟨Flt.ofInt Flt.single 0, false⟩ ⟨Flt.ofInt Flt.single 1, false⟩
        ⟨Flt.ofInt Flt.single 1, false⟩ Gravity.NW (fun _ _ _ => some ⟨1, 1, [170], 1, false⟩)
      = some [1, 2, 170, 4] ∧
    compose_loop [1, 2, 3, 4] 2 2 ⟨1, 1, [170], 1, false⟩ 2 0 = some [1, 2, 170, 4] ∧
    effect_compose [1, 2, 3, 4] 2 2 1 ⟨Flt.ofInt Flt.single 0, false⟩
        ⟨Flt.ofInt Flt.single 2, false⟩ ⟨Flt.ofInt Flt.single 1, false⟩
        ⟨Flt.ofInt Flt.single 1, false⟩ Gravity.NW (fun _ _ _ => some ⟨1, 1, [170], 1, false⟩)
      = none ∧
    compose_loop [1, 2, 3, 4] 2 2 ⟨1, 1, [170], 1, false⟩ 0 2 = none := by
  decide

/-! ## The loop nest of scale -/

theorem truncQ_of_nonneg (q : ℚ) (h : 0 ≤ q) : truncQ q = ⌊q⌋ := by
  simp [truncQ, h]

/-- The function `effect_scale` is the loop nest `scale_loop` run with the `double` values of
`dwidth`, `dheight` and of the source coordinates. -/
theorem effect_scale_eq_scale_loop (dest src : List Nat) (swidth sheight : Int) (scale : Flt) :
    effect_scale dest src swidth sheight scale
      = scale_loop dest src swidth sheight
          (Flt.toInt (Flt.mul Flt.double (Flt.ofInt Flt.double swidth) scale))
          (Flt.toInt (Flt.mul Flt.double (Flt.ofInt Flt.double sheight) scale))
          (fun k => (Flt.div Flt.double (Flt.ofInt Flt.double 1) scale).map
            (fun f => Flt.toInt (Flt.mul Flt.double (Flt.ofInt Flt.double k) f))) := by
  unfold effect_scale scale_loop
  cases Flt.div Flt.double (Flt.ofInt Flt.double 1) scale with
  | none => simp
  | some f => simp

/-- The loop nest of `effect_scale` when every source coordinate is inside the source: it
fills the whole destination. -/
theorem scale_loop_samples (sw sh dw dh : Nat) (dest src : List Nat) (coord : Int → Option Int)
    (c : Nat → Nat) (hcoord : ∀ k : Nat, coord k = some (c k : Int))
    (hx : ∀ k, k < dw → c k < sw) (hy : ∀ k, k < dh → c k < sh)
    (hsrc : src.length = sw * sh) (hdest : dest.length = dw * dh) :
    ∃ out, scale_loop dest src sw sh dw dh coord = some out ∧ out.length = dest.length ∧
      ∀ dx dy, dx < dw → dy < dh →
        c dy * sw + c dx < src.length ∧ out[dy * dw + dx]? = src[c dy * sw + c dx]? := by
  have hin : ∀ dx dy, dx < dw → dy < dh → c dy * sw + c dx < src.length := by
    intro dx dy hdx hdy
    have h1 := hx dx hdx
    have h2 := hy dy hdy
    calc c dy * sw + c dx < c dy * sw + sw := by omega
      _ = (c dy + 1) * sw := by ring
      _ ≤ sh * sw := Nat.mul_le_mul_right sw h2
      _ = src.length := by rw [hsrc, Nat.mul_comm]
  obtain ⟨out, h1, h2, h3⟩ := row_major_map dw dh dest
    (fun j _ => src.getD (c (j / dw) * sw + c (j % dw)) 0)
    (fun dx dy d =>
      (coord dy).bind (fun sy => (coord dx).bind (fun sx =>
        if sx ≥ (sw : Int) then some d
        else (rd src (sy * (sw : Int) + sx)).bind (fun v => wr d (dy * (dw : Int) + dx) v))))
    hdest (by
      intro x y d p hx' hy' hl hp
      have hidx : (y : Int) * (dw : Int) + (x : Int) = ((y * dw + x : Nat) : Int) := by
        push_cast; rfl
      have hsidx : ((c y : Nat) : Int) * (sw : Int) + ((c x : Nat) : Int)
          = ((c y * sw + c x : Nat) : Int) := by
        push_cast; rfl
      have hd : y * dw + x < d.length := by
        by_contra hc
        rw [List.getElem?_eq_none (by omega)] at hp
        exact absurd hp (by simp)
      have hs := hin x y hx' hy'
      have hnx : ¬ (((c x : Nat) : Int) ≥ (sw : Int)) := by
        have := hx x hx'
        omega
      have hdiv : (y * dw + x) / dw = y := by
        rw [Nat.add_comm, Nat.add_mul_div_right _ _ (by omega), Nat.div_eq_of_lt hx', Nat.zero_add]
      have hmod : (y * dw + x) % dw = x := by
        rw [Nat.add_comm, Nat.add_mul_mod_self_right, Nat.mod_eq_of_lt hx']
      simp only [hcoord, Option.some_bind, hnx, if_false, hsidx, hidx, rd_natCast,
        List.getElem?_eq_getElem hs]
      rw [wr_natCast d _ _ hd, hdiv, hmod]
      simp [List.getD_eq_getElem?_getD, List.getElem?_eq_getElem hs])
  refine ⟨out, ?_, h2, ?_⟩
  · rw [← h1]
    unfold scale_loop
    rw [forRange_zero, forRange_zero]
    apply forUpTo_congr
    intro dy t hdy
    have hny : ¬ (((c dy : Nat) : Int) ≥ (sh : Int)) := by
      have := hy dy hdy
      omega
    simp only [Option.bind_eq_bind, hcoord, Option.some_bind, hny, if_false]
    rw [forRange_zero, forRange_zero]
    apply forUpTo_congr
    intro dx t' hdx
    simp only [hcoord, Option.some_bind, Option.pure_def]
  · intro dx dy hdx hdy
    have hs := hin dx dy hdx hdy
    refine ⟨hs, ?_⟩
    have hd : dy * dw + dx < dest.length := by
      rw [hdest]
      calc dy * dw + dx < dy * dw + dw := by omega
        _ = (dy + 1) * dw := by ring
        _ ≤ dh * dw := Nat.mul_le_mul_right dw hdy
        _ = dw * dh := Nat.mul_comm _ _
    have hdiv : (dy * dw + dx) / dw = dy := by
      rw [Nat.add_comm, Nat.add_mul_div_right _ _ (by omega), Nat.div_eq_of_lt hdx, Nat.zero_add]
    have hmod : (dy * dw + dx) % dw = dx := by
      rw [Nat.add_comm, Nat.add_mul_mod_self_right, Nat.mod_eq_of_lt hdx]
    rw [h3, List.getElem?_eq_getElem hd, Option.map_some', hdiv, hmod,
      List.getD_eq_getElem?_getD, List.getElem?_eq_getElem hs]
    rfl

/-! ## Blending -/

/-- Integers below `2 ^ p` in magnitude, scaled by a power of 2, are representable. -/
theorem Flt.repr_dyadic (p : Nat) (N k : Int) (hp : 1 ≤ p) (hN : N.natAbs < 2 ^ p) :
    ∃ c, Flt.IsFlt p c ∧ Flt.val c = (N : ℚ) * (2 : ℚ) ^ k := by
  obtain ⟨c, hc, hv⟩ := Flt.repr_scale p (Flt.ofInt p N) (Flt.isFlt_ofInt p N hp) k
  exact ⟨c, hc, by rw [hv, Flt.val_ofInt p N hp hN]⟩

theorem Flt.div_bounds (p : Nat) (a b lo hi : Flt) (hp : 1 ≤ p) (hb : b.m ≠ 0)
    (hlo : Flt.IsFlt p lo) (hhi : Flt.IsFlt p hi) (h1 : Flt.val lo ≤ Flt.val a / Flt.val b)
    (h2 : Flt.val a / Flt.val b ≤ Flt.val hi) :
    ∃ q, Flt.div p a b = some q ∧ Flt.IsFlt p q ∧ Flt.val lo ≤ Flt.val q ∧
      Flt.val q ≤ Flt.val hi := by
  refine ⟨Flt.round p (a.m * Int.sign b.m) b.m.natAbs (a.e - b.e), ?_, ?_, ?_, ?_⟩
  · unfold Flt.div
    rw [if_neg hb]
  · exact Flt.isFlt_round p _ _ _ hp (Int.natAbs_pos.mpr hb)
  · exact Flt.val_round_ge p _ _ _ lo hp (Int.natAbs_pos.mpr hb) hlo
      (by rw [Flt.div_exact a b hb]; exact h1)
  · exact Flt.val_round_le p _ _ _ hi hp (Int.natAbs_pos.mpr hb) hhi
      (by rw [Flt.div_exact a b hb]; exact h2)

theorem Flt.val_cvt_le (p : Nat) (a c : Flt) (hp : 1 ≤ p) (hc : Flt.IsFlt p c)
    (h : Flt.val a ≤ Flt.val c) : Flt.val (Flt.cvt p a) ≤ Flt.val c :=
  Flt.val_round_le p _ 1 _ c hp (by norm_num) hc (by rw [Flt.cvt_exact]; exact h)

theorem Flt.val_cvt_ge (p : Nat) (a c : Flt) (hp : 1 ≤ p) (hc : Flt.IsFlt p c)
    (h : Flt.val c ≤ Flt.val a) : Flt.val c ≤ Flt.val (Flt.cvt p a) :=
  Flt.val_round_ge p _ 1 _ c hp (by norm_num) hc (by rw [Flt.cvt_exact]; exact h)

/-- The `float` argument `alpha / 255.0` of `blend_pixels` lies between `alpha / 256` and 1. -/
theorem compose_alpha_range (A : Nat) (hA : A ≤ 255) :
    ∃ a, compose_alpha A = some a ∧ (A : ℚ) / 256 ≤ Flt.val a ∧ Flt.val a ≤ 1 := by
  have hAn : ((A : Int)).natAbs < 2 ^ 24 := by
    have : ((A : Int)).natAbs = A := Int.natAbs_ofNat A
    rw [this]
    exact lt_of_le_of_lt hA (by norm_num)
  have hAn' : ((A : Int)).natAbs < 2 ^ 53 := lt_trans hAn (by norm_num)
  obtain ⟨lo, hlo, hlov⟩ := Flt.repr_dyadic 53 A (-8) (by norm_num) hAn'
  obtain ⟨lo', hlo', hlov'⟩ := Flt.repr_dyadic 24 A (-8) (by norm_num) hAn
  have hone : Flt.IsFlt 53 (Flt.ofInt 53 1) := Flt.isFlt_ofInt 53 1 (by norm_num)
  have hone' : Flt.IsFlt 24 (Flt.ofInt 24 1) := Flt.isFlt_ofInt 24 1 (by norm_num)
  have vone : Flt.val (Flt.ofInt 53 1) = 1 := by
    have := Flt.val_ofInt 53 1 (by norm_num) (by norm_num)
    simpa using this
  have vone' : Flt.val (Flt.ofInt 24 1) = 1 := by
    have := Flt.val_ofInt 24 1 (by norm_num) (by norm_num)
    simpa using this
  have vA : Flt.val (Flt.ofInt 53 (A : Int)) = (A : ℚ) := by
    have := Flt.val_ofInt 53 A (by norm_num) hAn'
    simpa using this
  have v255 : Flt.val (Flt.ofInt 53 255) = 255 := by
    have := Flt.val_ofInt 53 255 (by norm_num) (by norm_num)
    simpa using this
  have hA' : (A : ℚ) ≤ 255 := by exact_mod_cast hA
  have hA0 : (0 : ℚ) ≤ A := by positivity
  have hpow : ((2 : ℚ) ^ (-8 : Int)) = 1 / 256 := by norm_num
  obtain ⟨q, hq, _, hq1, hq2⟩ := Flt.div_bounds 53 (Flt.ofInt 53 (A : Int)) (Flt.ofInt 53 255)
    lo (Flt.ofInt 53 1) (by norm_num) (by decide) hlo hone
    (by
      rw [hlov, vA, v255, hpow, Int.cast_natCast]
      rw [le_div_iff₀ (by norm_num)]
      linarith)
    (by
      rw [vA, v255, vone, div_le_one (by norm_num)]
      exact hA')
  refine ⟨Flt.cvt 24 q, ?_, ?_, ?_⟩
  · unfold compose_alpha
    rw [hq]
    rfl
  · have := Flt.val_cvt_ge 24 q lo' (by norm_num) hlo' (by rw [hlov', ← hlov]; exact hq1)
    rw [hlov', hpow, Int.cast_natCast] at this
    linarith
  · have := Flt.val_cvt_le 24 q (Flt.ofInt 24 1) (by norm_num) hone' (by rw [vone', ← vone]; exact hq2)
    rw [vone'] at this
    exact this

/-- One channel of `blend_pixels` for a premultiplied source channel (`src ≤ A`) and
`A / 256 ≤ alpha ≤ 1`: the value stays below 256, so the channel is 8-bit. -/
theorem blend_chan_range (a : Flt) (A s d : Nat) (hA : A ≤ 255) (ha1 : (A : ℚ) / 256 ≤ Flt.val a)
    (ha2 : Flt.val a ≤ 1) (hs : s ≤ A) (hd : d ≤ 255) :
    ∃ t : Nat, blend_chan a s d = some t ∧ t ≤ 255 ∧ (t : Int) = truncQ (blend_value a s d) := by
  have hp : (1 : Nat) ≤ 24 := by norm_num
  have hpow : ((2 : ℚ) ^ (-8 : Int)) = 1 / 256 := by norm_num
  have hA' : (A : ℚ) ≤ 255 := by exact_mod_cast hA
  have hs' : (s : ℚ) ≤ A := by exact_mod_cast hs
  have hd' : (d : ℚ) ≤ 255 := by exact_mod_cast hd
  have hs0 : (0 : ℚ) ≤ s := by positivity
  have hd0 : (0 : ℚ) ≤ d := by positivity
  have hz : Flt.IsFlt 24 ⟨0, 0⟩ := Flt.isFlt_zero 24
  have vone : Flt.val (Flt.ofInt 24 1) = 1 := by
    have := Flt.val_ofInt 24 1 (by norm_num) (by norm_num)
    simpa using this
  have vs : Flt.val (Flt.ofInt 24 (s : Int)) = (s : ℚ) := by
    have := Flt.val_ofInt 24 s (by norm_num)
      (by rw [Int.natAbs_ofNat]; exact lt_of_le_of_lt (le_trans hs hA) (by norm_num))
    simpa using this
  have vd : Flt.val (Flt.ofInt 24 (d : Int)) = (d : ℚ) := by
    have := Flt.val_ofInt 24 d (by norm_num)
      (by rw [Int.natAbs_ofNat]; exact lt_of_le_of_lt hd (by norm_num))
    simpa using this
  -- 1 - alpha
  obtain ⟨c1, hc1, hv1⟩ := Flt.repr_dyadic 24 (256 - (A : Int)) (-8) hp (by omega)
  have hv1' : Flt.val c1 = (256 - (A : ℚ)) / 256 := by
    rw [hv1, hpow]; push_cast; ring
  have h1le : Flt.val (Flt.sub 24 (Flt.ofInt 24 1) a) ≤ (256 - (A : ℚ)) / 256 := by
    rw [← hv1']
    exact Flt.val_sub_le 24 _ _ c1 hp hc1 (by rw [vone, hv1']; linarith)
  have h1ge : 0 ≤ Flt.val (Flt.sub 24 (Flt.ofInt 24 1) a) := by
    have := Flt.val_sub_ge 24 (Flt.ofInt 24 1) a ⟨0, 0⟩ hp hz
      (by rw [Flt.val_zero, vone]; linarith)
    rwa [Flt.val_zero] at this
  -- dest * (1 - alpha)
  obtain ⟨c2, hc2, hv2⟩ := Flt.repr_dyadic 24 (255 * (256 - (A : Int))) (-8) hp (by omega)
  have hv2' : Flt.val c2 = 255 * (256 - (A : ℚ)) / 256 := by
    rw [hv2, hpow]; push_cast; ring
  have h2le : Flt.val (Flt.mul 24 (Flt.ofInt 24 (d : Int)) (Flt.sub 24 (Flt.ofInt 24 1) a))
      ≤ 255 * (256 - (A : ℚ)) / 256 := by
    rw [← hv2']
    refine Flt.val_mul_le 24 _ _ c2 hp hc2 ?_
    rw [vd, hv2']
    calc (d : ℚ) * Flt.val (Flt.sub 24 (Flt.ofInt 24 1) a)
        ≤ 255 * ((256 - (A : ℚ)) / 256) := mul_le_mul hd' h1le h1ge (by norm_num)
      _ = 255 * (256 - (A : ℚ)) / 256 := by ring
  have h2ge : 0 ≤ Flt.val (Flt.mul 24 (Flt.ofInt 24 (d : Int))
      (Flt.sub 24 (Flt.ofInt 24 1) a)) := by
    have := Flt.val_mul_ge 24 (Flt.ofInt 24 (d : Int)) (Flt.sub 24 (Flt.ofInt 24 1) a) ⟨0, 0⟩
      hp hz (by rw [Flt.val_zero, vd]; positivity)
    rwa [Flt.val_zero] at this
  -- src + dest * (1 - alpha)
  obtain ⟨c3, hc3, hv3⟩ := Flt.repr_dyadic 24 ((A : Int) + 65280) (-8) hp (by omega)
  have hv3' : Flt.val c3 = ((A : ℚ) + 65280) / 256 := by
    rw [hv3, hpow]; push_cast; ring
  have h3le : blend_value a s d ≤ ((A : ℚ) + 65280) / 256 := by
    unfold blend_value
    rw [← hv3']
    refine Flt.val_add_le 24 _ _ c3 hp hc3 ?_
    rw [vs, hv3']
    have : Flt.val (Flt.mul Flt.single (Flt.ofInt Flt.single (d : Int))
        (Flt.sub Flt.single (Flt.ofInt Flt.single 1) a)) ≤ 255 * (256 - (A : ℚ)) / 256 := h2le
    linarith
  have h3ge : 0 ≤ blend_value a s d := by
    unfold blend_value
    have := Flt.val_add_ge 24 (Flt.ofInt 24 (s : Int))
      (Flt.mul 24 (Flt.ofInt 24 (d : Int)) (Flt.sub 24 (Flt.ofInt 24 1) a)) ⟨0, 0⟩ hp hz
      (by rw [Flt.val_zero, vs]; linarith)
    rwa [Flt.val_zero] at this
  have hlt : blend_value a s d < 256 := by
    have : ((A : ℚ) + 65280) / 256 < 256 := by
      rw [div_lt_iff₀ (by norm_num)]
      linarith
    linarith
  have ht0 : 0 ≤ truncQ (blend_value a s d) := by
    rw [truncQ_of_nonneg _ h3ge]
    exact Int.floor_nonneg.mpr h3ge
  have ht1 : truncQ (blend_value a s d) < 256 := by
    rw [truncQ_of_nonneg _ h3ge]
    exact Int.floor_lt.mpr (by exact_mod_cast hlt)
  refine ⟨(truncQ (blend_value a s d)).toNat, ?_, by omega, by omega⟩
  unfold blend_chan
  simp only [Flt.toInt_eq_trunc]
  have hnot : ¬ truncQ (blend_value a s d) < 0 := by omega
  have hmod : (truncQ (blend_value a s d)).toNat % 2 ^ 32 = (truncQ (blend_value a s d)).toNat :=
    Nat.mod_eq_of_lt (by omega)
  unfold blend_value at hnot hmod ⊢
  rw [if_neg hnot, hmod]

theorem red_or (x y : Nat) : red (x ||| y) = red x ||| red y := by
  unfold red
  apply Nat.eq_of_testBit_eq
  intro i
  simp only [Nat.testBit_shiftRight, Nat.testBit_and, Nat.testBit_or]
  cases x.testBit (16 + i) <;> cases y.testBit (16 + i) <;> simp

theorem green_or (x y : Nat) : green (x ||| y) = green x ||| green y := by
  unfold green
  apply Nat.eq_of_testBit_eq
  intro i
  simp only [Nat.testBit_shiftRight, Nat.testBit_and, Nat.testBit_or]
  cases x.testBit (8 + i) <;> cases y.testBit (8 + i) <;> simp

theorem blue_or (x y : Nat) : blue (x ||| y) = blue x ||| blue y := by
  unfold blue
  apply Nat.eq_of_testBit_eq
  intro i
  simp only [Nat.testBit_and, Nat.testBit_or]
  cases x.testBit i <;> cases y.testBit i <;> simp

theorem alphaOf_or (x y : Nat) : alphaOf (x ||| y) = alphaOf x ||| alphaOf y := by
  unfold alphaOf
  apply Nat.eq_of_testBit_eq
  intro i
  simp only [Nat.testBit_shiftRight, Nat.testBit_and, Nat.testBit_or]
  cases x.testBit (24 + i) <;> cases y.testBit (24 + i) <;> simp

/-- The alpha channel of a pixel below `2 ^ 24` is 0. -/
theorem alphaOf_of_lt (x : Nat) (h : x < 2 ^ 24) : alphaOf x = 0 := by
  unfold alphaOf
  apply Nat.eq_of_testBit_eq
  intro i
  simp only [Nat.testBit_shiftRight, Nat.testBit_and, Nat.zero_testBit]
  have : x.testBit (24 + i) = false :=
    Nat.testBit_lt_two_pow (lt_of_lt_of_le h (Nat.pow_le_pow_right (by norm_num) (by omega)))
  simp [this]

/-- The channels of the pixel `0 | 255 << 24 | r << 16 | g << 8 | b` returned by
`blend_pixels`, for 8-bit values. -/
theorem argb_channels (r g b : Nat) (hr : r ≤ 255) (hg : g ≤ 255) (hb : b ≤ 255) :
    red (0 ||| 255 <<< 24 ||| (r <<< 16) % 2 ^ 32 ||| (g <<< 8) % 2 ^ 32 ||| b) = r ∧
    green (0 ||| 255 <<< 24 ||| (r <<< 16) % 2 ^ 32 ||| (g <<< 8) % 2 ^ 32 ||| b) = g ∧
    blue (0 ||| 255 <<< 24 ||| (r <<< 16) % 2 ^ 32 ||| (g <<< 8) % 2 ^ 32 ||| b) = b ∧
    alphaOf (0 ||| 255 <<< 24 ||| (r <<< 16) % 2 ^ 32 ||| (g <<< 8) % 2 ^ 32 ||| b) = 255 := by
  have h1 : (r <<< 16) % 2 ^ 32 = r <<< 16 := by
    rw [Nat.shiftLeft_eq]
    exact Nat.mod_eq_of_lt (by omega)
  have h2 : (g <<< 8) % 2 ^ 32 = g <<< 8 := by
    rw [Nat.shiftLeft_eq]
    exact Nat.mod_eq_of_lt (by omega)
  have hshape : (0 ||| 255 <<< 24 ||| (r <<< 16) % 2 ^ 32 ||| (g <<< 8) % 2 ^ 32 ||| b)
      = 255 <<< 24 ||| (r <<< 16 ||| g <<< 8 ||| b) := by
    rw [h1, h2, Nat.zero_or, Nat.or_assoc, Nat.or_assoc, ← Nat.or_assoc (r <<< 16)]
  have hlow : r <<< 16 ||| g <<< 8 ||| b < 2 ^ 24 := by
    apply Nat.or_lt_two_pow
    · apply Nat.or_lt_two_pow
      · rw [Nat.shiftLeft_eq]; omega
      · rw [Nat.shiftLeft_eq]; omega
    · omega
  rw [hshape, red_or, green_or, blue_or, alphaOf_or,
    red_pack_nat r g b (by omega) (by omega) (by omega), green_pack_nat r g b (by omega) (by omega),
    blue_pack_nat r g b (by omega), alphaOf_of_lt _ hlow]
  have e1 : red (255 <<< 24) = 0 := by decide
  have e2 : green (255 <<< 24) = 0 := by decide
  have e3 : blue (255 <<< 24) = 0 := by decide
  have e4 : alphaOf (255 <<< 24) = 255 := by decide
  rw [e1, e2, e3, e4]
  simp

set_option maxRecDepth 1000000 in
/-- Counterexample for C19: the source pixel with alpha 128 and channels 64 composed over a
white destination gives the channels 191 = trunc(64 + 255 * (1 - 128/255)); source-over
blending as the claim states it, trunc(64 * a + 255 * (1 - a)) with a = 128/255, gives 159. -/
theorem effect_compose_blend_not_scaled :
    effect_compose [0xffffff] 1 1 1 ⟨Flt.ofInt Flt.single 0, false⟩
        ⟨Flt.ofInt Flt.single 0, false⟩ ⟨Flt.ofInt Flt.single 1, false⟩
        ⟨Flt.ofInt Flt.single 1, false⟩ Gravity.NW
        (fun _ _ _ => some ⟨1, 1, [0x80404040], 1, true⟩) = some [0xffbfbfbf] ∧
      red 0xffbfbfbf = 191 ∧ green 0xffbfbfbf = 191 ∧ blue 0xffbfbfbf = 191 ∧
      source_over_chan 128 64 255 = 159 := by
  decide

/-- C19 (amended): for a source pixel with alpha `A`, `0 < A < 255`, whose colour channels are
premultiplied (each at most `A`), and every destination pixel, the compose loop writes a pixel
with alpha 255 whose red, green and blue channels each equal
`trunc(src_c + dest_c * (1 - a))`, computed in `float` with `a` the `float` value of
`A / 255.0`: the source channel is added as it is, not multiplied by `a`. -/
theorem effect_compose_blend_premultiplied (data : List Nat) (width : Int) (img : Image)
    (imgx imgy offx offy : Int) (v dp : Nat) (halpha : img.bufalpha = true)
    (hv : rd img.bufdata (offy * img.bufstride + offx) = some v)
    (hdp : rd data ((offy + imgy) * width + (offx + imgx)) = some dp)
    (hA0 : 0 < alphaOf v) (hA : alphaOf v < 255)
    (hr : red v ≤ alphaOf v) (hg : green v ≤ alphaOf v) (hb : blue v ≤ alphaOf v) :
    ∃ a out, compose_alpha (alphaOf v) = some a ∧
      compose_pixel data width img imgx imgy offx offy
        = some (data.set ((offy + imgy) * width + (offx + imgx)).toNat out) ∧
      (red out : Int) = truncQ (blend_value a (red v) (red dp)) ∧
      (green out : Int) = truncQ (blend_value a (green v) (green dp)) ∧
      (blue out : Int) = truncQ (blend_value a (blue v) (blue dp)) ∧
      alphaOf out = 255 := by
  obtain ⟨a, ha, ha1, ha2⟩ := compose_alpha_range (alphaOf v) (by omega)
  obtain ⟨r, hr1, hr2, hr3⟩ := blend_chan_range a (alphaOf v) (red v) (red dp) (by omega)
    ha1 ha2 hr (red_le dp)
  obtain ⟨g, hg1, hg2, hg3⟩ := blend_chan_range a (alphaOf v) (green v) (green dp) (by omega)
    ha1 ha2 hg (green_le dp)
  obtain ⟨b, hb1, hb2, hb3⟩ := blend_chan_range a (alphaOf v) (blue v) (blue dp) (by omega)
    ha1 ha2 hb (blue_le dp)
  obtain ⟨c1, c2, c3, c4⟩ := argb_channels r g b hr2 hg2 hb2
  refine ⟨a, 0 ||| 255 <<< 24 ||| (r <<< 16) % 2 ^ 32 ||| (g <<< 8) % 2 ^ 32 ||| b, ha, ?_,
    by rw [c1, hr3], by rw [c2, hg3], by rw [c3, hb3], c4⟩
  have hidx : 0 ≤ (offy + imgy) * width + (offx + imgx) ∧
      ((offy + imgy) * width + (offx + imgx)).toNat < data.length := by
    unfold rd at hdp
    split at hdp
    · exact absurd hdp (by simp)
    · rename_i hneg
      refine ⟨by omega, ?_⟩
      by_contra hc
      rw [List.getElem?_eq_none (by omega)] at hdp
      exact absurd hdp (by simp)
  have hne255 : ¬ alphaOf v = 255 := by omega
  have hne0 : alphaOf v ≠ 0 := by omega
  unfold compose_pixel
  simp only [Option.bind_eq_bind, hv, Option.some_bind, halpha, Bool.not_true,
    Bool.false_eq_true, if_false, hne255, hne0, ne_eq, not_false_eq_true, if_true, ha, hdp,
    blend_pixels, hr1, hg1, hb1, Option.pure_def]
  unfold wr
  rw [if_pos hidx]

set_option maxRecDepth 1000000 in
/-- Witness for C19: the pixel 0x80404040 over a white pixel. -/
theorem effect_compose_blend_premultiplied_witness :
    ∃ a out, compose_alpha (alphaOf 0x80404040) = some a ∧
      compose_pixel [0xffffff] 1 ⟨1, 1, [0x80404040], 1, true⟩ 0 0 0 0
        = some ([0xffffff].set ((0 + 0) * 1 + (0 + 0) : Int).toNat out) ∧
      (red out : Int) = truncQ (blend_value a (red 0x80404040) (red 0xffffff)) ∧
      (green out : Int) = truncQ (blend_value a (green 0x80404040) (green 0xffffff)) ∧
      (blue out : Int) = truncQ (blend_value a (blue 0x80404040) (blue 0xffffff)) ∧
      alphaOf out = 255 :=
  effect_compose_blend_premultiplied [0xffffff] 1 ⟨1, 1, [0x80404040], 1, true⟩ 0 0 0 0
    0x80404040 0xffffff rfl (by decide) (by decide) (by decide) (by decide) (by decide)
    (by decide) (by decide)

/-! ## Relative rounding error -/

/-- Rounding a non-negative number to precision `p` raises it by at most the relative
error `2 ^ (-p)`. -/
theorem Flt.val_round_le_rel (p : Nat) (n : Int) (d : Nat) (e : Int) (hp : 1 ≤ p) (hd : 0 < d)
    (hv : 0 ≤ (n : ℚ) / d * (2 : ℚ) ^ e) :
    Flt.val (Flt.round p n d e) ≤ (n : ℚ) / d * (2 : ℚ) ^ e * (1 + (2 : ℚ) ^ (-(p : Int))) := by
  have hd' : (0 : ℚ) < d := by exact_mod_cast hd
  have h2e : (0 : ℚ) < (2 : ℚ) ^ e := Flt.two_zpow_pos e
  have hn : 0 ≤ n := by
    by_contra hc
    push_neg at hc
    have h1 : (n : ℚ) < 0 := by exact_mod_cast hc
    have h2 : (n : ℚ) / d * (2 : ℚ) ^ e < 0 := mul_neg_of_neg_of_pos (div_neg_of_neg_of_pos h1 hd') h2e
    linarith
  rcases eq_or_lt_of_le hn with h0 | hpos
  · subst h0
    have : Flt.round p 0 d e = ⟨0, 0⟩ := by simp [Flt.round]
    rw [this, Flt.val_zero]
    simp
  · have hvpos : 0 < (n : ℚ) / d * (2 : ℚ) ^ e :=
      mul_pos (div_pos (by exact_mod_cast hpos) hd') h2e
    have hlo : ((2 : ℚ)) ^ Int.log 2 ((n : ℚ) / d * (2 : ℚ) ^ e) ≤ (n : ℚ) / d * (2 : ℚ) ^ e := by
      have := Int.zpow_log_le_self (b := 2) (by norm_num) hvpos
      simpa using this
    have hhi : (n : ℚ) / d * (2 : ℚ) ^ e
        < (2 : ℚ) ^ (Int.log 2 ((n : ℚ) / d * (2 : ℚ) ^ e) + 1) := by
      have := Int.lt_zpow_succ_log_self (b := 2) (by norm_num) ((n : ℚ) / d * (2 : ℚ) ^ e)
      simpa using this
    have h := Flt.val_round_le_add p n d e _ hp hd hpos hhi
    have hsplit : (2 : ℚ) ^ (Int.log 2 ((n : ℚ) / d * (2 : ℚ) ^ e) - (p : Int))
        = (2 : ℚ) ^ Int.log 2 ((n : ℚ) / d * (2 : ℚ) ^ e) * (2 : ℚ) ^ (-(p : Int)) := by
      rw [sub_eq_add_neg, zpow_add₀ (by norm_num)]
    rw [hsplit] at h
    have hpp : (0 : ℚ) < (2 : ℚ) ^ (-(p : Int)) := Flt.two_zpow_pos _
    have := mul_le_mul_of_nonneg_right hlo (le_of_lt hpp)
    linarith

theorem Flt.val_mul_le_rel (p : Nat) (a b : Flt) (hp : 1 ≤ p)
    (h : 0 ≤ Flt.val a * Flt.val b) :
    Flt.val (Flt.mul p a b) ≤ Flt.val a * Flt.val b * (1 + (2 : ℚ) ^ (-(p : Int))) := by
  have := Flt.val_round_le_rel p (a.m * b.m) 1 (a.e + b.e) hp (by norm_num)
    (by rw [Flt.mul_exact]; exact h)
  rw [Flt.mul_exact] at this
  exact this

theorem Flt.val_mul_nonneg (p : Nat) (a b : Flt) (hp : 1 ≤ p) (ha : 0 ≤ Flt.val a)
    (hb : 0 ≤ Flt.val b) : 0 ≤ Flt.val (Flt.mul p a b) := by
  have := Flt.val_mul_ge p a b ⟨0, 0⟩ hp (Flt.isFlt_zero p)
    (by rw [Flt.val_zero]; exact mul_nonneg ha hb)
  rwa [Flt.val_zero] at this

namespace Flt

/-- Rounding moves a positive value down by at most half a unit in the last place. -/
theorem roundPos_ge_sub (p N D : Nat) (hp : 1 ≤ p) (hD : 0 < D) :
    (N : ℚ) / D - (2 : ℚ) ^ (floorLog2 N D - (p : Int))
      ≤ ((roundPos p N D).1 : ℚ) * (2 : ℚ) ^ (roundPos p N D).2 := by
  rw [roundPos_val p N D hp]
  generalize hs : floorLog2 N D - ((p : Int) - 1) = s
  have hs' : floorLog2 N D - (p : Int) = s - 1 := by omega
  rw [hs']
  obtain ⟨_, e2⟩ := roundHalfEven_error (N * 2 ^ (-s).toNat) (D * 2 ^ s.toNat)
    (scaled_den_pos D s hD)
  have hD1 : (0 : ℚ) < ((D * 2 ^ s.toNat : Nat) : ℚ) := by
    exact_mod_cast scaled_den_pos D s hD
  have e2q : 2 * ((N * 2 ^ (-s).toNat : Nat) : ℚ)
      ≤ 2 * ((roundHalfEven (N * 2 ^ (-s).toNat) (D * 2 ^ s.toNat) : ℚ)
        * ((D * 2 ^ s.toNat : Nat) : ℚ)) + ((D * 2 ^ s.toNat : Nat) : ℚ) := by exact_mod_cast e2
  have hq := scaled_quot N D s hD
  have hge : (N : ℚ) / D / (2 : ℚ) ^ s - 1 / 2
      ≤ (roundHalfEven (N * 2 ^ (-s).toNat) (D * 2 ^ s.toNat) : ℚ) := by
    rw [← hq, sub_le_iff_le_add, div_le_iff₀ hD1]
    linarith
  have h2 := mul_le_mul_of_nonneg_right hge (le_of_lt (two_zpow_pos s))
  have h3 : ((N : ℚ) / D / (2 : ℚ) ^ s - 1 / 2) * (2 : ℚ) ^ s
      = (N : ℚ) / D - (2 : ℚ) ^ (s - 1) := by
    rw [zpow_sub₀ (by norm_num)]
    have : (2 : ℚ) ^ s ≠ 0 := ne_of_gt (two_zpow_pos s)
    field_simp
    ring
  linarith

/-- Rounding a positive value of at least `2 ^ k` removes at most `2 ^ (k - p)`. -/
theorem val_round_ge_sub (p : Nat) (n : Int) (d : Nat) (e k : Int) (hp : 1 ≤ p) (hd : 0 < d)
    (hn : 0 < n) (hv : (n : ℚ) / d * (2 : ℚ) ^ e < (2 : ℚ) ^ (k + 1)) :
    (n : ℚ) / d * (2 : ℚ) ^ e - (2 : ℚ) ^ (k - (p : Int)) ≤ val (round p n d e) := by
  rw [val_round_of_pos p n d e hn]
  have hN : 0 < n.natAbs := Int.natAbs_pos.mpr (ne_of_gt hn)
  obtain ⟨s1, _⟩ := floorLog2_spec n.natAbs d hN hd
  have hge := roundPos_ge_sub p n.natAbs d hp hd
  rw [natAbs_cast_of_pos n hn] at hge s1
  have hfl : floorLog2 n.natAbs d + e < k + 1 := by
    have : (2 : ℚ) ^ (floorLog2 n.natAbs d + e) < (2 : ℚ) ^ (k + 1) := by
      rw [zpow_add₀ (by norm_num)]
      exact lt_of_le_of_lt (mul_le_mul_of_nonneg_right s1 (le_of_lt (two_zpow_pos e))) hv
    exact (zpow_lt_zpow_iff_right₀ (by norm_num)).mp this
  have h2 := mul_le_mul_of_nonneg_right hge (le_of_lt (two_zpow_pos e))
  have h3 : (2 : ℚ) ^ (floorLog2 n.natAbs d - (p : Int)) * (2 : ℚ) ^ e
      ≤ (2 : ℚ) ^ (k - (p : Int)) := by
    rw [← zpow_add₀ (by norm_num)]
    exact zpow_le_zpow_right₀ (by norm_num) (by omega)
  rw [sub_mul] at h2
  linarith

end Flt

/-- Rounding a non-negative number to precision `p` lowers it by at most the relative
error `2 ^ (-p)`. -/
theorem Flt.val_round_ge_rel (p : Nat) (n : Int) (d : Nat) (e : Int) (hp : 1 ≤ p) (hd : 0 < d)
    (hv : 0 ≤ (n : ℚ) / d * (2 : ℚ) ^ e) :
    (n : ℚ) / d * (2 : ℚ) ^ e * (1 - (2 : ℚ) ^ (-(p : Int))) ≤ Flt.val (Flt.round p n d e) := by
  have hd' : (0 : ℚ) < d := by exact_mod_cast hd
  have h2e : (0 : ℚ) < (2 : ℚ) ^ e := Flt.two_zpow_pos e
  have hn : 0 ≤ n := by
    by_contra hc
    push_neg at hc
    have h1 : (n : ℚ) < 0 := by exact_mod_cast hc
    have h2 : (n : ℚ) / d * (2 : ℚ) ^ e < 0 :=
      mul_neg_of_neg_of_pos (div_neg_of_neg_of_pos h1 hd') h2e
    linarith
  rcases eq_or_lt_of_le hn with h0 | hpos
  · subst h0
    have : Flt.round p 0 d e = ⟨0, 0⟩ := by simp [Flt.round]
    rw [this, Flt.val_zero]
    simp
  · have hvpos : 0 < (n : ℚ) / d * (2 : ℚ) ^ e :=
      mul_pos (div_pos (by exact_mod_cast hpos) hd') h2e
    have hlo : ((2 : ℚ)) ^ Int.log 2 ((n : ℚ) / d * (2 : ℚ) ^ e) ≤ (n : ℚ) / d * (2 : ℚ) ^ e := by
      have := Int.zpow_log_le_self (b := 2) (by norm_num) hvpos
      simpa using this
    have hhi : (n : ℚ) / d * (2 : ℚ) ^ e
        < (2 : ℚ) ^ (Int.log 2 ((n : ℚ) / d * (2 : ℚ) ^ e) + 1) := by
      have := Int.lt_zpow_succ_log_self (b := 2) (by norm_num) ((n : ℚ) / d * (2 : ℚ) ^ e)
      simpa using this
    have h := Flt.val_round_ge_sub p n d e _ hp hd hpos hhi
    have hsplit : (2 : ℚ) ^ (Int.log 2 ((n : ℚ) / d * (2 : ℚ) ^ e) - (p : Int))
        = (2 : ℚ) ^ Int.log 2 ((n : ℚ) / d * (2 : ℚ) ^ e) * (2 : ℚ) ^ (-(p : Int)) := by
      rw [sub_eq_add_neg, zpow_add₀ (by norm_num)]
    rw [hsplit] at h
    have hpp : (0 : ℚ) < (2 : ℚ) ^ (-(p : Int)) := Flt.two_zpow_pos _
    have := mul_le_mul_of_nonneg_right hlo (le_of_lt hpp)
    linarith

theorem Flt.val_mul_ge_rel (p : Nat) (a b : Flt) (hp : 1 ≤ p)
    (h : 0 ≤ Flt.val a * Flt.val b) :
    Flt.val a * Flt.val b * (1 - (2 : ℚ) ^ (-(p : Int))) ≤ Flt.val (Flt.mul p a b) := by
  have := Flt.val_round_ge_rel p (a.m * b.m) 1 (a.e + b.e) hp (by norm_num)
    (by rw [Flt.mul_exact]; exact h)
  rw [Flt.mul_exact] at this
  exact this

/-- The quotient of two values with a non-negative ratio exists and is within the relative
error `2 ^ (-p)` of the ratio. -/
theorem Flt.div_rel (p : Nat) (a b : Flt) (hp : 1 ≤ p) (hb : b.m ≠ 0)
    (h : 0 ≤ Flt.val a / Flt.val b) :
    ∃ q, Flt.div p a b = some q ∧
      Flt.val a / Flt.val b * (1 - (2 : ℚ) ^ (-(p : Int))) ≤ Flt.val q ∧
      Flt.val q ≤ Flt.val a / Flt.val b * (1 + (2 : ℚ) ^ (-(p : Int))) := by
  refine ⟨Flt.round p (a.m * Int.sign b.m) b.m.natAbs (a.e - b.e), ?_, ?_, ?_⟩
  · unfold Flt.div
    rw [if_neg hb]
  · have := Flt.val_round_ge_rel p (a.m * Int.sign b.m) b.m.natAbs (a.e - b.e) hp
      (Int.natAbs_pos.mpr hb) (by rw [Flt.div_exact a b hb]; exact h)
    rw [Flt.div_exact a b hb] at this
    exact this
  · have := Flt.val_round_le_rel p (a.m * Int.sign b.m) b.m.natAbs (a.e - b.e) hp
      (Int.natAbs_pos.mpr hb) (by rw [Flt.div_exact a b hb]; exact h)
    rw [Flt.div_exact a b hb] at this
    exact this

/-! ## Scale in binary64 -/

theorem val_ofInt_nat (k : Nat) (hk : k < 2 ^ 53) : Flt.val (Flt.ofInt 53 (k : Int)) = (k : ℚ) := by
  have := Flt.val_ofInt 53 (k : Int) (by norm_num) (by rw [Int.natAbs_ofNat]; exact hk)
  simpa using this

/-- The conversion to `int` of a non-negative value is its floor. -/
theorem toInt_floor (a : Flt) (h : 0 ≤ Flt.val a) : Flt.toInt a = ⌊Flt.val a⌋ := by
  rw [Flt.toInt_eq_trunc, truncQ_of_nonneg _ h]

/-- The destination dimension `(int)(n * scale)` of `effect_scale`: the `double` product is
at most `n * scale * (1 + 2 ^ (-53))`, and its truncation is `floor(n * scale)` or one more. -/
theorem scale_dim (n d : Nat) (scale : Flt) (hq : 0 < Flt.val scale) (hn : n < 2 ^ 31)
    (hd : Flt.toInt (Flt.mul 53 (Flt.ofInt 53 (n : Int)) scale) = (d : Int))
    (hd31 : d < 2 ^ 31) :
    (n : ℚ) * Flt.val scale < 2 ^ 31 ∧
      (d : ℚ) ≤ (n : ℚ) * Flt.val scale * (1 + (2 : ℚ) ^ (-(53 : Int))) ∧
      ⌊(n : ℚ) * Flt.val scale⌋ ≤ (d : Int) ∧ (d : Int) ≤ ⌊(n : ℚ) * Flt.val scale⌋ + 1 := by
  have hp : (1 : Nat) ≤ 53 := by norm_num
  have vn : Flt.val (Flt.ofInt 53 (n : Int)) = (n : ℚ) :=
    val_ofInt_nat n (lt_trans hn (by norm_num))
  have hnq : 0 ≤ (n : ℚ) * Flt.val scale := by positivity
  have hP0 : 0 ≤ Flt.val (Flt.mul 53 (Flt.ofInt 53 (n : Int)) scale) :=
    Flt.val_mul_nonneg 53 _ _ hp (by rw [vn]; positivity) (le_of_lt hq)
  rw [toInt_floor _ hP0] at hd
  have hPle := Flt.val_mul_le_rel 53 (Flt.ofInt 53 (n : Int)) scale hp (by rw [vn]; exact hnq)
  rw [vn] at hPle
  -- a whole number below 2 ^ 53 bounds the product as it bounds the exact value
  have hlow : ∀ z : Int, 0 ≤ z → z < 2 ^ 53 → (z : ℚ) ≤ (n : ℚ) * Flt.val scale →
      z ≤ (d : Int) := by
    intro z hz0 hz hle
    have vz : Flt.val (Flt.ofInt 53 z) = (z : ℚ) :=
      Flt.val_ofInt 53 z hp (by omega)
    have := Flt.val_mul_ge 53 (Flt.ofInt 53 (n : Int)) scale (Flt.ofInt 53 z) hp
      (Flt.isFlt_ofInt 53 z hp) (by rw [vz, vn]; exact hle)
    rw [vz] at this
    rw [← hd]
    exact Int.le_floor.mpr this
  have hup : ∀ z : Int, 0 ≤ z → z < 2 ^ 53 → (n : ℚ) * Flt.val scale ≤ (z : ℚ) →
      (d : Int) ≤ z := by
    intro z hz0 hz hle
    have vz : Flt.val (Flt.ofInt 53 z) = (z : ℚ) :=
      Flt.val_ofInt 53 z hp (by omega)
    have := Flt.val_mul_le 53 (Flt.ofInt 53 (n : Int)) scale (Flt.ofInt 53 z) hp
      (Flt.isFlt_ofInt 53 z hp) (by rw [vz, vn]; exact hle)
    rw [vz] at this
    rw [← hd]
    have h2 : ((⌊Flt.val (Flt.mul 53 (Flt.ofInt 53 (n : Int)) scale)⌋ : Int) : ℚ) ≤ (z : ℚ) :=
      le_trans (Int.floor_le _) this
    exact_mod_cast h2
  have hlt : (n : ℚ) * Flt.val scale < 2 ^ 31 := by
    by_contra hc
    push_neg at hc
    have := hlow (2 ^ 31) (by norm_num) (by norm_num) (by push_cast; exact hc)
    have h31 : (d : Int) < 2 ^ 31 := by exact_mod_cast hd31
    omega
  have hF0 : 0 ≤ ⌊(n : ℚ) * Flt.val scale⌋ := Int.floor_nonneg.mpr hnq
  have hF1 : ⌊(n : ℚ) * Flt.val scale⌋ < 2 ^ 31 := by
    have : ((⌊(n : ℚ) * Flt.val scale⌋ : Int) : ℚ) < ((2 ^ 31 : Int) : ℚ) :=
      lt_of_le_of_lt (Int.floor_le _) (by push_cast; exact hlt)
    exact_mod_cast this
  refine ⟨hlt, ?_, hlow _ hF0 (by omega) (Int.floor_le _),
    hup _ (by omega) (by omega) ?_⟩
  · have h1 : ((⌊Flt.val (Flt.mul 53 (Flt.ofInt 53 (n : Int)) scale)⌋ : Int) : ℚ)
        ≤ Flt.val (Flt.mul 53 (Flt.ofInt 53 (n : Int)) scale) := Int.floor_le _
    rw [hd] at h1
    have h2 : ((d : Int) : ℚ) = (d : ℚ) := by norm_cast
    rw [h2] at h1
    exact le_trans h1 hPle
  · push_cast
    exact le_of_lt (Int.lt_floor_add_one _)

/-- The arithmetic of a source coordinate of `effect_scale`: with relative rounding errors of
at most `u`, the product `S` of the coordinate `k` and the rounded inverse `f` of the factor
`q` is below the source dimension `n` and within 1 of `k / q`. -/
theorem scale_coord_aux (S q f k n u : ℚ) (hq : 0 < q) (hu0 : 0 ≤ u)
    (hu : u * 17179869184 ≤ 1) (hk0 : 0 ≤ k)
    (hf1 : 1 / q * (1 - u) ≤ f) (hf2 : f ≤ 1 / q * (1 + u))
    (hSle : S ≤ k * f * (1 + u)) (hSge : k * f * (1 - u) ≤ S)
    (hn0 : 0 ≤ n) (hnq : n * q < 2147483648) (hn : n < 2147483648)
    (hkq : k + 1 ≤ n * q * (1 + u)) :
    S < n ∧ k / q - 1 < S ∧ S < k / q + 1 := by
  have hu1 : u ≤ 1 := by linarith
  have huu : 0 ≤ u * u := mul_nonneg hu0 hu0
  have huu1 : u * u ≤ u := by
    have := mul_le_mul_of_nonneg_left hu1 hu0
    linarith
  have hx0 : 0 ≤ k / q := by positivity
  have hxq : k / q * q = k := by field_simp
  have hkf2 : k * f ≤ k / q * (1 + u) := by
    have := mul_le_mul_of_nonneg_left hf2 hk0
    calc k * f ≤ k * (1 / q * (1 + u)) := this
      _ = k / q * (1 + u) := by ring
  have hkf1 : k / q * (1 - u) ≤ k * f := by
    have := mul_le_mul_of_nonneg_left hf1 hk0
    calc k / q * (1 - u) = k * (1 / q * (1 - u)) := by ring
      _ ≤ k * f := this
  have hSup : S ≤ k / q * (1 + u) * (1 + u) :=
    le_trans hSle (mul_le_mul_of_nonneg_right hkf2 (by linarith))
  have hSlo : k / q * (1 - u) * (1 - u) ≤ S :=
    le_trans (mul_le_mul_of_nonneg_right hkf1 (by linarith)) hSge
  have ha0 : 0 ≤ n * q := mul_nonneg hn0 (le_of_lt hq)
  have hau : n * q * u ≤ 1 / 8 := by
    have := mul_le_mul_of_nonneg_right (le_of_lt hnq) hu0
    linarith
  have hau0 : 0 ≤ n * q * u := mul_nonneg ha0 hu0
  -- the quotient is below twice the source dimension
  have hx2 : k / q ≤ 2 * n := by
    have h1 : k / q * q ≤ 2 * n * q := by
      rw [hxq]
      have : n * q * (1 + u) ≤ n * q * 2 := mul_le_mul_of_nonneg_left (by linarith) ha0
      linarith
    exact le_of_mul_le_mul_right h1 hq
  have hxu : k / q * u ≤ 1 / 4 := by
    have := mul_le_mul_of_nonneg_right hx2 hu0
    have h2 : 2 * n * u ≤ 2 * 2147483648 * u :=
      mul_le_mul_of_nonneg_right (by linarith) hu0
    linarith
  have hxu0 : 0 ≤ k / q * u := mul_nonneg hx0 hu0
  refine ⟨?_, ?_, ?_⟩
  · -- S times q is below n times q
    have h1 : S * q ≤ k * ((1 + u) * (1 + u)) := by
      have := mul_le_mul_of_nonneg_right hSup (le_of_lt hq)
      have e : k / q * (1 + u) * (1 + u) * q = k / q * q * ((1 + u) * (1 + u)) := by ring
      rw [e, hxq] at this
      exact this
    have h2 : k * ((1 + u) * (1 + u)) ≤ (n * q * (1 + u) - 1) * ((1 + u) * (1 + u)) :=
      mul_le_mul_of_nonneg_right (by linarith) (by positivity)
    have e3 : (n * q * (1 + u) - 1) * ((1 + u) * (1 + u))
        = n * q + n * q * u * (3 + 3 * u + u * u) - (1 + 2 * u + u * u) := by ring
    have h4 : n * q * u * (3 + 3 * u + u * u) ≤ 1 / 8 * (3 + 3 * u + u * u) :=
      mul_le_mul_of_nonneg_right hau (by linarith)
    have hSq : S * q < n * q := by linarith
    exact lt_of_mul_lt_mul_right hSq (le_of_lt hq)
  · have e : k / q * (1 - u) * (1 - u) = k / q - k / q * u * (2 - u) := by ring
    have h1 : k / q * u * (2 - u) ≤ 1 / 4 * (2 - u) :=
      mul_le_mul_of_nonneg_right hxu (by linarith)
    linarith
  · have e : k / q * (1 + u) * (1 + u) = k / q + k / q * u * (2 + u) := by ring
    have h1 : k / q * u * (2 + u) ≤ 1 / 4 * (2 + u) :=
      mul_le_mul_of_nonneg_right hxu (by linarith)
    linarith

/-- The source coordinate `(int)(k * fact)` of `effect_scale` for a destination coordinate `k`
below the destination dimension `d`: it is inside the source, and within 1 of
`floor(k / scale)`. -/
theorem scale_coord (n d k : Nat) (scale fact : Flt) (hq : 0 < Flt.val scale)
    (hf1 : 1 / Flt.val scale * (1 - (2 : ℚ) ^ (-(53 : Int))) ≤ Flt.val fact)
    (hf2 : Flt.val fact ≤ 1 / Flt.val scale * (1 + (2 : ℚ) ^ (-(53 : Int))))
    (hn : n < 2 ^ 31) (hnq : (n : ℚ) * Flt.val scale < 2 ^ 31)
    (hd : (d : ℚ) ≤ (n : ℚ) * Flt.val scale * (1 + (2 : ℚ) ^ (-(53 : Int))))
    (hd31 : d < 2 ^ 31) (hk : k < d) :
    ∃ s : Nat, Flt.toInt (Flt.mul 53 (Flt.ofInt 53 (k : Int)) fact) = (s : Int) ∧ s < n ∧
      ⌊(k : ℚ) / Flt.val scale⌋ - 1 ≤ (s : Int) ∧
      (s : Int) ≤ ⌊(k : ℚ) / Flt.val scale⌋ + 1 := by
  have hp : (1 : Nat) ≤ 53 := by norm_num
  have hu' : (2 : ℚ) ^ (-((53 : Nat) : Int)) = (2 : ℚ) ^ (-(53 : Int)) := rfl
  have hu0 : (0 : ℚ) ≤ (2 : ℚ) ^ (-(53 : Int)) := le_of_lt (Flt.two_zpow_pos _)
  have hu : (2 : ℚ) ^ (-(53 : Int)) * 17179869184 ≤ 1 := by norm_num
  have vk : Flt.val (Flt.ofInt 53 (k : Int)) = (k : ℚ) :=
    val_ofInt_nat k (lt_trans (lt_trans hk hd31) (by norm_num))
  have hk0 : (0 : ℚ) ≤ k := Nat.cast_nonneg k
  have hu1 : (0 : ℚ) ≤ 1 - (2 : ℚ) ^ (-(53 : Int)) := by linarith
  have hf0 : 0 ≤ Flt.val fact :=
    le_trans (mul_nonneg (by positivity) hu1) hf1
  have hS0 : 0 ≤ Flt.val (Flt.mul 53 (Flt.ofInt 53 (k : Int)) fact) :=
    Flt.val_mul_nonneg 53 _ _ hp (by rw [vk]; exact hk0) hf0
  have hti := toInt_floor _ hS0
  have hSle := Flt.val_mul_le_rel 53 (Flt.ofInt 53 (k : Int)) fact hp
    (by rw [vk]; positivity)
  have hSge := Flt.val_mul_ge_rel 53 (Flt.ofInt 53 (k : Int)) fact hp
    (by rw [vk]; positivity)
  rw [vk, hu'] at hSle hSge
  rw [hti]
  have hk1 : (k : ℚ) + 1 ≤ (d : ℚ) := by exact_mod_cast hk
  have hnn : (n : ℚ) < 2147483648 := by
    have : n < 2147483648 := by norm_num at hn; exact hn
    exact_mod_cast this
  have hnq' : (n : ℚ) * Flt.val scale < 2147483648 := by
    have : (2 : ℚ) ^ 31 = 2147483648 := by norm_num
    linarith
  obtain ⟨hSn, hxS2, hxS1⟩ := scale_coord_aux _ _ _ (k : ℚ) (n : ℚ) _ hq hu0 hu hk0 hf1 hf2
    hSle hSge (Nat.cast_nonneg n) hnq' hnn (le_trans hk1 hd)
  have hfl0 : 0 ≤ ⌊Flt.val (Flt.mul 53 (Flt.ofInt 53 (k : Int)) fact)⌋ :=
    Int.floor_nonneg.mpr hS0
  refine ⟨⌊Flt.val (Flt.mul 53 (Flt.ofInt 53 (k : Int)) fact)⌋.toNat,
    (Int.toNat_of_nonneg hfl0).symm, ?_, ?_, ?_⟩
  · have h1 : ⌊Flt.val (Flt.mul 53 (Flt.ofInt 53 (k : Int)) fact)⌋ < (n : Int) :=
      Int.floor_lt.mpr (by exact_mod_cast hSn)
    omega
  · rw [Int.toNat_of_nonneg hfl0]
    apply Int.le_floor.mpr
    push_cast
    have := Int.floor_le ((k : ℚ) / Flt.val scale)
    linarith
  · rw [Int.toNat_of_nonneg hfl0]
    have h1 : ⌊Flt.val (Flt.mul 53 (Flt.ofInt 53 (k : Int)) fact)⌋
        < ⌊(k : ℚ) / Flt.val scale⌋ + 2 := by
      apply Int.floor_lt.mpr
      push_cast
      have := Int.lt_floor_add_one ((k : ℚ) / Flt.val scale)
      linarith
    omega

/-- A converted non-negative whole number is not negative. -/
theorem val_ofInt_nonneg (k : Nat) : 0 ≤ Flt.val (Flt.ofInt 53 (k : Int)) := by
  have := Flt.val_round_ge 53 (k : Int) 1 0 ⟨0, 0⟩ (by norm_num) (by norm_num)
    (Flt.isFlt_zero 53) (by rw [Flt.val_zero]; positivity)
  rw [Flt.val_zero] at this
  exact this

/-- The run of `effect_scale` for a factor above 0 and dimensions in the range of `int`: the
quotient `fact = 1.0 / scale` exists, within the relative error `2 ^ (-53)` of `1 / scale`,
and every destination pixel is a copy of the source pixel at the coordinates
`((int)(dx * fact), (int)(dy * fact))`, which are inside the source. -/
theorem effect_scale_run (swidth sheight dw dh : Nat) (scale : Flt) (dest src : List Nat)
    (hq : 0 < Flt.val scale) (hsw : swidth < 2 ^ 31) (hsh : sheight < 2 ^ 31)
    (hdw : Flt.toInt (Flt.mul Flt.double (Flt.ofInt Flt.double (swidth : Int)) scale)
      = (dw : Int))
    (hdh : Flt.toInt (Flt.mul Flt.double (Flt.ofInt Flt.double (sheight : Int)) scale)
      = (dh : Int))
    (hdw31 : dw < 2 ^ 31) (hdh31 : dh < 2 ^ 31)
    (hsrc : src.length = swidth * sheight) (hdest : dest.length = dw * dh) :
    ∃ fact out, Flt.div Flt.double (Flt.ofInt Flt.double 1) scale = some fact ∧
      1 / Flt.val scale * (1 - (2 : ℚ) ^ (-(53 : Int))) ≤ Flt.val fact ∧
      Flt.val fact ≤ 1 / Flt.val scale * (1 + (2 : ℚ) ^ (-(53 : Int))) ∧
      effect_scale dest src swidth sheight scale = some out ∧ out.length = dw * dh ∧
      ∀ dx dy : Nat, dx < dw → dy < dh →
        (Flt.toInt (Flt.mul Flt.double (Flt.ofInt Flt.double (dx : Int)) fact)).toNat < swidth ∧
        (Flt.toInt (Flt.mul Flt.double (Flt.ofInt Flt.double (dy : Int)) fact)).toNat < sheight ∧
        (Flt.toInt (Flt.mul Flt.double (Flt.ofInt Flt.double (dy : Int)) fact)).toNat * swidth
          + (Flt.toInt (Flt.mul Flt.double (Flt.ofInt Flt.double (dx : Int)) fact)).toNat
          < src.length ∧
        out[dy * dw + dx]?
          = src[(Flt.toInt (Flt.mul Flt.double (Flt.ofInt Flt.double (dy : Int)) fact)).toNat
              * swidth
            + (Flt.toInt (Flt.mul Flt.double (Flt.ofInt Flt.double (dx : Int)) fact)).toNat]? := by
  have hp : (1 : Nat) ≤ 53 := by norm_num
  have hm : scale.m ≠ 0 := ne_of_gt ((Flt.val_pos_iff scale).mp hq)
  have hu' : (2 : ℚ) ^ (-((53 : Nat) : Int)) = (2 : ℚ) ^ (-(53 : Int)) := rfl
  obtain ⟨fact, hfact, hf1, hf2⟩ := Flt.div_rel 53 (Flt.ofInt 53 1) scale hp hm
    (by rw [val_dbl_one]; positivity)
  rw [val_dbl_one, hu'] at hf1 hf2
  have hu1 : (0 : ℚ) ≤ 1 - (2 : ℚ) ^ (-(53 : Int)) := by norm_num
  have hf0 : 0 ≤ Flt.val fact := le_trans (mul_nonneg (by positivity) hu1) hf1
  have hnn : ∀ k : Nat,
      0 ≤ Flt.toInt (Flt.mul Flt.double (Flt.ofInt Flt.double (k : Int)) fact) := by
    intro k
    have h0 := Flt.val_mul_nonneg 53 _ _ hp (val_ofInt_nonneg k) hf0
    rw [toInt_floor _ h0]
    exact Int.floor_nonneg.mpr h0
  obtain ⟨hwq, hwd, _, _⟩ := scale_dim swidth dw scale hq hsw hdw hdw31
  obtain ⟨hhq, hhd, _, _⟩ := scale_dim sheight dh scale hq hsh hdh hdh31
  have hcx : ∀ k, k < dw →
      (Flt.toInt (Flt.mul Flt.double (Flt.ofInt Flt.double (k : Int)) fact)).toNat < swidth := by
    intro k hk
    obtain ⟨s, hs, hlt, _⟩ := scale_coord swidth dw k scale fact hq hf1 hf2 hsw hwq hwd hdw31 hk
    have : Flt.toInt (Flt.mul Flt.double (Flt.ofInt Flt.double (k : Int)) fact) = (s : Int) := hs
    rw [this, Int.toNat_ofNat]
    exact hlt
  have hcy : ∀ k, k < dh →
      (Flt.toInt (Flt.mul Flt.double (Flt.ofInt Flt.double (k : Int)) fact)).toNat < sheight := by
    intro k hk
    obtain ⟨s, hs, hlt, _⟩ := scale_coord sheight dh k scale fact hq hf1 hf2 hsh hhq hhd hdh31 hk
    have : Flt.toInt (Flt.mul Flt.double (Flt.ofInt Flt.double (k : Int)) fact) = (s : Int) := hs
    rw [this, Int.toNat_ofNat]
    exact hlt
  obtain ⟨out, h1, h2, h3⟩ := scale_loop_samples swidth sheight dw dh dest src
    (fun k => (Flt.div Flt.double (Flt.ofInt Flt.double 1) scale).map
      (fun f => Flt.toInt (Flt.mul Flt.double (Flt.ofInt Flt.double k) f)))
    (fun k => (Flt.toInt (Flt.mul Flt.double (Flt.ofInt Flt.double (k : Int)) fact)).toNat)
    (by
      intro k
      simp only [hfact, Option.map_some']
      rw [Int.toNat_of_nonneg (hnn k)])
    hcx hcy hsrc hdest
  refine ⟨fact, out, hfact, hf1, hf2, ?_, by rw [h2, hdest], fun dx dy hdx hdy => ?_⟩
  · rw [effect_scale_eq_scale_loop, hdw, hdh]
    exact h1
  · obtain ⟨hs, ho⟩ := h3 dx dy hdx hdy
    exact ⟨hcx dx hdx, hcy dy hdy, hs, ho⟩

/-- C16 (amended): for a factor above 0, dimensions in the range of `int` and buffers of
fewer than `2 ^ 31` pixels (the pixel indices are `int` values), `effect_scale` computes in
`double`.  The destination dimensions `dw = (int)(swidth * scale)` and
`dh = (int)(sheight * scale)` are `floor(swidth * scale)` and `floor(sheight * scale)` or one
more; the quotient `fact = 1.0 / scale` exists and the destination of `dw * dh` pixels is
filled: every destination pixel `(dx, dy)` is a copy of the source pixel at
`(sx, sy) = ((int)(dx * fact), (int)(dy * fact))`, which is inside the source, so no
destination pixel is skipped; `sx` is within 1 of `floor(dx / scale)` and `sy` within 1 of
`floor(dy / scale)`, and both pixel indices are in the range of `int`. -/
theorem effect_scale_samples (swidth sheight dw dh : Nat) (scale : Flt) (dest src : List Nat)
    (hq : 0 < Flt.val scale) (hsw : swidth < 2 ^ 31) (hsh : sheight < 2 ^ 31)
    (hdw : Flt.toInt (Flt.mul Flt.double (Flt.ofInt Flt.double (swidth : Int)) scale)
      = (dw : Int))
    (hdh : Flt.toInt (Flt.mul Flt.double (Flt.ofInt Flt.double (sheight : Int)) scale)
      = (dh : Int))
    (hdw31 : dw < 2 ^ 31) (hdh31 : dh < 2 ^ 31)
    (hspix : swidth * sheight < 2 ^ 31) (hdpix : dw * dh < 2 ^ 31)
    (hsrc : src.length = swidth * sheight) (hdest : dest.length = dw * dh) :
    (⌊(swidth : ℚ) * Flt.val scale⌋ ≤ (dw : Int) ∧
      (dw : Int) ≤ ⌊(swidth : ℚ) * Flt.val scale⌋ + 1) ∧
    (⌊(sheight : ℚ) * Flt.val scale⌋ ≤ (dh : Int) ∧
      (dh : Int) ≤ ⌊(sheight : ℚ) * Flt.val scale⌋ + 1) ∧
    ∃ fact out, Flt.div Flt.double (Flt.ofInt Flt.double 1) scale = some fact ∧
      effect_scale dest src swidth sheight scale = some out ∧ out.length = dw * dh ∧
      ∀ dx dy : Nat, dx < dw → dy < dh →
        ∃ sx sy : Nat,
          Flt.toInt (Flt.mul Flt.double (Flt.ofInt Flt.double (dx : Int)) fact) = (sx : Int) ∧
          Flt.toInt (Flt.mul Flt.double (Flt.ofInt Flt.double (dy : Int)) fact) = (sy : Int) ∧
          sx < swidth ∧ sy < sheight ∧
          ⌊(dx : ℚ) / Flt.val scale⌋ - 1 ≤ (sx : Int) ∧
          (sx : Int) ≤ ⌊(dx : ℚ) / Flt.val scale⌋ + 1 ∧
          ⌊(dy : ℚ) / Flt.val scale⌋ - 1 ≤ (sy : Int) ∧
          (sy : Int) ≤ ⌊(dy : ℚ) / Flt.val scale⌋ + 1 ∧
          sy * swidth + sx < 2 ^ 31 ∧ dy * dw + dx < 2 ^ 31 ∧
          ∃ v, src[sy * swidth + sx]? = some v ∧ out[dy * dw + dx]? = some v := by
  obtain ⟨hwq, hwd, hw1, hw2⟩ := scale_dim swidth dw scale hq hsw hdw hdw31
  obtain ⟨hhq, hhd, hh1, hh2⟩ := scale_dim sheight dh scale hq hsh hdh hdh31
  obtain ⟨fact, out, hfact, hf1, hf2, hrun, hlen, hpix⟩ := effect_scale_run swidth sheight dw dh
    scale dest src hq hsw hsh hdw hdh hdw31 hdh31 hsrc hdest
  refine ⟨⟨hw1, hw2⟩, ⟨hh1, hh2⟩, fact, out, hfact, hrun, hlen, fun dx dy hdx hdy => ?_⟩
  obtain ⟨sx, hsx, hx1, hx2, hx3⟩ :=
    scale_coord swidth dw dx scale fact hq hf1 hf2 hsw hwq hwd hdw31 hdx
  obtain ⟨sy, hsy, hy1, hy2, hy3⟩ :=
    scale_coord sheight dh dy scale fact hq hf1 hf2 hsh hhq hhd hdh31 hdy
  have hsx' : Flt.toInt (Flt.mul Flt.double (Flt.ofInt Flt.double (dx : Int)) fact)
      = (sx : Int) := hsx
  have hsy' : Flt.toInt (Flt.mul Flt.double (Flt.ofInt Flt.double (dy : Int)) fact)
      = (sy : Int) := hsy
  obtain ⟨_, _, hin, hout⟩ := hpix dx dy hdx hdy
  rw [hsx', hsy', Int.toNat_ofNat, Int.toNat_ofNat] at hin hout
  have hdidx : dy * dw + dx < dw * dh :=
    calc dy * dw + dx < dy * dw + dw := by omega
      _ = (dy + 1) * dw := by ring
      _ ≤ dh * dw := Nat.mul_le_mul_right dw hdy
      _ = dw * dh := Nat.mul_comm _ _
  exact ⟨sx, sy, hsx', hsy', hx1, hy1, hx2, hx3, hy2, hy3, by omega, by omega,
    src[sy * swidth + sx], List.getElem?_eq_getElem hin,
    by rw [hout, List.getElem?_eq_getElem hin]⟩

set_option maxRecDepth 1000000 in
/-- Witness for C16: a 2x1 source scaled by the factor 2 fills the 4x2 destination. -/
theorem effect_scale_samples_witness :
    ∃ fact out, Flt.div Flt.double (Flt.ofInt Flt.double 1) (Flt.ofInt Flt.double 2)
        = some fact ∧
      effect_scale [0, 0, 0, 0, 0, 0, 0, 0] [1, 2] (2 : Nat) (1 : Nat) (Flt.ofInt Flt.double 2)
        = some out ∧ out.length = 4 * 2 ∧
      ∀ dx dy : Nat, dx < 4 → dy < 2 →
        ∃ sx sy : Nat,
          Flt.toInt (Flt.mul Flt.double (Flt.ofInt Flt.double (dx : Int)) fact) = (sx : Int) ∧
          Flt.toInt (Flt.mul Flt.double (Flt.ofInt Flt.double (dy : Int)) fact) = (sy : Int) ∧
          sx < 2 ∧ sy < 1 ∧
          ⌊(dx : ℚ) / Flt.val (Flt.ofInt Flt.double 2)⌋ - 1 ≤ (sx : Int) ∧
          (sx : Int) ≤ ⌊(dx : ℚ) / Flt.val (Flt.ofInt Flt.double 2)⌋ + 1 ∧
          ⌊(dy : ℚ) / Flt.val (Flt.ofInt Flt.double 2)⌋ - 1 ≤ (sy : Int) ∧
          (sy : Int) ≤ ⌊(dy : ℚ) / Flt.val (Flt.ofInt Flt.double 2)⌋ + 1 ∧
          sy * 2 + sx < 2 ^ 31 ∧ dy * 4 + dx < 2 ^ 31 ∧
          ∃ v, [1, 2][sy * 2 + sx]? = some v ∧ out[dy * 4 + dx]? = some v :=
  (effect_scale_samples 2 1 4 2 (Flt.ofInt Flt.double 2) [0, 0, 0, 0, 0, 0, 0, 0] [1, 2]
    (by rw [Flt.val_ofInt 53 2 (by norm_num) (by norm_num)]; norm_num)
    (by norm_num) (by norm_num) (by decide) (by decide) (by norm_num) (by norm_num)
    (by norm_num) (by norm_num) rfl rfl).2.2

set_option maxRecDepth 1000000 in
/-- In `double` arithmetic the source coordinate of `effect_scale` can be one below the exact
one: with the factor 49 the destination coordinate 49 is sampled at `(int)(49 * (1.0 / 49))`,
which is 0, where `floor(49 / 49)` is 1. -/
theorem effect_scale_double_coord :
    ∃ f, Flt.div Flt.double (Flt.ofInt Flt.double 1) (Flt.ofInt Flt.double 49) = some f ∧
      Flt.toInt (Flt.mul Flt.double (Flt.ofInt Flt.double 49) f) = 0 := by
  decide

set_option maxRecDepth 1000000 in
/-- Counterexample for C16: the factor 49 on the 2x1 source (7, 9).  The destination has
98x49 pixels; its pixel (49, 0) is 7, the source pixel of column 0, where the source pixel at
column `floor(49 / 49) = 1` is 9. -/
theorem effect_scale_factor_49 :
    ∃ out, effect_scale (List.replicate 4802 0) [7, 9] (2 : Nat) (1 : Nat)
        (Flt.ofInt Flt.double 49) = some out ∧
      out[0 * 98 + 49]? = some 7 ∧ [7, 9][0 * 2 + ⌊(49 : ℚ) / 49⌋.toNat]? = some 9 := by
  obtain ⟨fact, out, hfact, _, _, hrun, _, hpix⟩ := effect_scale_run 2 1 98 49
    (Flt.ofInt Flt.double 49) (List.replicate 4802 0) [7, 9]
    (by rw [Flt.val_ofInt 53 49 (by norm_num) (by norm_num)]; norm_num)
    (by norm_num) (by norm_num) (by decide) (by decide) (by norm_num) (by norm_num)
    rfl (by rw [List.length_replicate])
  obtain ⟨f, hf, h49⟩ := effect_scale_double_coord
  have hfe : fact = f := by
    rw [hfact] at hf
    exact Option.some.inj hf
  subst hfe
  have h0 : Flt.toInt (Flt.mul Flt.double (Flt.ofInt Flt.double ((0 : Nat) : Int)) fact) = 0 := by
    have : Flt.ofInt Flt.double ((0 : Nat) : Int) = ⟨0, 0⟩ := by decide
    rw [this, Flt.mul_zero_left]
    decide
  have h49' : Flt.toInt (Flt.mul Flt.double (Flt.ofInt Flt.double ((49 : Nat) : Int)) fact)
      = 0 := h49
  obtain ⟨_, _, _, hout⟩ := hpix 49 0 (by norm_num) (by norm_num)
  rw [h0, h49'] at hout
  refine ⟨out, hrun, ?_, ?_⟩
  · rw [hout]
    rfl
  · have : ⌊(49 : ℚ) / 49⌋ = 1 := by norm_num
    rw [this]
    rfl

/-! ## Vignette multiplier -/

theorem optRel_eq {α : Type} (a b : Option α) (h : optRel (fun x y => x = y) a b) : a = b := by
  cases a with
  | none =>
    cases b with
    | none => rfl
    | some y => simp [optRel] at h
  | some x =>
    cases b with
    | none => simp [optRel] at h
    | some y =>
      have : x = y := by simpa [optRel] using h
      rw [this]

/-- The test of the sanitizing loop keeps exactly the letters, the digits and the dot. -/
theorem sanitize_keep_eq (ch : Char) : sanitize_keep ch = safe_char ch := by
  unfold sanitize_keep safe_char Char.isAlphanum Char.isAlpha Char.isUpper Char.isLower
    Char.isDigit
  simp only [Char.le_def, ge_iff_le]
  have ha : 'a'.val = 97 := rfl
  have hz : 'z'.val = 122 := rfl
  have hA : 'A'.val = 65 := rfl
  have hZ : 'Z'.val = 90 := rfl
  have h0 : '0'.val = 48 := rfl
  have h9 : '9'.val = 57 := rfl
  have hdot : (ch == '.') = decide (ch = '.') := by
    by_cases h : ch = '.' <;> simp [h]
  rw [ha, hz, hA, hZ, h0, h9, hdot]
  rw [Bool.or_comm (decide (97 ≤ ch.val) && decide (ch.val ≤ 122))]

/-- The sanitizing loop changes the chars of the absolute path only. -/
theorem sanitize_append (c a s : CStr) :
    sanitize (c ++ "/".data ++ a ++ s) c.length a.length
      = c ++ "/".data ++ sanitized a ++ s := by
  have hlen : (c ++ "/".data).length = c.length + 1 := by simp
  apply List.ext_getElem?
  intro i
  unfold sanitize sanitized
  rw [List.getElem?_map, List.getElem?_enum]
  rcases Nat.lt_or_ge i (c.length + 1) with h1 | h1
  · have hl : i < (c ++ "/".data).length := by omega
    rw [List.append_assoc, List.append_assoc (c ++ "/".data), List.getElem?_append_left hl,
      List.getElem?_append_left hl]
    have hn : ¬ (c.length + 1 ≤ i ∧ i < c.length + 1 + a.length) := by omega
    cases (c ++ "/".data)[i]? with
    | none => rfl
    | some x => simp [hn]
  · rcases Nat.lt_or_ge i (c.length + 1 + a.length) with h2 | h2
    · have hl : (c ++ "/".data).length ≤ i := by omega
      have hm : i - (c ++ "/".data).length < a.length := by omega
      have hm' : i - (c ++ "/".data).length
          < (List.map (fun ch => if safe_char ch = true then ch else '_') a).length := by
        rw [List.length_map]; exact hm
      rw [List.append_assoc, List.append_assoc (c ++ "/".data), List.getElem?_append_right hl,
        List.getElem?_append_right hl, List.getElem?_append_left hm,
        List.getElem?_append_left hm', List.getElem?_map]
      cases a[i - (c ++ "/".data).length]? with
      | none => rfl
      | some x => simp [h1, h2, sanitize_keep_eq]
    · have hl : (c ++ "/".data ++ a).length ≤ i := by simp; omega
      have hl' : (c ++ "/".data ++ List.map (fun ch => if safe_char ch = true then ch else '_') a).length
          ≤ i := by simp; omega
      rw [List.getElem?_append_right hl, List.getElem?_append_right hl']
      have hn : ¬ (c.length + 1 ≤ i ∧ i < c.length + 1 + a.length) := by omega
      have e : (c ++ "/".data ++ List.map (fun ch => if safe_char ch = true then ch else '_') a).length
          = (c ++ "/".data ++ a).length := by simp
      rw [e]
      cases s[i - (c ++ "/".data ++ a).length]? with
      | none => rfl
      | some x => simp [hn]

/-- C21: the artifact path is `c ++ "/" ++ s ++ ".so"`, where `s` has the length of the
absolute path `a` and is `a` with every char outside `[A-Za-z0-9.]` replaced by `_` and every
other char kept; the cache directory, the `/` and the suffix `.so` are not altered.  Whatever
the environment, a path returned by `effect_custom_compile` is this function of `c` and `a`
alone. -/
theorem artifact_path_eq (c a : CStr) :
    artifact_path c a = c ++ "/".data ++ sanitized a ++ ".so".data ∧
      (sanitized a).length = a.length ∧
      (∀ (i : Nat) (ch : Char), a[i]? = some ch →
        (sanitized a)[i]? = some (if safe_char ch then ch else '_')) ∧
      (artifact_path c a).take (c.length + 1) = c ++ "/".data ∧
      (artifact_path c a).drop (c.length + 1 + a.length) = ".so".data ∧
      (∀ (W : World) (path : CStr), cache_dir W = some c → W.mkdir_ok c = true →
        W.realpath path = some a →
        ∃ ret ev, effect_custom_compile W path = some (ret, ev) ∧
          (ret = none ∨ ret = some (c ++ "/".data ++ sanitized a ++ ".so".data))) := by
  have hpath : artifact_path c a = c ++ "/".data ++ sanitized a ++ ".so".data := by
    unfold artifact_path
    exact sanitize_append c a ".so".data
  have hlen : (sanitized a).length = a.length := by
    unfold sanitized
    rw [List.length_map]
  refine ⟨hpath, hlen, ?_, ?_, ?_, ?_⟩
  · intro i ch hi
    unfold sanitized
    rw [List.getElem?_map, hi]
    rfl
  · rw [hpath, List.append_assoc (c ++ "/".data)]
    have : (c ++ "/".data).length = c.length + 1 := by simp
    rw [← this, List.take_left]
  · rw [hpath]
    have : (c ++ "/".data ++ sanitized a).length = c.length + 1 + a.length := by
      simp [hlen]
      omega
    rw [← this, List.drop_left]
  · intro W path hc hm hr
    unfold effect_custom_compile
    simp only [hc, hm, hr, Bool.not_true, Bool.false_eq_true, if_false]
    rw [hpath]
    split_ifs
    · exact ⟨_, _, rfl, Or.inr rfl⟩
    · exact ⟨_, _, rfl, Or.inl rfl⟩
    · exact ⟨_, _, rfl, Or.inr rfl⟩

set_option maxRecDepth 1000000 in
/-- An artifact path: the blank and the slashes of the source path become `_`. -/
theorem artifact_path_sample :
    artifact_path "/home/u/.cache/swaylock".data "/home/u/my fx.c".data
      = "/home/u/.cache/swaylock/_home_u_my_fx.c.so".data := by
  decide

/-! ## Safety of a blur line -/

end Effects
